import Mathlib

/-!
# Verification of the warp_cache core against its specification

Shallow embedding of the `warp_cache` Rust sources:

* `src/serde.rs`      — tagged fast-path codec (`Serde` namespace)
* `src/strategies/*`  — in-process eviction strategies (`InProc` namespace)
* `src/store.rs`      — in-process constructor dispatch
* `src/shm/*`         — shared-memory cache engine (`Shm` namespace)

Machine integers are modelled as `Nat`/`Int` with explicit `% 2^w` at the
points where the Rust code casts or can wrap.  Pointer-based structures
(the slot slab, the bucket array) are modelled as Lean lists indexed by
the same indices the code uses; `-1` sentinels are kept as `Int`.
-/

set_option maxHeartbeats 1000000

namespace WarpCache

namespace Serde

/-- Model of the Python values reaching the codec.  A few representation
choices for host types: an `int` is an unbounded `Int` (Python int); a
`float` is carried by its IEEE-754 bit pattern (the codec only moves the
8 little-endian bytes of `f64::to_le_bytes`, it never computes on the
float); a `str` is carried by its UTF-8 byte sequence (the codec only
moves `str::as_bytes`); `pyObj` stands for any host object outside the
fast-path types (dict, list, set, ...), for which `serialize_element`
falls through to `Ok(false)`. -/
inductive PyValue where
  | none
  | bool (b : Bool)
  | int (i : Int)
  | float (bits : Nat)
  | str (utf8 : List Nat)
  | bytes (bs : List Nat)
  | tuple (elems : List PyValue)
  | pyObj

/-- `w`-byte little-endian encoding of `v` (mirrors `to_le_bytes`). -/
def leBytes : Nat → Nat → List Nat
  | 0, _ => []
  | w + 1, v => v % 256 :: leBytes w (v / 256)

/-- Little-endian decoding (mirrors `from_le_bytes`). -/
def fromLeBytes : List Nat → Nat
  | [] => 0
  | b :: rest => b + 256 * fromLeBytes rest

@[simp] theorem leBytes_length (w v : Nat) : (leBytes w v).length = w := by
  induction w generalizing v with
  | zero => rfl
  | succ n ih => simp [leBytes, ih]

/-- The `u64` two's-complement bit pattern of an `i64` value (mirrors
`i64::to_le_bytes` seen as the bytes of the unsigned reinterpretation). -/
def i64bits (i : Int) : Nat := (i % (2 ^ 64 : Int)).toNat

/-- Reinterpret a `u64` bit pattern as an `i64` value (mirrors
`i64::from_le_bytes`). -/
def i64val (n : Nat) : Int := if n < 2 ^ 63 then (n : Int) else (n : Int) - 2 ^ 64

mutual

/-- Shallow embedding of `serialize_element` (src/serde.rs lines 59-136).
Appends the encoding of `v` to `buf` and returns `true`, or returns
`false` leaving the buffer unchanged; in the tuple branch the
`buf.truncate(start)` of the source is rendered as `b.take buf.length`
(the buffer only ever grows, so truncating to the entry length restores
the entry contents).  Casts: `len as u8` is `% 256`, `len as u32` is
`% 2^32`. -/
def serializeElement : PyValue → List Nat → Bool × List Nat
  | .none, buf => (true, buf ++ [1])
  | .bool b, buf => (true, buf ++ [if b then 3 else 2])
  | .int i, buf =>
      if -(2 ^ 63) ≤ i ∧ i < 2 ^ 63 then (true, buf ++ 4 :: leBytes 8 (i64bits i))
      else (false, buf)
  | .float bits, buf => (true, buf ++ 5 :: leBytes 8 bits)
  | .str s, buf => (true, buf ++ 6 :: (leBytes 4 (s.length % 2 ^ 32) ++ s))
  | .bytes bs, buf => (true, buf ++ 7 :: (leBytes 4 (bs.length % 2 ^ 32) ++ bs))
  | .tuple es, buf =>
      if es.length > 255 then (false, buf)
      else
        match serializeList es (buf ++ [8, es.length % 256]) with
        | (true, b) => (true, b)
        | (false, b) => (false, b.take buf.length)
  | .pyObj, buf => (false, buf)

/-- The `for item in tup.iter()` loop of the tuple branch. -/
def serializeList : List PyValue → List Nat → Bool × List Nat
  | [], buf => (true, buf)
  | v :: rest, buf =>
      match serializeElement v buf with
      | (true, b) => serializeList rest b
      | (false, b) => (false, b)

end

mutual

/-- The values `serialize_element` accepts (returns `true` on). -/
def supported : PyValue → Bool
  | .none => true
  | .bool _ => true
  | .int i => decide (-(2 ^ 63) ≤ i ∧ i < 2 ^ 63)
  | .float _ => true
  | .str _ => true
  | .bytes _ => true
  | .tuple es => decide (es.length ≤ 255) && supportedList es
  | .pyObj => false

def supportedList : List PyValue → Bool
  | [] => true
  | v :: rest => supported v && supportedList rest

end

mutual

/-- The byte encoding `serialize_element` produces for a supported value. -/
def encode : PyValue → List Nat
  | .none => [1]
  | .bool b => [if b then 3 else 2]
  | .int i => 4 :: leBytes 8 (i64bits i)
  | .float bits => 5 :: leBytes 8 bits
  | .str s => 6 :: (leBytes 4 (s.length % 2 ^ 32) ++ s)
  | .bytes bs => 7 :: (leBytes 4 (bs.length % 2 ^ 32) ++ bs)
  | .tuple es => 8 :: (es.length % 256) :: encodeList es
  | .pyObj => []

def encodeList : List PyValue → List Nat
  | [] => []
  | v :: rest => encode v ++ encodeList rest

end

/-- Top-level `serialize` (src/serde.rs lines 21-28): `Some(buf)` on
success, `None` (caller falls back to pickle) otherwise. -/
def serialize (v : PyValue) : Option (List Nat) :=
  match serializeElement v [] with
  | (true, b) => some b
  | (false, _) => Option.none

/-- `wrap_pickle` (src/serde.rs lines 46-51): prepend `TAG_PICKLE = 0`. -/
def wrapPickle (pickleBytes : List Nat) : List Nat := 0 :: pickleBytes

mutual

/-- Shallow embedding of `deserialize_one` (src/serde.rs lines 139-222):
parse one element, returning the value and the number of bytes consumed.
The UTF-8 re-validation of `TAG_STR` payloads is not modelled (a `str`
is carried by its byte sequence, which is valid UTF-8 by construction;
an invalid payload raises a host exception rather than returning `None`). -/
def deserializeOne : List Nat → Option (PyValue × Nat)
  | [] => Option.none
  | t :: rest =>
      if t = 1 then some (.none, 1)
      else if t = 2 then some (.bool false, 1)
      else if t = 3 then some (.bool true, 1)
      else if t = 4 then
        if (t :: rest).length < 9 then Option.none
        else some (.int (i64val (fromLeBytes (rest.take 8))), 9)
      else if t = 5 then
        if (t :: rest).length < 9 then Option.none
        else some (.float (fromLeBytes (rest.take 8)), 9)
      else if t = 6 then
        if (t :: rest).length < 5 then Option.none
        else
          let len := fromLeBytes (rest.take 4)
          if (t :: rest).length < 5 + len then Option.none
          else some (.str ((rest.drop 4).take len), 5 + len)
      else if t = 7 then
        if (t :: rest).length < 5 then Option.none
        else
          let len := fromLeBytes (rest.take 4)
          if (t :: rest).length < 5 + len then Option.none
          else some (.bytes ((rest.drop 4).take len), 5 + len)
      else if t = 8 then
        match rest with
        | [] => Option.none
        | cnt :: rest2 =>
            match deserializeMany cnt rest2 with
            | some (vs, consumed) => some (.tuple vs, 2 + consumed)
            | Option.none => Option.none
      else Option.none
termination_by data => (data.length, 0)
decreasing_by
  simp_wf
  apply Prod.Lex.left
  omega

/-- The `for _ in 0..count` element loop of the tuple branch of
`deserialize_one`. -/
def deserializeMany : Nat → List Nat → Option (List PyValue × Nat)
  | 0, _ => some ([], 0)
  | c + 1, data =>
      match deserializeOne data with
      | some (v, k) =>
          match deserializeMany c (data.drop k) with
          | some (vs, k2) => some (v :: vs, k + k2)
          | Option.none => Option.none
      | Option.none => Option.none
termination_by c data => (data.length, c + 1)
decreasing_by
  · apply Prod.Lex.right
    omega
  · rcases Nat.lt_or_ge (data.drop k).length data.length with h | h
    · exact Prod.Lex.left _ _ h
    · have heq : (data.drop k).length = data.length := le_antisymm (by simp) h
      rw [heq]
      exact Prod.Lex.right _ (by omega)

end

mutual

/-- Size side conditions under which the length-prefix casts of the
codec are lossless: `str`/`bytes` payloads shorter than `2^32` (the
length is stored as a `u32`) and `float` bit patterns in `u64` range. -/
def bounded : PyValue → Bool
  | .none => true
  | .bool _ => true
  | .int _ => true
  | .float bits => decide (bits < 2 ^ 64)
  | .str s => decide (s.length < 2 ^ 32)
  | .bytes bs => decide (bs.length < 2 ^ 32)
  | .tuple es => boundedList es
  | .pyObj => true

def boundedList : List PyValue → Bool
  | [] => true
  | v :: rest => bounded v && boundedList rest

end

/-- Top-level `deserialize` (src/serde.rs lines 32-43): `none` means the
caller must route the payload to the external pickle decoder. -/
def deserialize (data : List Nat) : Option PyValue :=
  match data with
  | [] => Option.none
  | t :: _ =>
      if t = 0 then Option.none
      else
        match deserializeOne data with
        | some (v, _) => some v
        | Option.none => Option.none

end Serde

namespace InProc

/-- A `hashlink::LinkedHashMap` modelled as an association list in
insertion order, front (oldest) to back (most recent).  Keys and cached
entries are abstracted to `Nat` tokens (the host objects' identities). -/
abbrev LinkedMap := List (Nat × Nat)

def containsKey (m : LinkedMap) (k : Nat) : Bool := m.any (fun p => p.1 = k)

/-- `LinkedHashMap::remove`: drop the entry with key `k` (keys are unique). -/
def mapRemove (m : LinkedMap) (k : Nat) : LinkedMap :=
  m.filter (fun p => ¬(p.1 = k))

def mapGet (m : LinkedMap) (k : Nat) : Option Nat :=
  (m.find? (fun p => p.1 = k)).map Prod.snd

/-- `MruStrategy` (src/strategies/mru.rs): a `LinkedHashMap` plus capacity. -/
structure Mru where
  map : LinkedMap
  capacity : Nat
  deriving Repr, DecidableEq

/-- `MruStrategy::insert`: if present remove first; else if at capacity
`pop_back()` (evict the most recently used entry at the back); then
insert at the back. -/
def Mru.insert (s : Mru) (k v : Nat) : Mru :=
  let m :=
    if containsKey s.map k then mapRemove s.map k
    else if s.capacity ≤ s.map.length then s.map.dropLast
    else s.map
  { s with map := m ++ [(k, v)] }

/-- `MruStrategy::record_access`: remove and re-insert at the back. -/
def Mru.recordAccess (s : Mru) (k : Nat) : Mru :=
  match mapGet s.map k with
  | some v => { s with map := mapRemove s.map k ++ [(k, v)] }
  | Option.none => s

/-- The four policies of `StrategyEnum` (src/strategies/mod.rs). -/
inductive StrategyKind where
  | lru
  | mru
  | fifo
  | lfu
  deriving Repr, DecidableEq

/-- The strategy-id dispatch of `CachedFunction::new` (src/store.rs lines
69-75): ids outside 0..3 fall through `_ =>` to an `LruStrategy` — the
constructor never fails on a bad strategy id. -/
def selectStrategy (strategy : Nat) : StrategyKind :=
  match strategy with
  | 0 => .lru
  | 1 => .mru
  | 2 => .fifo
  | 3 => .lfu
  | _ => .lru

end InProc

namespace Shm

/-- A slot of the slab: the `SlotHeader` of src/shm/layout.rs plus the
key/value data areas that follow it.  `keyBytes`/`valBytes` hold what the
last `copy_nonoverlapping` wrote into the two areas; reads slice them by
the stored lengths exactly as the code does with `from_raw_parts`.  The
default value is the zero-filled slot of a fresh region. -/
structure Slot where
  key_hash : Nat := 0
  created_at_nanos : Nat := 0
  frequency : Nat := 0
  unique_id : Nat := 0
  occupied : Nat := 0
  key_len : Nat := 0
  value_len : Nat := 0
  prev : Int := 0
  next : Int := 0
  keyBytes : List Nat := []
  valBytes : List Nat := []
  deriving Repr, DecidableEq

/-- A bucket of the open-addressed index (src/shm/layout.rs); the default
is an empty bucket (`slot_index = BUCKET_EMPTY = -1`). -/
structure Bucket where
  hash : Nat := 0
  slot_index : Int := -1
  deriving Repr, DecidableEq

/-- The region header (src/shm/layout.rs), minus `magic`/`version` and
`slot_size` (the byte stride of the slab, which the list model does not
need: slots are indexed directly). -/
structure Header where
  ttl_nanos : Nat
  hits : Nat
  misses : Nat
  oversize_skips : Nat
  strategy : Nat
  capacity : Nat
  ht_capacity : Nat
  max_key_size : Nat
  max_value_size : Nat
  current_size : Nat
  list_head : Int
  list_tail : Int
  free_head : Int
  deriving Repr, DecidableEq

/-- The whole cache: header, bucket array, slot slab, and the per-attach
`next_unique_id` counter of `ShmCache`. -/
structure State where
  header : Header
  buckets : List Bucket
  slots : List Slot
  next_unique_id : Nat
  deriving Repr, DecidableEq

/-- Read the slot at (i32) index `i`; out-of-range reads yield the zero
slot (the Rust code would read raw memory, which is undefined there). -/
def getSlot (slots : List Slot) (i : Int) : Slot := slots.getD i.toNat {}

def setSlot (slots : List Slot) (i : Int) (s : Slot) : List Slot :=
  slots.set i.toNat s

def getBucket (buckets : List Bucket) (i : Nat) : Bucket := buckets.getD i {}

def setBucket (buckets : List Bucket) (i : Nat) (b : Bucket) : List Bucket :=
  buckets.set i b

/-! ### src/shm/ordering.rs -/
/-- `list_remove` (src/shm/ordering.rs lines 24-44). -/
def list_remove (h : Header) (slots : List Slot) (index : Int) :
    Header × List Slot :=
  let s := getSlot slots index
  let prev := s.prev
  let next := s.next
  let hs1 : Header × List Slot :=
    if prev ≠ -1 then (h, setSlot slots prev { getSlot slots prev with next := next })
    else ({ h with list_head := next }, slots)
  let h1 := hs1.1
  let slots1 := hs1.2
  let hs2 : Header × List Slot :=
    if next ≠ -1 then (h1, setSlot slots1 next { getSlot slots1 next with prev := prev })
    else ({ h1 with list_tail := prev }, slots1)
  let h2 := hs2.1
  let slots2 := hs2.2
  (h2, setSlot slots2 index { getSlot slots2 index with prev := -1, next := -1 })

/-- `list_push_tail` (src/shm/ordering.rs lines 50-62). -/
def list_push_tail (h : Header) (slots : List Slot) (index : Int) :
    Header × List Slot :=
  let slots1 := setSlot slots index
    { getSlot slots index with prev := h.list_tail, next := -1 }
  let hs : Header × List Slot :=
    if h.list_tail ≠ -1 then
      (h, setSlot slots1 h.list_tail { getSlot slots1 h.list_tail with next := index })
    else ({ h with list_head := index }, slots1)
  ({ hs.1 with list_tail := index }, hs.2)

/-- `list_move_to_tail` (src/shm/ordering.rs lines 68-76). -/
def list_move_to_tail (h : Header) (slots : List Slot) (index : Int) :
    Header × List Slot :=
  let hs := list_remove h slots index
  list_push_tail hs.1 hs.2 index

/-- The insert-after-cursor write of `list_insert_lfu`. -/
def lfu_insert_after (h : Header) (slots : List Slot) (index cursor : Int) :
    Header × List Slot :=
  let slots1 := setSlot slots index
    { getSlot slots index with prev := cursor, next := (getSlot slots cursor).next }
  let snext := (getSlot slots1 index).next
  let hs : Header × List Slot :=
    if snext ≠ -1 then
      (h, setSlot slots1 snext { getSlot slots1 snext with prev := index })
    else ({ h with list_tail := index }, slots1)
  (hs.1, setSlot hs.2 cursor { getSlot hs.2 cursor with next := index })

/-- The insert-at-head fallthrough of `list_insert_lfu`. -/
def lfu_insert_head (h : Header) (slots : List Slot) (index : Int) :
    Header × List Slot :=
  let slots1 := setSlot slots index
    { getSlot slots index with prev := -1, next := h.list_head }
  let hs : Header × List Slot :=
    if h.list_head ≠ -1 then
      (h, setSlot slots1 h.list_head { getSlot slots1 h.list_head with prev := index })
    else ({ h with list_tail := index }, slots1)
  ({ hs.1 with list_head := index }, hs.2)

/-- The tail-to-head scan loop of `list_insert_lfu`, with fuel (the Rust
loop walks `prev` pointers; on a well-formed list the fuel
`slots.length + 1` passed by `list_insert_lfu` is never exhausted; on
exhaustion the model falls through to the head insert like the loop
does when the cursor reaches the sentinel). -/
def lfuScan (h : Header) (slots : List Slot) (index : Int)
    (newFreq newUid : Nat) : Nat → Int → Header × List Slot
  | 0, _ => lfu_insert_head h slots index
  | fuel + 1, cursor =>
      if cursor = -1 then lfu_insert_head h slots index
      else
        let cs := getSlot slots cursor
        if cs.frequency < newFreq ∨ (cs.frequency = newFreq ∧ cs.unique_id ≤ newUid) then
          lfu_insert_after h slots index cursor
        else
          lfuScan h slots index newFreq newUid fuel cs.prev

/-- `list_insert_lfu` (src/shm/ordering.rs lines 84-125): insert in
ascending `(frequency, unique_id)` position, scanning from the tail. -/
def list_insert_lfu (h : Header) (slots : List Slot) (index : Int) :
    Header × List Slot :=
  let ns := getSlot slots index
  lfuScan h slots index ns.frequency ns.unique_id (slots.length + 1) h.list_tail

/-- `evict_candidate` (src/shm/ordering.rs lines 135-141). -/
def evict_candidate (h : Header) (strategy : Nat) : Int :=
  match strategy with
  | 0 | 2 | 3 => h.list_head
  | 1 => h.list_tail
  | _ => h.list_head

/-- `on_access` (src/shm/ordering.rs lines 152-176). -/
def on_access (h : Header) (slots : List Slot) (index : Int) (strategy : Nat) :
    Header × List Slot :=
  match strategy with
  | 0 | 1 => list_move_to_tail h slots index
  | 2 => (h, slots)
  | 3 =>
      let slots1 := setSlot slots index
        { getSlot slots index with frequency := (getSlot slots index).frequency + 1 }
      let hs := list_remove h slots1 index
      list_insert_lfu hs.1 hs.2 index
  | _ => (h, slots)

/-- `on_insert` (src/shm/ordering.rs lines 182-202). -/
def on_insert (h : Header) (slots : List Slot) (index : Int) (strategy : Nat) :
    Header × List Slot :=
  match strategy with
  | 0 | 1 | 2 => list_push_tail h slots index
  | 3 => list_insert_lfu h slots index
  | _ => list_push_tail h slots index

/-! ### src/shm/hashtable.rs -/
/-- The initial probe index `(key_hash as u32) & mask`. -/
def htStart (ht_capacity key_hash : Nat) : Nat :=
  (key_hash % 2 ^ 32) &&& (ht_capacity - 1)

/-- One probe step `(idx + 1) & mask`. -/
def htNext (ht_capacity idx : Nat) : Nat := (idx + 1) &&& (ht_capacity - 1)

/-- The stored key bytes of a slot, `from_raw_parts(key area, key_len)`. -/
def storedKey (s : Slot) : List Nat := s.keyBytes.take s.key_len

/-- The probe loop of `ht_lookup` (src/shm/hashtable.rs lines 16-54),
with the loop counter `for _ in 0..ht_capacity` as the first `Nat`. -/
def htLookupGo (buckets : List Bucket) (slots : List Slot) (key_hash : Nat)
    (key_bytes : List Nat) (ht_capacity : Nat) : Nat → Nat → Option Int
  | 0, _ => Option.none
  | count + 1, idx =>
      let b := getBucket buckets idx
      if b.slot_index = -1 then Option.none
      else
        if b.hash = key_hash ∧ (getSlot slots b.slot_index).occupied ≠ 0 ∧
            (getSlot slots b.slot_index).key_len = key_bytes.length ∧
            storedKey (getSlot slots b.slot_index) = key_bytes then
          some b.slot_index
        else
          htLookupGo buckets slots key_hash key_bytes ht_capacity count
            (htNext ht_capacity idx)

def ht_lookup (buckets : List Bucket) (slots : List Slot) (key_hash : Nat)
    (key_bytes : List Nat) (ht_capacity : Nat) : Option Int :=
  htLookupGo buckets slots key_hash key_bytes ht_capacity ht_capacity
    (htStart ht_capacity key_hash)

/-- The probe loop of `ht_insert` (src/shm/hashtable.rs lines 60-78); on
fuel exhaustion (a full table, which the 2x sizing rules out) nothing is
written, like the Rust loop that falls off the end. -/
def htInsertGo (buckets : List Bucket) (key_hash : Nat) (slot_index : Int)
    (ht_capacity : Nat) : Nat → Nat → List Bucket
  | 0, _ => buckets
  | count + 1, idx =>
      if (getBucket buckets idx).slot_index = -1 then
        setBucket buckets idx { hash := key_hash, slot_index := slot_index }
      else
        htInsertGo buckets key_hash slot_index ht_capacity count
          (htNext ht_capacity idx)

def ht_insert (buckets : List Bucket) (key_hash : Nat) (slot_index : Int)
    (ht_capacity : Nat) : List Bucket :=
  htInsertGo buckets key_hash slot_index ht_capacity ht_capacity
    (htStart ht_capacity key_hash)

/-- The find phase of `ht_remove` (src/shm/hashtable.rs lines 94-128):
locate the bucket position holding the key (note: no `occupied` check
here, unlike `ht_lookup`). -/
def htFindGo (buckets : List Bucket) (slots : List Slot) (key_hash : Nat)
    (key_bytes : List Nat) (ht_capacity : Nat) : Nat → Nat → Option Nat
  | 0, _ => Option.none
  | count + 1, idx =>
      let b := getBucket buckets idx
      if b.slot_index = -1 then Option.none
      else
        if b.hash = key_hash ∧ (getSlot slots b.slot_index).key_len = key_bytes.length ∧
            storedKey (getSlot slots b.slot_index) = key_bytes then
          some idx
        else
          htFindGo buckets slots key_hash key_bytes ht_capacity count
            (htNext ht_capacity idx)

/-- The backward-shift loop of `ht_remove` (src/shm/hashtable.rs lines
130-164), with fuel (the Rust `loop` terminates because the ≤ 50% load
guarantees an empty bucket; the fuel `ht_capacity` is then enough).  On
loop exit — and on fuel exhaustion — the final empty position is
cleared. -/
def backshiftGo (ht_capacity : Nat) : Nat → List Bucket → Nat → Nat → List Bucket
  | 0, buckets, empt, _ => setBucket buckets empt { hash := 0, slot_index := -1 }
  | fuel + 1, buckets, empt, j =>
      let bj := getBucket buckets j
      if bj.slot_index = -1 then
        setBucket buckets empt { hash := 0, slot_index := -1 }
      else
        let ideal := (bj.hash % 2 ^ 32) &&& (ht_capacity - 1)
        let shouldMove :=
          if empt ≤ j then ideal ≤ empt ∨ j < ideal
          else ideal ≤ empt ∧ j < ideal
        if shouldMove then
          backshiftGo ht_capacity fuel
            (setBucket buckets empt { hash := bj.hash, slot_index := bj.slot_index })
            j (htNext ht_capacity j)
        else
          backshiftGo ht_capacity fuel buckets empt (htNext ht_capacity j)

/-- `ht_remove` (src/shm/hashtable.rs lines 86-167). -/
def ht_remove (buckets : List Bucket) (slots : List Slot) (key_hash : Nat)
    (key_bytes : List Nat) (ht_capacity : Nat) : List Bucket × Bool :=
  match htFindGo buckets slots key_hash key_bytes ht_capacity ht_capacity
      (htStart ht_capacity key_hash) with
  | Option.none => (buckets, false)
  | some remove_idx =>
      (backshiftGo ht_capacity ht_capacity buckets remove_idx
        (htNext ht_capacity remove_idx), true)

/-- `ht_clear` (src/shm/hashtable.rs lines 173-179). -/
def ht_clear (buckets : List Bucket) : List Bucket :=
  buckets.map (fun _ => { hash := 0, slot_index := -1 })

/-- Forward cyclic distance from `a` to `b` in a table of `cap` buckets
(for `a, b < cap`). -/
def distC (cap a b : Nat) : Nat := if a ≤ b then b - a else b + cap - a

/-- The successor position, for `b < cap` equal to `(b + 1) % cap`. -/
def nextP (cap b : Nat) : Nat := if b + 1 = cap then 0 else b + 1

/-- One logical entry of the hash table: the full 64-bit key hash, the
serialized key bytes and the slab slot index it maps to. -/
structure Entry where
  hash : Nat
  key : List Nat
  slot : Int
  deriving Repr, DecidableEq

/-- The slab backs the entry: a real slot index whose slot is occupied
and stores exactly the entry's key. -/
def entryOk (slots : List Slot) (e : Entry) : Prop :=
  e.slot ≠ -1 ∧ (getSlot slots e.slot).occupied ≠ 0 ∧
  (getSlot slots e.slot).key_len = e.key.length ∧
  storedKey (getSlot slots e.slot) = e.key

/-- Bucket `p` is occupied. -/
def occP (B : List Bucket) (p : Nat) : Prop := (getBucket B p).slot_index ≠ -1

/-- Bucket `p` holds entry `e`. -/
def holdsE (B : List Bucket) (p : Nat) (e : Entry) : Prop :=
  (getBucket B p).hash = e.hash ∧ (getBucket B p).slot_index = e.slot

/-- The linear-probing invariant of the open-addressed table: every
entry sits in some bucket, every occupied bucket holds an entry, the
probe path from an occupied bucket's home position to the bucket is
fully occupied, and at most `entries.length` buckets are occupied. -/
structure HtInv (cap : Nat) (entries : List Entry) (B : List Bucket) : Prop where
  blen : B.length = cap
  present : ∀ e ∈ entries, ∃ p, p < cap ∧ holdsE B p e
  content : ∀ p, p < cap → occP B p → ∃ e ∈ entries, holdsE B p e
  path : ∀ p, p < cap → occP B p → ∀ t, t < cap →
      distC cap (htStart cap (getBucket B p).hash) t <
        distC cap (htStart cap (getBucket B p).hash) p →
      occP B t
  uniq : ∀ p q, p < cap → q < cap → p ≠ q → occP B p → occP B q →
      ¬ ((getBucket B p).hash = (getBucket B q).hash ∧
        (getBucket B p).slot_index = (getBucket B q).slot_index)
  card : (Finset.filter (fun p => (getBucket B p).slot_index ≠ -1)
      (Finset.range cap)).card ≤ entries.length

/-- The state of the backward-shift loop of `ht_remove`, scanning at `j`
with the (conceptual) hole at `i`, for the remaining entries. -/
structure RemInv (cap : Nat) (entries : List Entry) (B : List Bucket)
    (i j : Nat) : Prop where
  blen : B.length = cap
  ilt : i < cap
  jlt : j < cap
  inej : i ≠ j
  istale : occP B i
  present : ∀ e ∈ entries, ∃ p, p < cap ∧ p ≠ i ∧ holdsE B p e
  content : ∀ p, p < cap → p ≠ i → occP B p → ∃ e ∈ entries, holdsE B p e
  path : ∀ p, p < cap → p ≠ i → occP B p → ∀ t, t < cap → t ≠ i →
      distC cap (htStart cap (getBucket B p).hash) t <
        distC cap (htStart cap (getBucket B p).hash) p →
      occP B t
  crossAhead : ∀ p, p < cap → p ≠ i → occP B p →
      distC cap (htStart cap (getBucket B p).hash) i <
        distC cap (htStart cap (getBucket B p).hash) p →
      distC cap i j ≤ distC cap i p
  uniq : ∀ p q, p < cap → q < cap → p ≠ q → p ≠ i → q ≠ i → occP B p → occP B q →
      ¬ ((getBucket B p).hash = (getBucket B q).hash ∧
        (getBucket B p).slot_index = (getBucket B q).slot_index)
  card : (Finset.filter (fun p => (getBucket B p).slot_index ≠ -1)
      (Finset.range cap)).card ≤ entries.length + 1

/-- The table (with a cleared index) built by inserting `entries` in
order, as `ShmCache::insert` does through `ht_insert`. -/
def buildHt (cap : Nat) (entries : List Entry) : List Bucket :=
  entries.foldl (fun B e => ht_insert B e.hash e.slot cap) (List.replicate cap {})

/-! ### src/shm/mod.rs — the `ShmCache` engine

The seqlock is elided: the model is the sequential semantics in which an
optimistic read always validates and the writer sections run atomically,
which is exactly the state at writer-lock release that the invariants of
the spec talk about.  `current_time_nanos()` becomes an explicit `now`
argument.  The atomic `u64` stat counters are `Nat` (their wrap at
`2^64` is unreachable and not modelled). -/
/-- `ShmGetResult`. -/
inductive GetResult where
  | hit (value : List Nat)
  | miss
  deriving Repr, DecidableEq

/-- `OptimisticResult` (src/shm/mod.rs lines 29-36). -/
inductive OptimisticResult where
  | hit (value : List Nat) (slot_index : Int)
  | miss
  | expired (slot_index : Int)
  deriving Repr, DecidableEq

/-- The stored value bytes of a slot, `from_raw_parts(value area, value_len)`. -/
def storedVal (s : Slot) : List Nat := s.valBytes.take s.value_len

/-- The probe loop of `ht_lookup_checked` (src/shm/mod.rs lines 154-219):
the bounds-checked lookup of the optimistic read path, including the TTL
check (`now.saturating_sub(created_at) > ttl_nanos` is `Nat` subtraction). -/
def htLookupCheckedGo (buckets : List Bucket) (slots : List Slot)
    (key_hash : Nat) (key_bytes : List Nat) (ht_capacity capacity : Nat)
    (max_data_size ttl_nanos now : Nat) : Nat → Nat → OptimisticResult
  | 0, _ => .miss
  | count + 1, idx =>
      let b := getBucket buckets idx
      if b.slot_index = -1 then .miss
      else if b.hash = key_hash then
        let slot_index := b.slot_index
        if slot_index < 0 ∨ capacity ≤ slot_index.toNat then .miss
        else
          let s := getSlot slots slot_index
          if s.occupied ≠ 0 ∧ s.key_len = key_bytes.length then
            if max_data_size < s.key_len + s.value_len then .miss
            else if storedKey s = key_bytes then
              if 0 < ttl_nanos ∧ ttl_nanos < now - s.created_at_nanos then
                .expired slot_index
              else .hit (storedVal s) slot_index
            else
              htLookupCheckedGo buckets slots key_hash key_bytes ht_capacity
                capacity max_data_size ttl_nanos now count (htNext ht_capacity idx)
          else
            htLookupCheckedGo buckets slots key_hash key_bytes ht_capacity
              capacity max_data_size ttl_nanos now count (htNext ht_capacity idx)
      else
        htLookupCheckedGo buckets slots key_hash key_bytes ht_capacity
          capacity max_data_size ttl_nanos now count (htNext ht_capacity idx)

/-- `ht_lookup_checked` as invoked by `get_optimistic` (src/shm/mod.rs
lines 223-257), reading its parameters from the header. -/
def htLookupChecked (st : State) (key_hash : Nat) (key_bytes : List Nat)
    (now : Nat) : OptimisticResult :=
  let h := st.header
  htLookupCheckedGo st.buckets st.slots key_hash key_bytes h.ht_capacity
    h.capacity (h.max_key_size + h.max_value_size) h.ttl_nanos now
    h.ht_capacity (htStart h.ht_capacity key_hash)

/-- `remove_slot` (src/shm/mod.rs lines 452-485): drop the index entry,
unlink from the order list, mark free and push onto the free list. -/
def remove_slot (st : State) (slot_idx : Int) (key_bytes : List Nat) : State :=
  let h := st.header
  let s := getSlot st.slots slot_idx
  let br := ht_remove st.buckets st.slots s.key_hash key_bytes h.ht_capacity
  let hs := list_remove h st.slots slot_idx
  let h2 := hs.1
  let slots2 := hs.2
  let slots3 := setSlot slots2 slot_idx
    { getSlot slots2 slot_idx with occupied := 0, next := h2.free_head, prev := -1 }
  { st with
    header := { h2 with free_head := slot_idx, current_size := h2.current_size - 1 },
    buckets := br.1,
    slots := slots3 }

/-- `ShmCache::get` (src/shm/mod.rs lines 263-332), sequential semantics:
optimistic checked lookup, then — under the write lock — the re-verified
ordering update on a hit (skipped for FIFO) or the re-verified removal
of an expired entry; finally the atomic stat bump. -/
def get (st : State) (key_hash : Nat) (key_bytes : List Nat) (now : Nat) :
    GetResult × State :=
  match htLookupChecked st key_hash key_bytes now with
  | .hit value slot_index =>
      let strategy := st.header.strategy
      let st1 :=
        if strategy ≠ 2 then
          let s := getSlot st.slots slot_index
          if s.occupied ≠ 0 ∧ s.key_hash = key_hash then
            let hs := on_access st.header st.slots slot_index strategy
            { st with header := hs.1, slots := hs.2 }
          else st
        else st
      (.hit value,
        { st1 with header := { st1.header with hits := st1.header.hits + 1 } })
  | .miss =>
      (.miss, { st with header := { st.header with misses := st.header.misses + 1 } })
  | .expired slot_index =>
      let st1 :=
        let s := getSlot st.slots slot_index
        if s.occupied ≠ 0 ∧ s.key_hash = key_hash then
          if storedKey s = key_bytes then remove_slot st slot_index key_bytes
          else st
        else st
      (.miss, { st1 with header := { st1.header with misses := st1.header.misses + 1 } })

/-- The fresh slot record written by the new-entry path of `insert_inner`
(src/shm/mod.rs lines 418-436): note `frequency = 0` and `prev = next = -1`. -/
def freshSlot (old : Slot) (key_hash : Nat) (key_bytes value_bytes : List Nat)
    (now uid : Nat) : Slot :=
  { old with
    occupied := 1
    key_hash := key_hash
    key_len := key_bytes.length
    value_len := value_bytes.length
    created_at_nanos := now
    frequency := 0
    prev := -1
    next := -1
    unique_id := uid
    keyBytes := key_bytes
    valBytes := value_bytes }

/-- `insert_inner` (src/shm/mod.rs lines 342-449). -/
def insert_inner (st : State) (key_hash : Nat) (key_bytes value_bytes : List Nat)
    (now : Nat) : State :=
  let h := st.header
  match ht_lookup st.buckets st.slots key_hash key_bytes h.ht_capacity with
  | some idx =>
      -- overwrite in place: value_len, value copy, created_at, then on_access
      let s := getSlot st.slots idx
      let slots1 := setSlot st.slots idx
        { s with value_len := value_bytes.length, created_at_nanos := now,
                 valBytes := value_bytes }
      let hs := on_access h slots1 idx h.strategy
      { st with header := hs.1, slots := hs.2 }
  | Option.none =>
      let alloc : Option (Int × State) :=
        if h.free_head ≠ -1 then
          some (h.free_head,
            { st with header := { h with free_head := (getSlot st.slots h.free_head).next } })
        else if h.capacity ≤ h.current_size then
          let evict_idx := evict_candidate h h.strategy
          if evict_idx = -1 then Option.none
          else
            let es := getSlot st.slots evict_idx
            let br := ht_remove st.buckets st.slots es.key_hash (storedKey es) h.ht_capacity
            let hs := list_remove h st.slots evict_idx
            some (evict_idx,
              { st with
                header := { hs.1 with current_size := hs.1.current_size - 1 },
                buckets := br.1,
                slots := hs.2 })
        else Option.none
      match alloc with
      | Option.none => st
      | some (slot_idx, st2) =>
          let slots3 := setSlot st2.slots slot_idx
            (freshSlot (getSlot st2.slots slot_idx) key_hash key_bytes value_bytes
              now st2.next_unique_id)
          let buckets4 := ht_insert st2.buckets key_hash slot_idx st2.header.ht_capacity
          let hs := on_insert st2.header slots3 slot_idx st2.header.strategy
          { header := { hs.1 with current_size := hs.1.current_size + 1 },
            buckets := buckets4,
            slots := hs.2,
            next_unique_id := st2.next_unique_id + 1 }

/-- `ShmCache::insert` (write lock around `insert_inner`). -/
def insert (st : State) (key_hash : Nat) (key_bytes value_bytes : List Nat)
    (now : Nat) : State :=
  insert_inner st key_hash key_bytes value_bytes now

/-- `clear_inner` (src/shm/mod.rs lines 495-525): clear the index, chain
every slot back into the free list, zero the counters and sentinels. -/
def clear (st : State) : State :=
  let h := st.header
  let buckets := ht_clear st.buckets
  let slots := (List.range h.capacity).map (fun i =>
    { getSlot st.slots (i : Int) with
      occupied := 0, prev := -1,
      next := if i + 1 < h.capacity then ((i : Int) + 1) else -1 })
  { st with
    header := { h with current_size := 0, hits := 0, misses := 0,
                       oversize_skips := 0, list_head := -1, list_tail := -1,
                       free_head := 0 },
    buckets := buckets,
    slots := slots }

/-- `ShmCache::is_oversize` (src/shm/mod.rs lines 140-143). -/
def is_oversize (h : Header) (key_bytes value_bytes : List Nat) : Bool :=
  decide (h.max_key_size < key_bytes.length) ||
    decide (h.max_value_size < value_bytes.length)

/-- `ShmCache::record_oversize_skip` (src/shm/mod.rs lines 528-531). -/
def record_oversize_skip (st : State) : State :=
  { st with header := { st.header with oversize_skips := st.header.oversize_skips + 1 } }

/-- Smallest power of two `≥ n` (`usize::next_power_of_two`). -/
def nextPow2 (n : Nat) : Nat := 2 ^ Nat.clog 2 n

/-- `ShmRegion::create` (src/shm/region.rs lines 36-139): zero-filled
region, header stamped with the given parameters — the strategy id is
stored as passed, with no validation — buckets all empty, slots chained
into the free list.  `ShmCache::create_or_open` wraps this with
`ttl_nanos = ttl_secs * 1e9` and `next_unique_id = 0`. -/
def create (strategy capacity max_key_size max_value_size ttl_nanos : Nat) : State :=
  let ht_capacity := nextPow2 (capacity * 2)
  { header :=
      { ttl_nanos := ttl_nanos, hits := 0, misses := 0, oversize_skips := 0,
        strategy := strategy, capacity := capacity, ht_capacity := ht_capacity,
        max_key_size := max_key_size, max_value_size := max_value_size,
        current_size := 0, list_head := -1, list_tail := -1, free_head := 0 },
    buckets := List.replicate ht_capacity {},
    slots := (List.range capacity).map (fun i =>
      { occupied := 0, prev := -1,
        next := if i + 1 < capacity then ((i : Int) + 1) else -1 }),
    next_unique_id := 0 }

/-! ### src/shared_store.rs — the shared-backend callable wrapper,
byte-level: keys and values arrive already serialized. -/
/-- Result of `SharedCachedFunction::__call__`: either a cached value was
returned, or the wrapped callable ran and its result is returned. -/
inductive CallOutcome where
  | cached (value_bytes : List Nat)
  | computed (result_bytes : List Nat)
  deriving Repr, DecidableEq

/-- `store_result` (src/shared_store.rs lines 230-259) after the value
has been serialized to `value_bytes`: skip and count oversize pairs,
insert the rest. -/
def store_result (st : State) (key_hash : Nat) (key_bytes value_bytes : List Nat)
    (now : Nat) : State :=
  if is_oversize st.header key_bytes value_bytes then record_oversize_skip st
  else insert st key_hash key_bytes value_bytes now

/-- `SharedCachedFunction::__call__` (src/shared_store.rs lines 92-135)
with the wrapped callable's serialized result passed as `fresult`: the
(oddly guarded) key-size pre-check, the cache lookup, and on a miss the
call plus `store_result`.  `info().max_size` is the slot capacity. -/
def call (st : State) (key_hash : Nat) (key_bytes fresult : List Nat)
    (now : Nat) : CallOutcome × State :=
  if key_bytes.length > st.header.capacity ∧ is_oversize st.header key_bytes [] then
    (.computed fresult, record_oversize_skip st)
  else
    match get st key_hash key_bytes now with
    | (.hit v, st2) => (.cached v, st2)
    | (.miss, st2) => (.computed fresult, store_result st2 key_hash key_bytes fresult now)

/-- A one-slot state with an entry whose TTL has expired, to witness
`ttl_expiry_behavior`. -/
def c5state : State :=
  { header :=
      { ttl_nanos := 5, hits := 0, misses := 0, oversize_skips := 0,
        strategy := 0, capacity := 1, ht_capacity := 2, max_key_size := 4,
        max_value_size := 4, current_size := 1, list_head := 0,
        list_tail := 0, free_head := -1 },
    buckets := [{ hash := 2, slot_index := 0 }, {}],
    slots := [{ key_hash := 2, created_at_nanos := 0, frequency := 0,
                unique_id := 0, occupied := 1, key_len := 1, value_len := 1,
                prev := -1, next := -1, keyBytes := [9], valBytes := [7] }],
    next_unique_id := 1 }

/-- An empty one-slot cache with `max_key_size = 1`, to witness
`oversize_skip` with a two-byte key. -/
def c6state : State :=
  { header :=
      { ttl_nanos := 0, hits := 0, misses := 0, oversize_skips := 0,
        strategy := 0, capacity := 1, ht_capacity := 2, max_key_size := 1,
        max_value_size := 4, current_size := 0, list_head := -1,
        list_tail := -1, free_head := 0 },
    buckets := [{}, {}],
    slots := [{}],
    next_unique_id := 0 }

/-- A one-slot cache holding a TTL-expired entry under key `[9]`: an
oversize-value call for that key at `now = 100` first removes the
expired entry (shrinking `current_size`) and only then records the
oversize skip. -/
def c6xstate : State :=
  { header :=
      { ttl_nanos := 5, hits := 0, misses := 0, oversize_skips := 0,
        strategy := 0, capacity := 1, ht_capacity := 2, max_key_size := 4,
        max_value_size := 4, current_size := 1, list_head := 0,
        list_tail := 0, free_head := -1 },
    buckets := [{ hash := 2, slot_index := 0 }, {}],
    slots := [{ key_hash := 2, created_at_nanos := 0, frequency := 0,
                unique_id := 0, occupied := 1, key_len := 1, value_len := 1,
                prev := -1, next := -1, keyBytes := [9], valBytes := [7] }],
    next_unique_id := 1 }

/-! ### Representation of the intrusive order list (for the LFU invariant) -/
/-- `a` and `b` are consecutive in the intrusive list. -/
def linked (slots : List Slot) (a b : Nat) : Prop :=
  (getSlot slots (a : Int)).next = (b : Int) ∧
  (getSlot slots (b : Int)).prev = (a : Int)

/-- First element as an `i32` index, `-1` when empty. -/
def headD (l : List Nat) (d : Int) : Int :=
  match l with
  | [] => d
  | a :: _ => (a : Int)

/-- Last element as an `i32` index, `-1` when empty. -/
def lastD (l : List Nat) (d : Int) : Int :=
  match l.getLast? with
  | Option.none => d
  | some a => (a : Int)

/-- The header/slab state represents the order list `l` (head to tail). -/
structure listRep (hdr : Header) (slots : List Slot) (l : List Nat) : Prop where
  chain : List.Chain' (linked slots) l
  head_eq : hdr.list_head = headD l (-1)
  tail_eq : hdr.list_tail = lastD l (-1)
  head_prev : ∀ a ∈ l.head?, (getSlot slots (a : Int)).prev = -1
  tail_next : ∀ z ∈ l.getLast?, (getSlot slots (z : Int)).next = -1
  nodup : l.Nodup
  bounded : ∀ a ∈ l, a < slots.length

/-- The header/slab state represents the free list `f` (chained by `next`
from `free_head`). -/
structure freeRep (hdr : Header) (slots : List Slot) (f : List Nat) : Prop where
  head_eq : hdr.free_head = headD f (-1)
  chain : List.Chain' (fun (a b : Nat) => (getSlot slots (a : Int)).next = (b : Int)) f
  last_next : ∀ z ∈ f.getLast?, (getSlot slots (z : Int)).next = -1
  nodup : f.Nodup
  bounded : ∀ a ∈ f, a < slots.length
  unocc : ∀ a ∈ f, (getSlot slots (a : Int)).occupied = 0

/-- The `(frequency, unique_id)` ordering key of the LFU policy. -/
def lfuKey (slots : List Slot) (a : Nat) : Nat × Nat :=
  ((getSlot slots (a : Int)).frequency, (getSlot slots (a : Int)).unique_id)

/-- The comparison of `list_insert_lfu`: strictly smaller frequency, or
equal frequency and no larger unique id. -/
def keyLe (p q : Nat × Nat) : Prop :=
  p.1 < q.1 ∨ (p.1 = q.1 ∧ p.2 ≤ q.2)

instance (p q : Nat × Nat) : Decidable (keyLe p q) := by
  unfold keyLe
  exact inferInstance

/-- The order list is sorted ascending by `(frequency, unique_id)`. -/
def sortedRep (slots : List Slot) (l : List Nat) : Prop :=
  List.Chain' (fun a b => keyLe (lfuKey slots a) (lfuKey slots b)) l

/-- A slot with the prev/next links blanked: what the order-list
operations leave untouched. -/
def slotCore (s : Slot) : Slot := { s with prev := 0, next := 0 }

/-- The LFU invariant of the spec: some order list `l` and free list `f`
are represented, the occupied slots are exactly `l`, and `l` is sorted
by `(frequency, unique_id)`.  Bucket indices never fall below the empty
sentinel. -/
def LfuInv (st : State) : Prop :=
  ∃ l f : List Nat,
    listRep st.header st.slots l ∧
    freeRep st.header st.slots f ∧
    (∀ i : Nat, i < st.slots.length →
      ((getSlot st.slots (i : Int)).occupied ≠ 0 ↔ i ∈ l)) ∧
    sortedRep st.slots l ∧
    (∀ b ∈ st.buckets, -1 ≤ b.slot_index)

/-- A two-slot slab exercising the LFU order-list invariant: slot 0 sits
alone on the order list with frequency 1, slot 1 is a fresh unoccupied
slot with frequency 0. -/
def c4slots : List Slot :=
  [{ key_hash := 0, frequency := 1, unique_id := 5, occupied := 1,
     prev := -1, next := -1 },
   { frequency := 0, unique_id := 7, occupied := 0, prev := -1, next := -1 }]

/-- The matching header: the order list is exactly slot 0. -/
def c4hdr : Header :=
  { ttl_nanos := 0, hits := 0, misses := 0, oversize_skips := 0, strategy := 3,
    capacity := 2, ht_capacity := 4, max_key_size := 16, max_value_size := 16,
    current_size := 1, list_head := 0, list_tail := 0, free_head := -1 }

/-- A two-slot slab backing two hash-table entries whose hashes collide
at bucket 0 of a 4-bucket table. -/
def c2slots : List Slot :=
  [{ occupied := 1, key_len := 1, keyBytes := [1] },
   { occupied := 1, key_len := 1, keyBytes := [2] }]

/-- The two colliding entries. -/
def c2entries : List Entry :=
  [{ hash := 0, key := [1], slot := 0 }, { hash := 4, key := [2], slot := 1 }]

end Shm

namespace Serde

theorem fromLeBytes_leBytes (w v : Nat) : fromLeBytes (leBytes w v) = v % 256 ^ w := by
  induction w generalizing v with
  | zero => simp [leBytes, fromLeBytes, Nat.mod_one]
  | succ n ih =>
      rw [leBytes, fromLeBytes, ih, pow_succ']
      exact (Nat.mod_mul).symm

theorem i64val_i64bits (i : Int) (h1 : -(2 ^ 63) ≤ i) (h2 : i < 2 ^ 63) :
    i64val (i64bits i) = i := by
  unfold i64val i64bits
  have hm : i % (2 ^ 64 : Int) = if 0 ≤ i then i else i + 2 ^ 64 := by
    split <;> omega
  split <;> omega

mutual

/-- `serialize_element` succeeds exactly on supported values, appends the
encoding on success, and leaves the buffer untouched on failure. -/
theorem serializeElement_eq (v : PyValue) (buf : List Nat) :
    serializeElement v buf =
      (supported v, buf ++ (if supported v then encode v else [])) := by
  cases v with
  | none => simp [serializeElement, supported, encode]
  | bool b => simp [serializeElement, supported, encode]
  | int i =>
      simp only [serializeElement, supported, encode]
      by_cases h : -(2 ^ 63) ≤ i ∧ i < 2 ^ 63
      · have hd : decide (-(2 ^ 63) ≤ i ∧ i < 2 ^ 63) = true := decide_eq_true h
        rw [if_pos h, hd]
        simp
      · have hd : decide (-(2 ^ 63) ≤ i ∧ i < 2 ^ 63) = false := decide_eq_false h
        rw [if_neg h, hd]
        simp
  | float bits => simp [serializeElement, supported, encode]
  | str s => simp [serializeElement, supported, encode]
  | bytes bs => simp [serializeElement, supported, encode]
  | tuple es =>
      by_cases hlen : es.length > 255
      · simp [serializeElement, supported, hlen, Nat.not_le.mpr hlen]
      · have hle : es.length ≤ 255 := Nat.not_lt.mp hlen
        rw [serializeElement]
        rw [if_neg (by omega)]
        rw [serializeList_eq es (buf ++ [8, es.length % 256])]
        by_cases hs : supportedList es
        · simp [supported, encode, hs, hle]
        · simp only [hs, if_false, Bool.and_false]
          simp [supported, hs, List.take_left']
  | pyObj => simp [serializeElement, supported]

theorem serializeList_eq (vs : List PyValue) (buf : List Nat) :
    serializeList vs buf =
      (supportedList vs,
        buf ++ (if supportedList vs then encodeList vs
                else encodeList (vs.takeWhile supported))) := by
  cases vs with
  | nil => simp [serializeList, supportedList, encodeList]
  | cons v rest =>
      rw [serializeList, serializeElement_eq v buf]
      by_cases hv : supported v
      · simp only [hv, if_true]
        rw [serializeList_eq rest (buf ++ encode v)]
        by_cases hr : supportedList rest
        · simp [supportedList, hv, hr, encodeList]
        · simp [supportedList, hv, hr, encodeList, List.takeWhile_cons_of_pos]
      · simp [supportedList, hv, List.takeWhile_cons_of_neg, encodeList]

end

theorem serialize_eq_of_supported (v : PyValue) (h : supported v = true) :
    serialize v = some (encode v) := by
  unfold serialize
  rw [serializeElement_eq]
  simp [h]

theorem serialize_eq_none_of_unsupported (v : PyValue) (h : supported v = false) :
    serialize v = Option.none := by
  unfold serialize
  rw [serializeElement_eq]
  simp [h]

theorem i64bits_lt (i : Int) : i64bits i < 2 ^ 64 := by
  unfold i64bits
  have h1 : 0 ≤ i % (2 ^ 64 : Int) := Int.emod_nonneg i (by norm_num)
  have h2 : i % (2 ^ 64 : Int) < 2 ^ 64 := Int.emod_lt_of_pos i (by norm_num)
  omega

theorem deserializeOne_tag4 (payload rest : List Nat) (h : payload.length = 8) :
    deserializeOne (4 :: (payload ++ rest)) =
      some (.int (i64val (fromLeBytes payload)), 9) := by
  unfold deserializeOne
  have h9 : ¬ ((4 : Nat) :: (payload ++ rest)).length < 9 := by
    simp [List.length_append, h]
  simp [h9, List.take_left' h]
  omega

theorem deserializeOne_tag5 (payload rest : List Nat) (h : payload.length = 8) :
    deserializeOne (5 :: (payload ++ rest)) =
      some (.float (fromLeBytes payload), 9) := by
  unfold deserializeOne
  have h9 : ¬ ((5 : Nat) :: (payload ++ rest)).length < 9 := by
    simp [List.length_append, h]
  simp [h9, List.take_left' h]
  omega

theorem deserializeOne_tag6 (lenb s rest : List Nat) (h4 : lenb.length = 4)
    (hlen : fromLeBytes lenb = s.length) :
    deserializeOne (6 :: (lenb ++ (s ++ rest))) = some (.str s, 5 + s.length) := by
  unfold deserializeOne
  have hA : ¬ ((6 : Nat) :: (lenb ++ (s ++ rest))).length < 5 := by
    simp [List.length_append, h4]
  have hB : ¬ ((6 : Nat) :: (lenb ++ (s ++ rest))).length < 5 + s.length := by
    simp [List.length_append, h4]
    omega
  simp [hA, hB, List.take_left' h4, hlen, List.drop_left' h4, List.take_left]
  omega

theorem deserializeOne_tag7 (lenb s rest : List Nat) (h4 : lenb.length = 4)
    (hlen : fromLeBytes lenb = s.length) :
    deserializeOne (7 :: (lenb ++ (s ++ rest))) = some (.bytes s, 5 + s.length) := by
  unfold deserializeOne
  have hA : ¬ ((7 : Nat) :: (lenb ++ (s ++ rest))).length < 5 := by
    simp [List.length_append, h4]
  have hB : ¬ ((7 : Nat) :: (lenb ++ (s ++ rest))).length < 5 + s.length := by
    simp [List.length_append, h4]
    omega
  simp [hA, hB, List.take_left' h4, hlen, List.drop_left' h4, List.take_left]
  omega

theorem deserializeOne_tag8 (cnt : Nat) (data : List Nat) :
    deserializeOne (8 :: cnt :: data) =
      (match deserializeMany cnt data with
        | some (vs, consumed) => some (.tuple vs, 2 + consumed)
        | Option.none => Option.none) := by
  unfold deserializeOne
  norm_num

theorem deserializeOne_tag0 (data : List Nat) :
    deserializeOne (0 :: data) = Option.none := by
  unfold deserializeOne
  norm_num

theorem deserializeMany_zero (data : List Nat) :
    deserializeMany 0 data = some ([], 0) := by
  unfold deserializeMany
  rfl

theorem deserializeMany_succ (c : Nat) (data : List Nat) :
    deserializeMany (c + 1) data =
      (match deserializeOne data with
        | some (v, k) =>
            match deserializeMany c (data.drop k) with
            | some (vs, k2) => some (v :: vs, k + k2)
            | Option.none => Option.none
        | Option.none => Option.none) := by
  conv_lhs => unfold deserializeMany

mutual

/-- Parsing the encoding of a supported, size-bounded value consumes
exactly the encoding and returns the value, for any trailing bytes. -/
theorem deserializeOne_encode (v : PyValue) (hs : supported v = true)
    (hb : bounded v = true) (rest : List Nat) :
    deserializeOne (encode v ++ rest) = some (v, (encode v).length) := by
  cases v with
  | none =>
      simp only [encode, List.singleton_append]
      unfold deserializeOne
      simp
  | bool b =>
      cases b <;>
        · simp only [encode, List.singleton_append]
          unfold deserializeOne
          simp
  | int i =>
      have hlt : i64bits i < 2 ^ 64 := i64bits_lt i
      have hiv : i64val (i64bits i) = i := by
        have hd : (-(2 ^ 63) ≤ i ∧ i < 2 ^ 63) := by
          have := hs
          rw [supported] at this
          exact of_decide_eq_true this
        exact i64val_i64bits i hd.1 hd.2
      simp only [encode, List.cons_append]
      rw [deserializeOne_tag4 _ rest (leBytes_length 8 (i64bits i))]
      rw [fromLeBytes_leBytes]
      rw [show (256 : Nat) ^ 8 = 2 ^ 64 by norm_num, Nat.mod_eq_of_lt hlt, hiv]
      simp
  | float bits =>
      have hlt : bits < 2 ^ 64 := by
        have := hb
        rw [bounded] at this
        exact of_decide_eq_true this
      simp only [encode, List.cons_append]
      rw [deserializeOne_tag5 _ rest (leBytes_length 8 bits)]
      rw [fromLeBytes_leBytes]
      rw [show (256 : Nat) ^ 8 = 2 ^ 64 by norm_num, Nat.mod_eq_of_lt hlt]
      simp
  | str s =>
      have hlt : s.length < 2 ^ 32 := by
        have := hb
        rw [bounded] at this
        exact of_decide_eq_true this
      have hmod : s.length % 2 ^ 32 = s.length := Nat.mod_eq_of_lt hlt
      have hfl : fromLeBytes (leBytes 4 (s.length % 2 ^ 32)) = s.length := by
        rw [fromLeBytes_leBytes, show (256 : Nat) ^ 4 = 2 ^ 32 by norm_num]
        omega
      simp only [encode, List.cons_append, List.append_assoc]
      rw [deserializeOne_tag6 _ s rest (leBytes_length 4 _) hfl]
      simp [List.length_append]
      omega
  | bytes bs =>
      have hlt : bs.length < 2 ^ 32 := by
        have := hb
        rw [bounded] at this
        exact of_decide_eq_true this
      have hfl : fromLeBytes (leBytes 4 (bs.length % 2 ^ 32)) = bs.length := by
        rw [fromLeBytes_leBytes, show (256 : Nat) ^ 4 = 2 ^ 32 by norm_num]
        omega
      simp only [encode, List.cons_append, List.append_assoc]
      rw [deserializeOne_tag7 _ bs rest (leBytes_length 4 _) hfl]
      simp [List.length_append]
      omega
  | tuple es =>
      have hsp : es.length ≤ 255 ∧ supportedList es = true := by
        have := hs
        rw [supported] at this
        simp only [Bool.and_eq_true, decide_eq_true_eq] at this
        exact this
      have hbd : boundedList es = true := by
        have := hb
        rw [bounded] at this
        exact this
      have hmod : es.length % 256 = es.length := Nat.mod_eq_of_lt (by omega)
      have hIH := deserializeMany_encodeList es hsp.2 hbd rest
      simp only [encode, hmod, List.cons_append]
      rw [deserializeOne_tag8, hIH]
      simp [List.length_append]
      omega
  | pyObj => simp [supported] at hs

theorem deserializeMany_encodeList (vs : List PyValue)
    (hs : supportedList vs = true) (hb : boundedList vs = true)
    (rest : List Nat) :
    deserializeMany vs.length (encodeList vs ++ rest) =
      some (vs, (encodeList vs).length) := by
  cases vs with
  | nil => simp [encodeList, deserializeMany_zero]
  | cons v vs' =>
      have hsp : supported v = true ∧ supportedList vs' = true := by
        have := hs
        rw [supportedList] at this
        simpa using this
      have hbd : bounded v = true ∧ boundedList vs' = true := by
        have := hb
        rw [boundedList] at this
        simpa using this
      have hIH := deserializeMany_encodeList vs' hsp.2 hbd.2 rest
      rw [List.length_cons, encodeList, List.append_assoc]
      rw [deserializeMany_succ]
      rw [deserializeOne_encode v hsp.1 hbd.1 (encodeList vs' ++ rest)]
      simp only [List.drop_left, hIH, List.length_append]

end

theorem supportedList_eq_all (vs : List PyValue) :
    supportedList vs = vs.all supported := by
  induction vs with
  | nil => simp [supportedList]
  | cons v rest ih => rw [supportedList, ih, List.all_cons]

/-- Every encoding of a supported value starts with a tag byte in 1..8. -/
theorem encode_head (v : PyValue) (hs : supported v = true) :
    ∃ t tl, encode v = t :: tl ∧ 1 ≤ t ∧ t ≤ 8 := by
  cases v with
  | none => exact ⟨1, [], by simp [encode], by omega, by omega⟩
  | bool b =>
      cases b
      · exact ⟨2, [], by simp [encode], by omega, by omega⟩
      · exact ⟨3, [], by simp [encode], by omega, by omega⟩
  | int i =>
      refine ⟨4, leBytes 8 (i64bits i), by simp [encode], by omega, by omega⟩
  | float bits => exact ⟨5, leBytes 8 bits, by simp [encode], by omega, by omega⟩
  | str s =>
      exact ⟨6, leBytes 4 (s.length % 2 ^ 32) ++ s, by simp [encode], by omega, by omega⟩
  | bytes bs =>
      exact ⟨7, leBytes 4 (bs.length % 2 ^ 32) ++ bs, by simp [encode], by omega, by omega⟩
  | tuple es =>
      exact ⟨8, (es.length % 256) :: encodeList es, by simp [encode], by omega, by omega⟩
  | pyObj => simp [supported] at hs

theorem deserialize_encode (v : PyValue) (hs : supported v = true)
    (hb : bounded v = true) : deserialize (encode v) = some v := by
  have h := deserializeOne_encode v hs hb []
  rw [List.append_nil] at h
  obtain ⟨t, tl, het, h1, h8⟩ := encode_head v hs
  rw [het] at h ⊢
  unfold deserialize
  simp [h, show ¬ t = 0 by omega]

theorem deserialize_wrapPickle (b : List Nat) :
    deserialize (wrapPickle b) = Option.none := by
  unfold deserialize wrapPickle
  simp

/-- C3 (amended): round-trip through the tagged codec, for supported
values whose `str`/`bytes` payloads are shorter than `2^32` bytes (the
length prefix is a `u32`; `len as u32` silently truncates above that). -/
theorem serde_roundtrip (v : PyValue) (hs : supported v = true)
    (hb : bounded v = true) :
    serialize v = some (encode v) ∧ deserialize (encode v) = some v :=
  ⟨serialize_eq_of_supported v hs, deserialize_encode v hs hb⟩

theorem serde_roundtrip_witness :
    supported (.tuple [.int 5, .str [104, 105], .none]) = true ∧
    bounded (.tuple [.int 5, .str [104, 105], .none]) = true ∧
    (serialize (.tuple [.int 5, .str [104, 105], .none]) =
        some (encode (.tuple [.int 5, .str [104, 105], .none])) ∧
      deserialize (encode (.tuple [.int 5, .str [104, 105], .none])) =
        some (.tuple [.int 5, .str [104, 105], .none])) := by
  refine ⟨?_, ?_, ?_⟩
  · simp [supported, supportedList]
  · simp [bounded, boundedList]
  · exact serde_roundtrip _ (by simp [supported, supportedList])
      (by simp [bounded, boundedList])

/-- C3 (counterexample): a byte string of `2^32` zero bytes serializes
with a wrapped-to-zero `u32` length prefix, and deserializes to the
empty byte string, so `deserialize (serialize v) ≠ v`. -/
theorem serde_roundtrip_counterexample :
    serialize (.bytes (List.replicate (2 ^ 32) 0)) =
        some (encode (.bytes (List.replicate (2 ^ 32) 0))) ∧
    deserialize (encode (.bytes (List.replicate (2 ^ 32) 0))) =
        some (.bytes []) ∧
    PyValue.bytes (List.replicate (2 ^ 32) 0) ≠ PyValue.bytes [] := by
  have hlen : (List.replicate (2 ^ 32) (0 : Nat)).length = 2 ^ 32 :=
    List.length_replicate _ _
  have henc : encode (.bytes (List.replicate (2 ^ 32) 0)) =
      7 :: ([0, 0, 0, 0] ++ ([] ++ List.replicate (2 ^ 32) 0)) := by
    rw [encode, hlen, Nat.mod_self]
    rfl
  refine ⟨serialize_eq_of_supported _ (by rw [supported]), ?_, ?_⟩
  · rw [henc]
    unfold deserialize
    rw [deserializeOne_tag7 [0, 0, 0, 0] [] (List.replicate (2 ^ 32) 0) rfl rfl]
    norm_num
  · intro h
    have h' : List.replicate (2 ^ 32) (0 : Nat) = [] := by injection h
    have h2 := congrArg List.length h'
    rw [hlen] at h2
    simp at h2

/-- C7: a tuple with an unsupported element (or more than 255 elements)
is reported unsupported and the output buffer is returned exactly as it
was before the tuple's encoding began. -/
theorem tuple_failure_restores_buffer (es : List PyValue) (buf : List Nat)
    (h : 255 < es.length ∨ ∃ v ∈ es, supported v = false) :
    serializeElement (.tuple es) buf = (false, buf) := by
  have hsup : supported (.tuple es) = false := by
    rw [supported]
    rcases h with h | ⟨v, hv, hvf⟩
    · simp [Nat.not_le.mpr h]
    · have hall : supportedList es = false := by
        rw [supportedList_eq_all]
        simp only [List.all_eq_false]
        exact ⟨v, hv, by simp [hvf]⟩
      simp [hall]
  rw [serializeElement_eq]
  simp [hsup]

theorem tuple_failure_restores_buffer_witness :
    (255 < ([PyValue.pyObj] : List PyValue).length ∨
      ∃ v ∈ [PyValue.pyObj], supported v = false) ∧
    serializeElement (.tuple [.pyObj]) [9, 9] = (false, [9, 9]) :=
  ⟨Or.inr ⟨.pyObj, by simp, by rw [supported]⟩,
    tuple_failure_restores_buffer [.pyObj] [9, 9]
      (Or.inr ⟨.pyObj, by simp, by rw [supported]⟩)⟩

/-- C10 (amended): successful `serialize` output is non-empty with first
byte a tag in 1..8; `wrap_pickle` output is non-empty with first byte 0
and is routed to the pickle decoder by `deserialize`; and a fast-path
encoding is never routed to the pickle decoder provided every
`str`/`bytes` component is shorter than `2^32` bytes. -/
theorem tag_routing (v : PyValue) (b : List Nat) (hs : supported v = true) :
    serialize v = some (encode v) ∧
    (∃ t tl, encode v = t :: tl ∧ 1 ≤ t ∧ t ≤ 8) ∧
    wrapPickle b ≠ [] ∧ (wrapPickle b).head? = some 0 ∧
    deserialize (wrapPickle b) = Option.none ∧
    (bounded v = true → deserialize (encode v) ≠ Option.none) := by
  refine ⟨serialize_eq_of_supported v hs, encode_head v hs, by simp [wrapPickle],
    by simp [wrapPickle], deserialize_wrapPickle b, fun hb => ?_⟩
  rw [deserialize_encode v hs hb]
  simp

theorem tag_routing_witness :
    supported (.int 5) = true ∧
    (serialize (.int 5) = some (encode (.int 5)) ∧
      (∃ t tl, encode (.int 5) = t :: tl ∧ 1 ≤ t ∧ t ≤ 8) ∧
      wrapPickle [42] ≠ [] ∧ (wrapPickle [42]).head? = some 0 ∧
      deserialize (wrapPickle [42]) = Option.none ∧
      (bounded (.int 5) = true → deserialize (encode (.int 5)) ≠ Option.none)) :=
  ⟨by simp [supported], tag_routing (.int 5) [42] (by simp [supported])⟩

/-- Parsing a tuple encoding whose first element carries a truncated
(wrapped-to-zero) length prefix consumes only the 5 header bytes, then
fails on the `0x00` payload byte that follows, so `deserialize` reports
`none` (the pickle route). -/
theorem deserialize_truncated_tuple (R : List Nat) :
    deserialize (8 :: 2 :: (7 :: ([0, 0, 0, 0] ++ ((0 :: R) ++ [1])))) =
      Option.none := by
  have htag7 : deserializeOne (7 :: 0 :: 0 :: 0 :: 0 :: 0 :: (R ++ [1])) =
      some (.bytes [], 5) := by
    have h := deserializeOne_tag7 [0, 0, 0, 0] [] ((0 :: R) ++ [1]) rfl rfl
    simpa using h
  have hm1 : deserializeMany 1 (0 :: (R ++ [1])) = Option.none := by
    rw [show (1 : Nat) = 0 + 1 from rfl, deserializeMany_succ, deserializeOne_tag0]
  have hm2 : deserializeMany 2 (7 :: 0 :: 0 :: 0 :: 0 :: 0 :: (R ++ [1])) =
      Option.none := by
    rw [show (2 : Nat) = 1 + 1 from rfl, deserializeMany_succ, htag7]
    simp [hm1]
  have hone : deserializeOne (8 :: 2 :: 7 :: 0 :: 0 :: 0 :: 0 :: 0 :: (R ++ [1])) =
      Option.none := by
    rw [deserializeOne_tag8, hm2]
  unfold deserialize
  simp [hone]

/-- C10 (counterexample): a tuple containing a `2^32`-byte byte string
round-trips its first element to 5 consumed bytes only (the truncated
length prefix), after which parsing resynchronizes on a `0x00` payload
byte, fails, and `deserialize` returns `none` — routing a fast-path
encoding to the pickle decoder. -/
theorem tag_routing_counterexample :
    serialize (.tuple [.bytes (List.replicate (2 ^ 32) 0), .none]) =
        some (encode (.tuple [.bytes (List.replicate (2 ^ 32) 0), .none])) ∧
    deserialize (encode (.tuple [.bytes (List.replicate (2 ^ 32) 0), .none])) =
        Option.none := by
  have hlen : (List.replicate (2 ^ 32) (0 : Nat)).length = 2 ^ 32 :=
    List.length_replicate _ _
  have hsup : supported (.tuple [.bytes (List.replicate (2 ^ 32) 0), .none]) = true := by
    rw [supported, supportedList, supported, supportedList, supported, supportedList]
    rfl
  refine ⟨serialize_eq_of_supported _ hsup, ?_⟩
  have h1 : leBytes 4 ((List.replicate (2 ^ 32) (0 : Nat)).length % 2 ^ 32) =
      [0, 0, 0, 0] := by
    rw [hlen, Nat.mod_self]
    rfl
  have henc : encode (.tuple [.bytes (List.replicate (2 ^ 32) 0), .none]) =
      8 :: 2 :: (7 :: ([0, 0, 0, 0] ++ (List.replicate (2 ^ 32) 0 ++ [1]))) := by
    rw [encode, encodeList, encode, encodeList, encode, encodeList, h1]
    rw [List.append_nil, List.cons_append, List.append_assoc]
    rfl
  rw [henc]
  have hrep : List.replicate (2 ^ 32) (0 : Nat) = 0 :: List.replicate (2 ^ 32 - 1) 0 := by
    have h := List.replicate_succ (0 : Nat) (2 ^ 32 - 1)
    rw [show (2 ^ 32 - 1) + 1 = 2 ^ 32 by omega] at h
    exact h
  rw [hrep]
  exact deserialize_truncated_tuple (List.replicate (2 ^ 32 - 1) 0)

end Serde

namespace InProc

/-- C8 (counterexample): under MRU with capacity 3, after
insert A, insert B, insert C, access A, insert D the cache holds
{B, C, D} — A (key 0) is not present, refuting content = {A, B, D}. -/
theorem mru_scenario_counterexample :
    (((((((Mru.mk [] 3).insert 0 10).insert 1 11).insert 2 12).recordAccess 0).insert 3 13).map.map Prod.fst = [1, 2, 3]) ∧
    containsKey ((((((Mru.mk [] 3).insert 0 10).insert 1 11).insert 2 12).recordAccess 0).insert 3 13).map 0 = false := by
  decide

/-- C8 (amended): under MRU with capacity 3, the sequence insert A,
insert B, insert C, access A, insert D leaves exactly {B, C, D} with D
at the tail of the order (the access moves A to the tail, so inserting D
evicts A, the most recently used). -/
theorem mru_scenario :
    (((((((Mru.mk [] 3).insert 0 10).insert 1 11).insert 2 12).recordAccess 0).insert 3 13).map.map Prod.fst = [1, 2, 3]) ∧
    ((((((Mru.mk [] 3).insert 0 10).insert 1 11).insert 2 12).recordAccess 0).insert 3 13).map.getLast? = some (3, 13) := by
  decide

/-- C9 (counterexample): constructing with strategy id 7 surfaces no
error: the in-process constructor silently selects the same strategy as
id 0 (LRU), and the shared region is created storing the raw id. -/
theorem bad_strategy_id_counterexample :
    selectStrategy 7 = selectStrategy 0 ∧
    selectStrategy 7 = StrategyKind.lru ∧
    (Shm.create 7 4 16 64 0).header.strategy = 7 :=
  ⟨rfl, rfl, rfl⟩

/-- C9 (amended): construction with a strategy id outside {0,1,2,3}
succeeds silently (no configuration error is surfaced): the in-process
backend falls back to LRU, and the shared backend stores the id as given
while its ordering dispatch degenerates to push-tail on insert, no-op on
access and head eviction (FIFO behaviour). -/
theorem bad_strategy_id_fallback (s : Nat) (hs : 3 < s) :
    selectStrategy s = StrategyKind.lru ∧
    (∀ cap mks mvs ttl, (Shm.create s cap mks mvs ttl).header.strategy = s) ∧
    (∀ h slots i, Shm.on_insert h slots i s = Shm.list_push_tail h slots i) ∧
    (∀ h slots i, Shm.on_access h slots i s = (h, slots)) ∧
    (∀ h, Shm.evict_candidate h s = h.list_head) := by
  obtain ⟨t, rfl⟩ : ∃ t, s = t + 4 := ⟨s - 4, by omega⟩
  exact ⟨rfl, fun _ _ _ _ => rfl, fun _ _ _ => rfl, fun _ _ _ => rfl, fun _ => rfl⟩

theorem bad_strategy_id_fallback_witness :
    3 < 7 ∧
    (selectStrategy 7 = StrategyKind.lru ∧
      (∀ cap mks mvs ttl, (Shm.create 7 cap mks mvs ttl).header.strategy = 7) ∧
      (∀ h slots i, Shm.on_insert h slots i 7 = Shm.list_push_tail h slots i) ∧
      (∀ h slots i, Shm.on_access h slots i 7 = (h, slots)) ∧
      (∀ h, Shm.evict_candidate h 7 = h.list_head)) :=
  ⟨by decide, bad_strategy_id_fallback 7 (by decide)⟩

end InProc

namespace Shm

/-- C1: the eviction-order operations follow the policy dispatch table —
on insert, LRU (0), MRU (1) and FIFO (2) push to the tail while LFU (3)
inserts in sorted position (and the engine writes the new slot with
frequency 0); on access, LRU and MRU move to the tail, FIFO is a no-op,
and LFU bumps the frequency then removes and re-inserts sorted; the
evict candidate is the head for LRU/FIFO/LFU and the tail for MRU. -/
theorem policy_dispatch_table :
    (∀ h slots i, on_insert h slots i 0 = list_push_tail h slots i ∧
        on_insert h slots i 1 = list_push_tail h slots i ∧
        on_insert h slots i 2 = list_push_tail h slots i ∧
        on_insert h slots i 3 = list_insert_lfu h slots i) ∧
    (∀ old kh kb vb now uid, (freshSlot old kh kb vb now uid).frequency = 0) ∧
    (∀ h slots i, on_access h slots i 0 = list_move_to_tail h slots i ∧
        on_access h slots i 1 = list_move_to_tail h slots i ∧
        on_access h slots i 2 = (h, slots) ∧
        on_access h slots i 3 =
          (let slots1 := setSlot slots i
            { getSlot slots i with frequency := (getSlot slots i).frequency + 1 }
           let hs := list_remove h slots1 i
           list_insert_lfu hs.1 hs.2 i)) ∧
    (∀ h, evict_candidate h 0 = h.list_head ∧ evict_candidate h 1 = h.list_tail ∧
        evict_candidate h 2 = h.list_head ∧ evict_candidate h 3 = h.list_head) :=
  ⟨fun _ _ _ => ⟨rfl, rfl, rfl, rfl⟩, fun _ _ _ _ _ _ => rfl,
    fun _ _ _ => ⟨rfl, rfl, rfl, rfl⟩, fun _ => ⟨rfl, rfl, rfl, rfl⟩⟩

/-- A slot read back as occupied is a real member of the slab (the zero
default of an out-of-range read is unoccupied). -/
theorem getSlot_mem (slots : List Slot) (i : Int)
    (h : (getSlot slots i).occupied ≠ 0) : getSlot slots i ∈ slots := by
  unfold getSlot at *
  by_cases hlt : i.toNat < slots.length
  · rw [List.getD_eq_getElem _ _ hlt]
    exact List.getElem_mem _
  · rw [List.getD_eq_default _ _ (Nat.le_of_not_lt hlt)] at h
    simp at h

theorem getSlot_setSlot_self (slots : List Slot) (i : Int) (s : Slot)
    (h : i.toNat < slots.length) : getSlot (setSlot slots i s) i = s := by
  simp [getSlot, setSlot, List.getD, List.getElem?_set_self, h]

/-- `list_remove` never touches the free list, the size, the counters, or
the slab length. -/
theorem list_remove_misc (h : Header) (slots : List Slot) (i : Int) :
    (list_remove h slots i).1.free_head = h.free_head ∧
    (list_remove h slots i).1.current_size = h.current_size ∧
    (list_remove h slots i).1.misses = h.misses ∧
    (list_remove h slots i).1.hits = h.hits ∧
    (list_remove h slots i).1.oversize_skips = h.oversize_skips ∧
    (list_remove h slots i).2.length = slots.length := by
  simp only [list_remove]
  split <;> split <;> simp [setSlot]

/-- Everything `htLookupCheckedGo` promises when it reports an expired
entry: the slot is occupied, holds exactly the probed key, its index is
within bounds, and the TTL comparison really failed. -/
theorem lookupCheckedGo_expired (buckets : List Bucket) (slots : List Slot)
    (kh : Nat) (kb : List Nat) (htc cap mds ttl now : Nat) :
    ∀ (count idx : Nat) (i : Int),
      htLookupCheckedGo buckets slots kh kb htc cap mds ttl now count idx =
        .expired i →
      (getSlot slots i).occupied ≠ 0 ∧ (getSlot slots i).key_len = kb.length ∧
      storedKey (getSlot slots i) = kb ∧ 0 < ttl ∧
      ttl < now - (getSlot slots i).created_at_nanos ∧ 0 ≤ i ∧ i.toNat < cap := by
  intro count
  induction count with
  | zero => intro idx i h; simp [htLookupCheckedGo] at h
  | succ n ih =>
      intro idx i h
      simp only [htLookupCheckedGo] at h
      split at h
      · exact absurd h (by simp)
      · split at h
        · split at h
          · exact absurd h (by simp)
          · next hbound =>
              split at h
              · next hocc =>
                  split at h
                  · exact absurd h (by simp)
                  · split at h
                    · next hkey =>
                        split at h
                        · next httl =>
                            rw [OptimisticResult.expired.injEq] at h
                            subst h
                            refine ⟨hocc.1, hocc.2, hkey, httl.1, httl.2, ?_, ?_⟩ <;>
                              omega
                        · exact absurd h (by simp)
                    · exact ih _ _ h
              · exact ih _ _ h
        · exact ih _ _ h

/-- What `htLookupCheckedGo` promises on a hit: the slot is occupied and
holds a key of exactly the probed length. -/
theorem lookupCheckedGo_hit (buckets : List Bucket) (slots : List Slot)
    (kh : Nat) (kb : List Nat) (htc cap mds ttl now : Nat) :
    ∀ (count idx : Nat) (v : List Nat) (i : Int),
      htLookupCheckedGo buckets slots kh kb htc cap mds ttl now count idx =
        .hit v i →
      (getSlot slots i).occupied ≠ 0 ∧ (getSlot slots i).key_len = kb.length := by
  intro count
  induction count with
  | zero => intro idx v i h; simp [htLookupCheckedGo] at h
  | succ n ih =>
      intro idx v i h
      simp only [htLookupCheckedGo] at h
      split at h
      · exact absurd h (by simp)
      · split at h
        · split at h
          · exact absurd h (by simp)
          · split at h
            · next hocc =>
                split at h
                · exact absurd h (by simp)
                · split at h
                  · split at h
                    · exact absurd h (by simp)
                    · rw [OptimisticResult.hit.injEq] at h
                      rw [← h.2]
                      exact ⟨hocc.1, hocc.2⟩
                  · exact ih _ _ _ h
            · exact ih _ _ _ h
        · exact ih _ _ _ h

/-- If every occupied slot's key is within `max_key_size`, a longer key
cannot be found: the checked lookup reports a miss. -/
theorem lookupChecked_miss_of_long_key (st : State) (kh now : Nat)
    (kb : List Nat)
    (hb : ∀ s ∈ st.slots, s.occupied ≠ 0 → s.key_len ≤ st.header.max_key_size)
    (hk : st.header.max_key_size < kb.length) :
    htLookupChecked st kh kb now = .miss := by
  cases hres : htLookupChecked st kh kb now with
  | miss => rfl
  | hit v i =>
      obtain ⟨hocc, hlen⟩ := lookupCheckedGo_hit _ _ _ _ _ _ _ _ _ _ _ _ _ hres
      have hle := hb _ (getSlot_mem st.slots i hocc) hocc
      omega
  | expired i =>
      obtain ⟨hocc, hlen, -⟩ := lookupCheckedGo_expired _ _ _ _ _ _ _ _ _ _ _ _ hres
      have hle := hb _ (getSlot_mem st.slots i hocc) hocc
      omega

/-- Reducing `get` on a checked-lookup miss: only the miss counter moves. -/
theorem get_of_miss (st : State) (kh now : Nat) (kb : List Nat)
    (h : htLookupChecked st kh kb now = .miss) :
    get st kh kb now =
      (.miss, { st with header := { st.header with misses := st.header.misses + 1 } }) := by
  unfold get
  rw [h]

/-- Reducing `get` on an expired entry whose re-verification succeeds:
the slot is removed and the miss counter bumped. -/
theorem get_of_expired (st : State) (kh now : Nat) (kb : List Nat) (i : Int)
    (hres : htLookupChecked st kh kb now = .expired i)
    (hocc : (getSlot st.slots i).occupied ≠ 0)
    (hkh : (getSlot st.slots i).key_hash = kh)
    (hkey : storedKey (getSlot st.slots i) = kb) :
    get st kh kb now =
      (.miss, { remove_slot st i kb with
        header := { (remove_slot st i kb).header with
          misses := (remove_slot st i kb).header.misses + 1 } }) := by
  unfold get
  rw [hres]
  simp [hocc, hkh, hkey]

theorem remove_slot_spec (st : State) (i : Int) (kb : List Nat)
    (hlen : i.toNat < st.slots.length) :
    (remove_slot st i kb).header.free_head = i ∧
    (remove_slot st i kb).header.current_size = st.header.current_size - 1 ∧
    (remove_slot st i kb).header.misses = st.header.misses ∧
    (getSlot (remove_slot st i kb).slots i).occupied = 0 ∧
    (getSlot (remove_slot st i kb).slots i).next = st.header.free_head := by
  have hmisc := list_remove_misc st.header st.slots i
  have hl : i.toNat < ((list_remove st.header st.slots i).2).length := by
    rw [hmisc.2.2.2.2.2]
    exact hlen
  simp only [remove_slot]
  simp [getSlot_setSlot_self _ _ _ hl, hmisc.1, hmisc.2.1, hmisc.2.2.1]

/-- C5: when `ttl_nanos > 0`, a `get` whose checked lookup observes
`now - created_at_nanos > ttl_nanos` at slot `i` returns Miss, removes
the entry under the write lock after re-verifying the slot still holds
the same key — decrementing `current_size` and pushing the slot onto
the free list — and increments `misses`; and when `ttl_nanos = 0` the
checked lookup never reports any entry as expired.  (`key_hash = kh`
and `capacity ≤ |slots|` are the well-formedness of a state produced by
the engine itself.) -/
theorem ttl_expiry_behavior :
    (∀ (st : State) (kh now : Nat) (kb : List Nat) (i : Int),
        htLookupChecked st kh kb now = .expired i →
        (getSlot st.slots i).key_hash = kh →
        st.header.capacity ≤ st.slots.length →
        (get st kh kb now).1 = .miss ∧
        (get st kh kb now).2.header.misses = st.header.misses + 1 ∧
        (get st kh kb now).2.header.current_size = st.header.current_size - 1 ∧
        (get st kh kb now).2.header.free_head = i ∧
        (getSlot (get st kh kb now).2.slots i).occupied = 0 ∧
        (getSlot (get st kh kb now).2.slots i).next = st.header.free_head) ∧
    (∀ (st : State) (kh now : Nat) (kb : List Nat) (i : Int),
        st.header.ttl_nanos = 0 →
        htLookupChecked st kh kb now ≠ .expired i) := by
  constructor
  · intro st kh now kb i hres hkh hcap
    obtain ⟨hocc, hlen', hkey, httl, hexp, hge, hlt⟩ :=
      lookupCheckedGo_expired _ _ _ _ _ _ _ _ _ _ _ _ hres
    have hib : i.toNat < st.slots.length := lt_of_lt_of_le hlt hcap
    have hspec := remove_slot_spec st i kb hib
    rw [get_of_expired st kh now kb i hres hocc hkh hkey]
    exact ⟨rfl, congrArg (· + 1) hspec.2.2.1, hspec.2.1, hspec.1,
      hspec.2.2.2.1, hspec.2.2.2.2⟩
  · intro st kh now kb i h0 hres
    obtain ⟨-, -, -, httl, -⟩ :=
      lookupCheckedGo_expired _ _ _ _ _ _ _ _ _ _ _ _ hres
    omega

theorem ttl_expiry_behavior_witness :
    htLookupChecked c5state 2 [9] 100 = .expired 0 ∧
    (getSlot c5state.slots 0).key_hash = 2 ∧
    c5state.header.capacity ≤ c5state.slots.length ∧
    ((get c5state 2 [9] 100).1 = .miss ∧
      (get c5state 2 [9] 100).2.header.misses = c5state.header.misses + 1 ∧
      (get c5state 2 [9] 100).2.header.current_size =
        c5state.header.current_size - 1 ∧
      (get c5state 2 [9] 100).2.header.free_head = 0 ∧
      (getSlot (get c5state 2 [9] 100).2.slots 0).occupied = 0 ∧
      (getSlot (get c5state 2 [9] 100).2.slots 0).next =
        c5state.header.free_head) :=
  ⟨by decide, by decide, by decide,
    ttl_expiry_behavior.1 c5state 2 100 [9] 0 (by decide) (by decide) (by decide)⟩

theorem call_of_miss (st : State) (kh now : Nat) (kb fres : List Nat)
    (hmiss : htLookupChecked st kh kb now = .miss)
    (hpre : ¬(kb.length > st.header.capacity ∧
        is_oversize st.header kb [] = true)) :
    call st kh kb fres now =
      (.computed fres,
        store_result
          { st with header := { st.header with misses := st.header.misses + 1 } }
          kh kb fres now) := by
  unfold call
  rw [if_neg hpre, get_of_miss st kh now kb hmiss]

theorem call_of_get_miss (st st2 : State) (kh now : Nat) (kb fres : List Nat)
    (hget : get st kh kb now = (.miss, st2))
    (hpre : ¬(kb.length > st.header.capacity ∧
        is_oversize st.header kb [] = true)) :
    call st kh kb fres now = (.computed fres, store_result st2 kh kb fres now) := by
  unfold call
  rw [if_neg hpre, hget]

/-- Reducing `get` on an expired entry whose re-verification fails
(the slot no longer carries the probed hash): only `misses` moves. -/
theorem get_of_expired_stale (st : State) (kh now : Nat) (kb : List Nat) (i : Int)
    (hres : htLookupChecked st kh kb now = .expired i)
    (hkh : (getSlot st.slots i).key_hash ≠ kh) :
    get st kh kb now =
      (.miss, { st with header := { st.header with misses := st.header.misses + 1 } }) := by
  unfold get
  rw [hres]
  have hno : ¬((getSlot st.slots i).occupied ≠ 0 ∧
      (getSlot st.slots i).key_hash = kh) := by
    rintro ⟨-, h2⟩
    exact hkh h2
  simp [hno]

theorem list_remove_sizes (h : Header) (slots : List Slot) (i : Int) :
    (list_remove h slots i).1.max_key_size = h.max_key_size ∧
    (list_remove h slots i).1.max_value_size = h.max_value_size := by
  simp only [list_remove]
  split <;> split <;> simp [setSlot]

theorem remove_slot_header_misc (st : State) (i : Int) (kb : List Nat) :
    (remove_slot st i kb).header.max_key_size = st.header.max_key_size ∧
    (remove_slot st i kb).header.max_value_size = st.header.max_value_size ∧
    (remove_slot st i kb).header.oversize_skips = st.header.oversize_skips ∧
    (remove_slot st i kb).header.current_size = st.header.current_size - 1 := by
  have h1 := list_remove_sizes st.header st.slots i
  have h2 := list_remove_misc st.header st.slots i
  exact ⟨h1.1, h1.2, h2.2.2.2.2.1, congrArg (· - 1) h2.2.1⟩

/-- C6: a call through the shared-backend wrapper whose serialized key
exceeds `max_key_size` (against a slab whose occupied keys are within
bounds, as the wrapper maintains), or whose serialized result exceeds
`max_value_size` while the lookup does not hit (on a hit the callable
never runs, so no oversize result arises), still returns the wrapped
callable's result, increments `oversize_skips` exactly once, and never
grows the cache: `current_size` never increases.  But `current_size` is
not always unchanged: when the checked lookup reports a TTL-expired
entry under the key, `get` removes that entry before the skip is
recorded, and `current_size` drops by one; in every other case slots,
buckets and `current_size` are untouched. -/
theorem oversize_skip (st : State) (kh now : Nat) (kb fres : List Nat)
    (h : (st.header.max_key_size < kb.length ∧
           ∀ s ∈ st.slots, s.occupied ≠ 0 → s.key_len ≤ st.header.max_key_size) ∨
         (kb.length ≤ st.header.max_key_size ∧
           st.header.max_value_size < fres.length ∧
           ∀ v j, htLookupChecked st kh kb now ≠ .hit v j)) :
    (call st kh kb fres now).1 = .computed fres ∧
    (call st kh kb fres now).2.header.oversize_skips =
      st.header.oversize_skips + 1 ∧
    (call st kh kb fres now).2.header.current_size ≤ st.header.current_size ∧
    (((call st kh kb fres now).2.slots = st.slots ∧
      (call st kh kb fres now).2.buckets = st.buckets ∧
      (call st kh kb fres now).2.header.current_size =
        st.header.current_size) ∨
     (∃ i : Int, htLookupChecked st kh kb now = .expired i ∧
       (call st kh kb fres now).2 =
         record_oversize_skip
           { remove_slot st i kb with
             header := { (remove_slot st i kb).header with
               misses := (remove_slot st i kb).header.misses + 1 } } ∧
       (call st kh kb fres now).2.header.current_size =
         st.header.current_size - 1)) := by
  rcases h with ⟨hk, hb⟩ | ⟨hkle, hv, hnohit⟩
  · by_cases hpre : kb.length > st.header.capacity ∧
        is_oversize st.header kb [] = true
    · unfold call
      rw [if_pos hpre]
      exact ⟨rfl, rfl, le_refl _, Or.inl ⟨rfl, rfl, rfl⟩⟩
    · have hmiss := lookupChecked_miss_of_long_key st kh now kb hb hk
      rw [call_of_miss st kh now kb fres hmiss hpre]
      refine ⟨rfl, ?_, ?_, Or.inl ⟨?_, ?_, ?_⟩⟩ <;>
        simp [store_result, is_oversize, record_oversize_skip, hk]
  · have hpre : ¬(kb.length > st.header.capacity ∧
        is_oversize st.header kb [] = true) := by
      rintro ⟨-, h2⟩
      simp [is_oversize] at h2
      omega
    rcases hres : htLookupChecked st kh kb now with ⟨v, j⟩ | _ | ⟨i⟩
    · exact absurd hres (hnohit v j)
    · rw [call_of_miss st kh now kb fres hres hpre]
      refine ⟨rfl, ?_, ?_, Or.inl ⟨?_, ?_, ?_⟩⟩ <;>
        simp [store_result, is_oversize, record_oversize_skip, hv]
    · obtain ⟨hocc, hlen', hkey, -⟩ :=
        lookupCheckedGo_expired _ _ _ _ _ _ _ _ _ _ _ _ hres
      by_cases hkh : (getSlot st.slots i).key_hash = kh
      · have hget := get_of_expired st kh now kb i hres hocc hkh hkey
        rw [call_of_get_miss st _ kh now kb fres hget hpre]
        have hmisc := remove_slot_header_misc st i kb
        have hover : is_oversize
            { (remove_slot st i kb).header with
              misses := (remove_slot st i kb).header.misses + 1 } kb fres = true := by
          simp only [is_oversize, Bool.or_eq_true, decide_eq_true_eq]
          exact Or.inr (hmisc.2.1 ▸ hv)
        refine ⟨rfl, ?_, ?_, Or.inr ⟨i, rfl, ?_, ?_⟩⟩
        · simp only [store_result, hover, if_true, record_oversize_skip]
          omega
        · simp only [store_result, hover, if_true, record_oversize_skip]
          omega
        · simp only [store_result, hover, if_true]
        · simp only [store_result, hover, if_true, record_oversize_skip]
          omega
      · have hget := get_of_expired_stale st kh now kb i hres hkh
        rw [call_of_get_miss st _ kh now kb fres hget hpre]
        refine ⟨rfl, ?_, ?_, Or.inl ⟨?_, ?_, ?_⟩⟩ <;>
          simp [store_result, is_oversize, record_oversize_skip, hv]

theorem oversize_skip_witness :
    ((c6state.header.max_key_size < ([1, 2] : List Nat).length ∧
        ∀ s ∈ c6state.slots, s.occupied ≠ 0 →
          s.key_len ≤ c6state.header.max_key_size) ∨
      (([1, 2] : List Nat).length ≤ c6state.header.max_key_size ∧
        c6state.header.max_value_size < ([9] : List Nat).length ∧
        ∀ v j, htLookupChecked c6state 0 [1, 2] 0 ≠ .hit v j)) ∧
    ((call c6state 0 [1, 2] [9] 0).1 = .computed [9] ∧
      (call c6state 0 [1, 2] [9] 0).2.header.oversize_skips =
        c6state.header.oversize_skips + 1 ∧
      (call c6state 0 [1, 2] [9] 0).2.header.current_size ≤
        c6state.header.current_size ∧
      (((call c6state 0 [1, 2] [9] 0).2.slots = c6state.slots ∧
        (call c6state 0 [1, 2] [9] 0).2.buckets = c6state.buckets ∧
        (call c6state 0 [1, 2] [9] 0).2.header.current_size =
          c6state.header.current_size) ∨
       (∃ i : Int, htLookupChecked c6state 0 [1, 2] 0 = .expired i ∧
         (call c6state 0 [1, 2] [9] 0).2 =
           record_oversize_skip
             { remove_slot c6state i [1, 2] with
               header := { (remove_slot c6state i [1, 2]).header with
                 misses := (remove_slot c6state i [1, 2]).header.misses + 1 } } ∧
         (call c6state 0 [1, 2] [9] 0).2.header.current_size =
           c6state.header.current_size - 1))) :=
  ⟨Or.inl ⟨by decide, by decide⟩,
    oversize_skip c6state 0 0 [1, 2] [9] (Or.inl ⟨by decide, by decide⟩)⟩

/-- An oversize-value call (key `[9]` within `max_key_size = 4`, result
five bytes against `max_value_size = 4`) on a cache holding a TTL-expired
entry for that key returns the computed result and bumps
`oversize_skips` — yet `current_size` drops from 1 to 0, because `get`
removes the expired entry before `store_result` skips the insert. -/
theorem oversize_skip_counterexample :
    (([9] : List Nat).length ≤ c6xstate.header.max_key_size ∧
      c6xstate.header.max_value_size < ([1, 2, 3, 4, 5] : List Nat).length) ∧
    (call c6xstate 2 [9] [1, 2, 3, 4, 5] 100).1 = .computed [1, 2, 3, 4, 5] ∧
    (call c6xstate 2 [9] [1, 2, 3, 4, 5] 100).2.header.oversize_skips =
      c6xstate.header.oversize_skips + 1 ∧
    c6xstate.header.current_size = 1 ∧
    (call c6xstate 2 [9] [1, 2, 3, 4, 5] 100).2.header.current_size = 0 := by
  decide

theorem keyLe_total (p q : Nat × Nat) (h : ¬ keyLe p q) : keyLe q p := by
  unfold keyLe at *
  omega

theorem keyLe_trans (p q r : Nat × Nat) (h1 : keyLe p q) (h2 : keyLe q r) :
    keyLe p r := by
  unfold keyLe at *
  omega

theorem getSlot_congr (slots : List Slot) (i j : Int) (h : i.toNat = j.toNat) :
    getSlot slots i = getSlot slots j := by
  simp [getSlot, h]

theorem getSlot_setSlot_ne (slots : List Slot) (i j : Int) (s : Slot)
    (h : i.toNat ≠ j.toNat) : getSlot (setSlot slots i s) j = getSlot slots j := by
  simp [getSlot, setSlot, List.getD]
  rw [List.getElem?_set_ne h]

theorem setSlot_length (slots : List Slot) (i : Int) (s : Slot) :
    (setSlot slots i s).length = slots.length := by
  simp [setSlot]

theorem slotCore_update_next (s : Slot) (n : Int) :
    slotCore { s with next := n } = slotCore s := rfl

theorem slotCore_update_prev (s : Slot) (p : Int) :
    slotCore { s with prev := p } = slotCore s := rfl

theorem slotCore_update_both (s : Slot) (p n : Int) :
    slotCore { s with prev := p, next := n } = slotCore s := rfl

/-- Writing a slot that differs only in prev/next keeps every slot's
core fields. -/
theorem core_frame_set (slots : List Slot) (k : Int) (s : Slot)
    (hs : slotCore s = slotCore (getSlot slots k)) (j : Int) :
    slotCore (getSlot (setSlot slots k s) j) = slotCore (getSlot slots j) := by
  by_cases hj : k.toNat = j.toNat
  · by_cases hk : k.toNat < slots.length
    · have hset : setSlot slots k s = setSlot slots j s := by
        simp [setSlot, hj]
      rw [hset, getSlot_setSlot_self _ _ _ (hj ▸ hk : j.toNat < slots.length)]
      rw [hs, getSlot_congr slots k j hj]
    · have : setSlot slots k s = slots := by
        simp [setSlot]
        exact List.set_eq_of_length_le (Nat.le_of_not_lt hk)
      rw [this]
  · rw [getSlot_setSlot_ne _ _ _ _ hj]

theorem chain'_imp_mem {α : Type} {R S : α → α → Prop} (l : List α)
    (h : ∀ a ∈ l, ∀ b ∈ l, R a b → S a b) (hch : l.Chain' R) : l.Chain' S := by
  induction l with
  | nil => simp
  | cons a rest ih =>
      cases rest with
      | nil => simp
      | cons b rest2 =>
          rw [List.chain'_cons] at hch ⊢
          refine ⟨h a (by simp) b (by simp) hch.1,
            ih (fun x hx y hy => h x (by simp [hx]) y (by simp [hy]) ) hch.2⟩

/-- The adjacency chain survives slab writes that only touch the last
element's `next` and the first element's `prev` (or slots outside the
list). -/
theorem chain'_linked_frame (slots slots' : List Slot) (l : List Nat)
    (hnd : l.Nodup)
    (hnext : ∀ a ∈ l, (∀ z ∈ l.getLast?, a ≠ z) →
        (getSlot slots' (a : Int)).next = (getSlot slots (a : Int)).next)
    (hprev : ∀ a ∈ l, (∀ z ∈ l.head?, a ≠ z) →
        (getSlot slots' (a : Int)).prev = (getSlot slots (a : Int)).prev)
    (hch : List.Chain' (linked slots) l) : List.Chain' (linked slots') l := by
  induction l with
  | nil => simp
  | cons a rest ih =>
      cases rest with
      | nil => simp
      | cons b rest2 =>
          rw [List.chain'_cons] at hch ⊢
          have hanotin : a ∉ b :: rest2 := by
            have := hnd
            rw [List.nodup_cons] at this
            exact this.1
          constructor
          · constructor
            · rw [hnext a (by simp) ?_]
              · exact hch.1.1
              · intro z hz
                have hzmem : z ∈ b :: rest2 := by
                  rw [List.getLast?_cons_cons] at hz
                  exact List.mem_of_mem_getLast? hz
                intro heq
                exact hanotin (heq ▸ hzmem)
            · rw [hprev b (by simp) ?_]
              · exact hch.1.2
              · intro z hz heq
                simp at hz
                exact hanotin (by simp [heq, hz])
          · refine ih ?_ ?_ ?_ hch.2
            · rw [List.nodup_cons] at hnd
              exact hnd.2
            · intro x hx hxz
              refine hnext x (by simp [hx]) ?_
              intro z hz
              rw [List.getLast?_cons_cons] at hz
              exact hxz z hz
            · intro x hx hxz
              refine hprev x (by simp [hx]) ?_
              intro z hz heq
              simp at hz
              subst hz
              exact hanotin (heq ▸ hx)

theorem lfuKey_frame (slots slots' : List Slot) (a : Nat)
    (hag : slotCore (getSlot slots' (a : Int)) = slotCore (getSlot slots (a : Int))) :
    lfuKey slots' a = lfuKey slots a := by
  have h1 := congrArg Slot.frequency hag
  have h2 := congrArg Slot.unique_id hag
  simp only [slotCore] at h1 h2
  simp [lfuKey, h1, h2]

theorem sortedRep_frame (slots slots' : List Slot) (l : List Nat)
    (hag : ∀ j ∈ l, slotCore (getSlot slots' (j : Int)) = slotCore (getSlot slots (j : Int))) :
    sortedRep slots l → sortedRep slots' l := by
  refine chain'_imp_mem l ?_
  intro a ha b hb hR
  rw [lfuKey_frame slots slots' a (hag a ha), lfuKey_frame slots slots' b (hag b hb)]
  exact hR

theorem freeRep_frame (hdr hdr' : Header) (slots slots' : List Slot)
    (f : List Nat) (hh : hdr'.free_head = hdr.free_head)
    (hag : ∀ a ∈ f, getSlot slots' (a : Int) = getSlot slots (a : Int))
    (hlen : slots'.length = slots.length) (hf : freeRep hdr slots f) :
    freeRep hdr' slots' f := by
  refine ⟨hh.trans hf.head_eq, ?_, ?_, hf.nodup, fun a ha => hlen ▸ hf.bounded a ha, ?_⟩
  · refine chain'_imp_mem f ?_ hf.chain
    intro a ha b hb hR
    rw [hag a ha]
    exact hR
  · intro z hz
    rw [hag z (List.mem_of_mem_getLast? hz)]
    exact hf.last_next z hz
  · intro a ha
    rw [hag a ha]
    exact hf.unocc a ha

theorem headD_eq_neg_one (l : List Nat) : headD l (-1) = -1 ↔ l = [] := by
  cases l with
  | nil => simp [headD]
  | cons a rest =>
      simp [headD]

theorem lastD_eq_neg_one (l : List Nat) : lastD l (-1) = -1 ↔ l = [] := by
  cases l with
  | nil => simp [lastD]
  | cons a rest =>
      unfold lastD
      rw [List.getLast?_eq_getLast_of_ne_nil (by simp)]
      constructor
      · intro h
        have hx : (((a :: rest).getLast (by simp) : Nat) : Int) = -1 := h
        exact absurd hx (by omega)
      · intro h
        simp at h

theorem lastD_append_cons (l1 l2 : List Nat) (i : Nat) :
    lastD (l1 ++ i :: l2) (-1) = lastD l2 ((i : Int)) := by
  unfold lastD
  rw [List.getLast?_append_cons]
  cases l2 with
  | nil => rfl
  | cons b bs =>
      rw [List.getLast?_cons_cons, List.getLast?_eq_getLast_of_ne_nil (by simp)]

theorem lastD_concat (l : List Nat) (a : Nat) (d : Int) :
    lastD (l ++ [a]) d = (a : Int) := by
  unfold lastD
  rw [List.getLast?_append_cons]
  rfl

theorem headD_append_cons (l1 l2 : List Nat) (i : Nat) :
    headD (l1 ++ i :: l2) (-1) = headD l1 ((i : Int)) := by
  cases l1 with
  | nil => rfl
  | cons a rest => rfl

theorem keyLe_refl (p : Nat × Nat) : keyLe p p := by
  unfold keyLe
  omega

/-- Dropping the middle element of a chain keeps it a chain, for a
transitive relation. -/
theorem chain'_drop_middle {α : Type} {R : α → α → Prop}
    (htr : ∀ a b c, R a b → R b c → R a c) (l1 l2 : List α) (i : α)
    (h : List.Chain' R (l1 ++ i :: l2)) : List.Chain' R (l1 ++ l2) := by
  rw [List.chain'_append] at h ⊢
  obtain ⟨h1, h2, hcross⟩ := h
  rw [List.chain'_cons'] at h2
  exact ⟨h1, h2.2, fun x hx y hy => htr x i y (hcross x hx i (by simp)) (h2.1 y hy)⟩

/-- In a chain under a reflexive transitive relation, the head relates to
every member. -/
theorem chain'_head_min {α : Type} {R : α → α → Prop}
    (htr : ∀ a b c, R a b → R b c → R a c) (hrefl : ∀ a, R a a)
    (a : α) (rest : List α) (h : List.Chain' R (a :: rest)) :
    ∀ b ∈ a :: rest, R a b := by
  induction rest generalizing a with
  | nil =>
      intro b hb
      simp at hb
      exact hb ▸ hrefl a
  | cons c rest2 ih =>
      intro b hb
      rw [List.chain'_cons] at h
      rcases List.mem_cons.mp hb with rfl | hb
      · exact hrefl b
      · exact htr a c b h.1 (ih c h.2 b hb)

/-- `listRep` only looks at the two header list pointers and the
`prev`/`next` links of the member slots. -/
theorem listRep_frame (hdr hdr' : Header) (slots slots' : List Slot)
    (l : List Nat)
    (hh : hdr'.list_head = hdr.list_head) (ht : hdr'.list_tail = hdr.list_tail)
    (hlen : slots'.length = slots.length)
    (hag : ∀ a ∈ l, (getSlot slots' (a : Int)).prev = (getSlot slots (a : Int)).prev ∧
        (getSlot slots' (a : Int)).next = (getSlot slots (a : Int)).next)
    (hrep : listRep hdr slots l) : listRep hdr' slots' l := by
  refine ⟨?_, hh.trans hrep.head_eq, ht.trans hrep.tail_eq, ?_, ?_, hrep.nodup,
    fun a ha => hlen ▸ hrep.bounded a ha⟩
  · refine chain'_imp_mem l ?_ hrep.chain
    intro a ha b hb hR
    exact ⟨(hag a ha).2.trans hR.1, (hag b hb).1.trans hR.2⟩
  · intro a ha
    rw [(hag a (List.mem_of_mem_head? ha)).1]
    exact hrep.head_prev a ha
  · intro z hz
    rw [(hag z (List.mem_of_mem_getLast? hz)).2]
    exact hrep.tail_next z hz

/-- The `prev`/`next` links of a member of a represented list point at
the last element of the prefix and the first element of the suffix. -/
theorem listRep_decomp (hdr : Header) (slots : List Slot) (l1 l2 : List Nat)
    (i : Nat) (hrep : listRep hdr slots (l1 ++ i :: l2)) :
    (getSlot slots (i : Int)).prev = lastD l1 (-1) ∧
    (getSlot slots (i : Int)).next = headD l2 (-1) := by
  have hch := hrep.chain
  rw [List.chain'_append] at hch
  constructor
  · rcases List.eq_nil_or_concat l1 with rfl | ⟨la, a, rfl⟩
    · exact hrep.head_prev i (by simp)
    · rw [List.concat_eq_append] at hch ⊢
      have hcross := hch.2.2 a (by rw [List.getLast?_append_cons]; rfl) i (by simp)
      rw [lastD_concat]
      exact hcross.2
  · cases l2 with
    | nil =>
        refine hrep.tail_next i ?_
        rw [List.getLast?_append_cons]
        rfl
    | cons b lb =>
        have := hch.2.1
        rw [List.chain'_cons] at this
        exact this.1.1

theorem nodup_middle_facts (l1 l2 : List Nat) (i : Nat)
    (hnd : (l1 ++ i :: l2).Nodup) : (i ∉ l1 ++ l2) ∧ (l1 ++ l2).Nodup := by
  rw [List.nodup_middle, List.nodup_cons] at hnd
  exact hnd

theorem headD_ne_nil (l : List Nat) (d d' : Int) (h : l ≠ []) :
    headD l d = headD l d' := by
  cases l with
  | nil => exact absurd rfl h
  | cons a rest => rfl

theorem lastD_cons (b : Nat) (lb : List Nat) (d : Int) :
    lastD (b :: lb) d = lastD lb ((b : Int)) := by
  unfold lastD
  cases lb with
  | nil => rfl
  | cons c cs =>
      rw [List.getLast?_cons_cons, List.getLast?_eq_getLast_of_ne_nil (by simp)]

theorem head?_append_left {α : Type} (l1 l2 : List α) (h : l1 ≠ []) :
    (l1 ++ l2).head? = l1.head? := by
  cases l1 with
  | nil => exact absurd rfl h
  | cons a rest => rfl

/-- Removing the only element of a singleton order list empties it. -/
theorem list_remove_rep_nilnil (hdr : Header) (slots : List Slot) (i : Nat)
    (hrep : listRep hdr slots [i]) :
    listRep (list_remove hdr slots (i : Int)).1 (list_remove hdr slots (i : Int)).2
      ([] : List Nat) ∧
    (list_remove hdr slots (i : Int)).2.length = slots.length ∧
    ∀ j : Int, slotCore (getSlot (list_remove hdr slots (i : Int)).2 j) =
      slotCore (getSlot slots j) := by
  obtain ⟨hpv, hnx⟩ := listRep_decomp hdr slots [] [] i (by simpa using hrep)
  simp only [lastD, headD, List.getLast?_nil] at hpv hnx
  have heval : list_remove hdr slots (i : Int) =
      ({ hdr with list_head := -1, list_tail := -1 },
        setSlot slots (i : Int) { getSlot slots (i : Int) with prev := -1, next := -1 }) := by
    simp [list_remove, hpv, hnx]
  rw [heval]
  refine ⟨⟨by simp, rfl, rfl, by simp, by simp, by simp, by simp⟩, setSlot_length _ _ _, ?_⟩
  intro j
  exact core_frame_set slots (i : Int) _ (slotCore_update_both _ _ _) j

/-- Removing an interior element (non-empty prefix and suffix) splices
the order list: the last prefix element's `next` and the first suffix
element's `prev` are re-linked and the header is untouched. -/
theorem list_remove_rep_conscons (hdr : Header) (slots : List Slot)
    (la : List Nat) (a i b : Nat) (lb : List Nat)
    (hrep : listRep hdr slots ((la ++ [a]) ++ i :: (b :: lb))) :
    listRep (list_remove hdr slots (i : Int)).1 (list_remove hdr slots (i : Int)).2
      ((la ++ [a]) ++ (b :: lb)) ∧
    (list_remove hdr slots (i : Int)).2.length = slots.length ∧
    ∀ j : Int, slotCore (getSlot (list_remove hdr slots (i : Int)).2 j) =
      slotCore (getSlot slots j) := by
  obtain ⟨hpv, hnx⟩ := listRep_decomp hdr slots (la ++ [a]) (b :: lb) i hrep
  rw [lastD_concat] at hpv
  simp only [headD] at hnx
  obtain ⟨hinotin, hnd'⟩ := nodup_middle_facts _ _ _ hrep.nodup
  obtain ⟨hnd1, hnd2, hdisj0⟩ := List.nodup_append.mp hnd'
  have hdisj : ∀ x ∈ la ++ [a], ∀ y ∈ b :: lb, x ≠ y := by
    intro x hx y hy heq
    exact hdisj0 hx (heq ▸ hy)
  have hia : a ≠ i := fun h => hinotin (by simp [← h])
  have hib : b ≠ i := fun h => hinotin (by simp [← h])
  have hab : a ≠ b := hdisj a (by simp) b (by simp)
  have hilt : i < slots.length := hrep.bounded i (by simp)
  have halt : a < slots.length := hrep.bounded a (by simp)
  have hblt : b < slots.length := hrep.bounded b (by simp)
  have hgb : getSlot (setSlot slots ((a : Nat) : Int)
        { getSlot slots ((a : Nat) : Int) with next := ((b : Nat) : Int) })
        ((b : Nat) : Int) = getSlot slots ((b : Nat) : Int) :=
    getSlot_setSlot_ne _ _ _ _ (by omega)
  have hgi : ∀ s1 s2 : Slot,
      getSlot (setSlot (setSlot slots ((a : Nat) : Int) s1) ((b : Nat) : Int) s2)
        ((i : Nat) : Int) = getSlot slots ((i : Nat) : Int) := by
    intro s1 s2
    rw [getSlot_setSlot_ne _ _ _ _ (by omega), getSlot_setSlot_ne _ _ _ _ (by omega)]
  have heval : list_remove hdr slots (i : Int) =
      (hdr,
        setSlot (setSlot (setSlot slots ((a : Nat) : Int)
            { getSlot slots ((a : Nat) : Int) with next := ((b : Nat) : Int) })
          ((b : Nat) : Int) { getSlot slots ((b : Nat) : Int) with prev := ((a : Nat) : Int) })
          ((i : Nat) : Int) { getSlot slots ((i : Nat) : Int) with prev := -1, next := -1 }) := by
    simp [list_remove, hpv, hnx, hgb, hgi, show ((a : Nat) : Int) ≠ -1 by omega,
      show ((b : Nat) : Int) ≠ -1 by omega]
  rw [heval]
  have gA : getSlot (setSlot (setSlot (setSlot slots ((a : Nat) : Int)
        { getSlot slots ((a : Nat) : Int) with next := ((b : Nat) : Int) })
        ((b : Nat) : Int) { getSlot slots ((b : Nat) : Int) with prev := ((a : Nat) : Int) })
        ((i : Nat) : Int) { getSlot slots ((i : Nat) : Int) with prev := -1, next := -1 })
        ((a : Nat) : Int) =
      { getSlot slots ((a : Nat) : Int) with next := ((b : Nat) : Int) } := by
    rw [getSlot_setSlot_ne _ _ _ _ (by omega), getSlot_setSlot_ne _ _ _ _ (by omega),
      getSlot_setSlot_self _ _ _ (by simpa using halt)]
  have gB : getSlot (setSlot (setSlot (setSlot slots ((a : Nat) : Int)
        { getSlot slots ((a : Nat) : Int) with next := ((b : Nat) : Int) })
        ((b : Nat) : Int) { getSlot slots ((b : Nat) : Int) with prev := ((a : Nat) : Int) })
        ((i : Nat) : Int) { getSlot slots ((i : Nat) : Int) with prev := -1, next := -1 })
        ((b : Nat) : Int) =
      { getSlot slots ((b : Nat) : Int) with prev := ((a : Nat) : Int) } := by
    rw [getSlot_setSlot_ne _ _ _ _ (by omega),
      getSlot_setSlot_self _ _ _ (by simp [setSlot_length]; omega)]
  have gOther : ∀ x : Nat, x ≠ a → x ≠ b → x ≠ i →
      getSlot (setSlot (setSlot (setSlot slots ((a : Nat) : Int)
        { getSlot slots ((a : Nat) : Int) with next := ((b : Nat) : Int) })
        ((b : Nat) : Int) { getSlot slots ((b : Nat) : Int) with prev := ((a : Nat) : Int) })
        ((i : Nat) : Int) { getSlot slots ((i : Nat) : Int) with prev := -1, next := -1 })
        ((x : Nat) : Int) = getSlot slots ((x : Nat) : Int) := by
    intro x hxa hxb hxi
    rw [getSlot_setSlot_ne _ _ _ _ (by omega), getSlot_setSlot_ne _ _ _ _ (by omega),
      getSlot_setSlot_ne _ _ _ _ (by omega)]
  have hprev_l1 : ∀ x ∈ la ++ [a],
      (getSlot (setSlot (setSlot (setSlot slots ((a : Nat) : Int)
        { getSlot slots ((a : Nat) : Int) with next := ((b : Nat) : Int) })
        ((b : Nat) : Int) { getSlot slots ((b : Nat) : Int) with prev := ((a : Nat) : Int) })
        ((i : Nat) : Int) { getSlot slots ((i : Nat) : Int) with prev := -1, next := -1 })
        ((x : Nat) : Int)).prev = (getSlot slots ((x : Nat) : Int)).prev := by
    intro x hx
    by_cases hxa : x = a
    · subst hxa
      rw [gA]
    · rw [gOther x hxa (hdisj x hx b (by simp)) (fun h => hinotin (h ▸ List.mem_append_left _ hx))]
  have hnext_l2 : ∀ z ∈ b :: lb,
      (getSlot (setSlot (setSlot (setSlot slots ((a : Nat) : Int)
        { getSlot slots ((a : Nat) : Int) with next := ((b : Nat) : Int) })
        ((b : Nat) : Int) { getSlot slots ((b : Nat) : Int) with prev := ((a : Nat) : Int) })
        ((i : Nat) : Int) { getSlot slots ((i : Nat) : Int) with prev := -1, next := -1 })
        ((z : Nat) : Int)).next = (getSlot slots ((z : Nat) : Int)).next := by
    intro z hz
    by_cases hzb : z = b
    · subst hzb
      rw [gB]
    · rw [gOther z (fun h => hdisj z (by simp [h]) z hz rfl)
        hzb (fun h => hinotin (h ▸ List.mem_append_right _ hz))]
  have hch := hrep.chain
  rw [List.chain'_append] at hch
  obtain ⟨hch1, hch2, hcross0⟩ := hch
  rw [List.chain'_cons] at hch2
  refine ⟨⟨?_, ?_, ?_, ?_, ?_, hnd', ?_⟩, by simp [setSlot_length], ?_⟩
  · rw [List.chain'_append]
    refine ⟨?_, ?_, ?_⟩
    · refine chain'_linked_frame slots _ (la ++ [a]) hnd1 ?_ ?_ hch1
      · intro x hx hxz
        have hxa : x ≠ a := hxz a (by rw [List.getLast?_append_cons]; rfl)
        rw [gOther x hxa (hdisj x hx b (by simp))
          (fun h => hinotin (h ▸ List.mem_append_left _ hx))]
      · intro x hx _
        exact hprev_l1 x hx
    · refine chain'_linked_frame slots _ (b :: lb) hnd2 ?_ ?_ hch2.2
      · intro z hz _
        exact hnext_l2 z hz
      · intro z hz hzb
        have hzb' : z ≠ b := hzb b rfl
        rw [gOther z (fun h => hdisj z (by simp [h]) z hz rfl) hzb'
          (fun h => hinotin (h ▸ List.mem_append_right _ hz))]
    · intro x hx y hy
      rw [List.getLast?_append_cons] at hx
      simp at hx hy
      subst hx
      subst hy
      constructor
      · rw [gA]
      · rw [gB]
  · exact hrep.head_eq.trans (by
      rw [headD_append_cons, headD_append_cons]
      exact headD_ne_nil _ _ _ (by simp))
  · exact hrep.tail_eq.trans (by
      rw [lastD_append_cons, lastD_append_cons, lastD_cons])
  · intro x hx
    rw [head?_append_left _ _ (by simp)] at hx
    rw [hprev_l1 x (List.mem_of_mem_head? hx)]
    refine hrep.head_prev x ?_
    rw [head?_append_left _ _ (by simp)]
    exact hx
  · intro z hz
    rw [List.getLast?_append_cons] at hz
    rw [hnext_l2 z (List.mem_of_mem_getLast? hz)]
    refine hrep.tail_next z ?_
    rw [List.getLast?_append_cons, List.getLast?_cons_cons]
    exact hz
  · intro x hx
    simp only [setSlot_length]
    refine hrep.bounded x ?_
    rcases List.mem_append.mp hx with h | h
    · exact List.mem_append_left _ h
    · exact List.mem_append_right _ (List.mem_cons_of_mem _ h)
  · have c1 : ∀ j : Int, slotCore (getSlot (setSlot slots ((a : Nat) : Int)
        { getSlot slots ((a : Nat) : Int) with next := ((b : Nat) : Int) }) j) =
        slotCore (getSlot slots j) :=
      core_frame_set _ _ _ (slotCore_update_next _ _)
    have c2 : ∀ j : Int, slotCore (getSlot (setSlot (setSlot slots ((a : Nat) : Int)
        { getSlot slots ((a : Nat) : Int) with next := ((b : Nat) : Int) })
        ((b : Nat) : Int) { getSlot slots ((b : Nat) : Int) with prev := ((a : Nat) : Int) }) j) =
        slotCore (getSlot (setSlot slots ((a : Nat) : Int)
          { getSlot slots ((a : Nat) : Int) with next := ((b : Nat) : Int) }) j) :=
      core_frame_set _ _ _ ((slotCore_update_prev _ _).trans (c1 _).symm)
    have c3 : ∀ j : Int, slotCore (getSlot (setSlot (setSlot (setSlot slots ((a : Nat) : Int)
        { getSlot slots ((a : Nat) : Int) with next := ((b : Nat) : Int) })
        ((b : Nat) : Int) { getSlot slots ((b : Nat) : Int) with prev := ((a : Nat) : Int) })
        ((i : Nat) : Int) { getSlot slots ((i : Nat) : Int) with prev := -1, next := -1 }) j) =
        slotCore (getSlot (setSlot (setSlot slots ((a : Nat) : Int)
          { getSlot slots ((a : Nat) : Int) with next := ((b : Nat) : Int) })
          ((b : Nat) : Int) { getSlot slots ((b : Nat) : Int) with prev := ((a : Nat) : Int) }) j) :=
      core_frame_set _ _ _ ((slotCore_update_both _ _ _).trans ((c2 _).trans (c1 _)).symm)
    intro j
    exact (c3 j).trans ((c2 j).trans (c1 j))

theorem lastD_ne_nil (l : List Nat) (d d' : Int) (h : l ≠ []) :
    lastD l d = lastD l d' := by
  unfold lastD
  rw [List.getLast?_eq_getLast_of_ne_nil h]

/-- Removing the head of the order list (with a non-empty tail) advances
`list_head` to the second element and clears its `prev` link. -/
theorem list_remove_rep_nilcons (hdr : Header) (slots : List Slot)
    (i b : Nat) (lb : List Nat)
    (hrep : listRep hdr slots (i :: b :: lb)) :
    listRep (list_remove hdr slots (i : Int)).1 (list_remove hdr slots (i : Int)).2
      (b :: lb) ∧
    (list_remove hdr slots (i : Int)).2.length = slots.length ∧
    ∀ j : Int, slotCore (getSlot (list_remove hdr slots (i : Int)).2 j) =
      slotCore (getSlot slots j) := by
  obtain ⟨hpv, hnx⟩ := listRep_decomp hdr slots [] (b :: lb) i (by simpa using hrep)
  simp only [lastD, headD, List.getLast?_nil] at hpv hnx
  have hnd := hrep.nodup
  rw [List.nodup_cons] at hnd
  have hib : b ≠ i := fun h => hnd.1 (by simp [← h])
  have hilt : i < slots.length := hrep.bounded i (by simp)
  have hblt : b < slots.length := hrep.bounded b (by simp)
  have heval : list_remove hdr slots (i : Int) =
      ({ hdr with list_head := ((b : Nat) : Int) },
        setSlot (setSlot slots ((b : Nat) : Int)
            { getSlot slots ((b : Nat) : Int) with prev := -1 })
          ((i : Nat) : Int) { getSlot slots ((i : Nat) : Int) with prev := -1, next := -1 }) := by
    have hgi : ∀ s1 : Slot, getSlot (setSlot slots ((b : Nat) : Int) s1) ((i : Nat) : Int) =
        getSlot slots ((i : Nat) : Int) := fun s1 => getSlot_setSlot_ne _ _ _ _ (by omega)
    simp [list_remove, hpv, hnx, hgi, show ((b : Nat) : Int) ≠ -1 by omega]
  rw [heval]
  have gB : getSlot (setSlot (setSlot slots ((b : Nat) : Int)
        { getSlot slots ((b : Nat) : Int) with prev := -1 })
        ((i : Nat) : Int) { getSlot slots ((i : Nat) : Int) with prev := -1, next := -1 })
        ((b : Nat) : Int) =
      { getSlot slots ((b : Nat) : Int) with prev := -1 } := by
    rw [getSlot_setSlot_ne _ _ _ _ (by omega),
      getSlot_setSlot_self _ _ _ (by simpa using hblt)]
  have gOther : ∀ x : Nat, x ≠ b → x ≠ i →
      getSlot (setSlot (setSlot slots ((b : Nat) : Int)
        { getSlot slots ((b : Nat) : Int) with prev := -1 })
        ((i : Nat) : Int) { getSlot slots ((i : Nat) : Int) with prev := -1, next := -1 })
        ((x : Nat) : Int) = getSlot slots ((x : Nat) : Int) := by
    intro x hxb hxi
    rw [getSlot_setSlot_ne _ _ _ _ (by omega), getSlot_setSlot_ne _ _ _ _ (by omega)]
  have hnext_l2 : ∀ z ∈ b :: lb,
      (getSlot (setSlot (setSlot slots ((b : Nat) : Int)
        { getSlot slots ((b : Nat) : Int) with prev := -1 })
        ((i : Nat) : Int) { getSlot slots ((i : Nat) : Int) with prev := -1, next := -1 })
        ((z : Nat) : Int)).next = (getSlot slots ((z : Nat) : Int)).next := by
    intro z hz
    by_cases hzb : z = b
    · subst hzb
      rw [gB]
    · rw [gOther z hzb (fun h => hnd.1 (h ▸ hz))]
  have hch := hrep.chain
  rw [List.chain'_cons] at hch
  refine ⟨⟨?_, rfl, ?_, ?_, ?_, hnd.2, ?_⟩, by simp [setSlot_length], ?_⟩
  · refine chain'_linked_frame slots _ (b :: lb) hnd.2 ?_ ?_ hch.2
    · intro z hz _
      exact hnext_l2 z hz
    · intro z hz hzb
      rw [gOther z (hzb b rfl) (fun h => hnd.1 (h ▸ hz))]
  · exact hrep.tail_eq.trans (by rw [lastD_cons]; exact lastD_ne_nil _ _ _ (by simp))
  · intro x hx
    simp only [List.head?_cons, Option.mem_def, Option.some.injEq] at hx
    subst hx
    rw [gB]
  · intro z hz
    rw [hnext_l2 z (List.mem_of_mem_getLast? hz)]
    refine hrep.tail_next z ?_
    rw [List.getLast?_cons_cons]
    exact hz
  · intro x hx
    simp only [setSlot_length]
    exact hrep.bounded x (List.mem_cons_of_mem _ hx)
  · have c1 : ∀ j : Int, slotCore (getSlot (setSlot slots ((b : Nat) : Int)
        { getSlot slots ((b : Nat) : Int) with prev := -1 }) j) =
        slotCore (getSlot slots j) :=
      core_frame_set _ _ _ (slotCore_update_prev _ _)
    have c2 : ∀ j : Int, slotCore (getSlot (setSlot (setSlot slots ((b : Nat) : Int)
        { getSlot slots ((b : Nat) : Int) with prev := -1 })
        ((i : Nat) : Int) { getSlot slots ((i : Nat) : Int) with prev := -1, next := -1 }) j) =
        slotCore (getSlot (setSlot slots ((b : Nat) : Int)
          { getSlot slots ((b : Nat) : Int) with prev := -1 }) j) :=
      core_frame_set _ _ _ ((slotCore_update_both _ _ _).trans (c1 _).symm)
    intro j
    exact (c2 j).trans (c1 j)

/-- Removing the tail of the order list (with a non-empty prefix) moves
`list_tail` back to the second-to-last element and clears its `next`. -/
theorem list_remove_rep_concatnil (hdr : Header) (slots : List Slot)
    (la : List Nat) (a i : Nat)
    (hrep : listRep hdr slots ((la ++ [a]) ++ [i])) :
    listRep (list_remove hdr slots (i : Int)).1 (list_remove hdr slots (i : Int)).2
      (la ++ [a]) ∧
    (list_remove hdr slots (i : Int)).2.length = slots.length ∧
    ∀ j : Int, slotCore (getSlot (list_remove hdr slots (i : Int)).2 j) =
      slotCore (getSlot slots j) := by
  obtain ⟨hpv, hnx⟩ := listRep_decomp hdr slots (la ++ [a]) [] i hrep
  rw [lastD_concat] at hpv
  simp only [headD] at hnx
  obtain ⟨hinotin, hnd'⟩ := nodup_middle_facts _ _ _ hrep.nodup
  rw [List.append_nil] at hinotin hnd'
  have hia : a ≠ i := fun h => hinotin (by simp [← h])
  have hilt : i < slots.length := hrep.bounded i (by simp)
  have halt : a < slots.length := hrep.bounded a (by simp)
  have heval : list_remove hdr slots (i : Int) =
      ({ hdr with list_tail := ((a : Nat) : Int) },
        setSlot (setSlot slots ((a : Nat) : Int)
            { getSlot slots ((a : Nat) : Int) with next := -1 })
          ((i : Nat) : Int) { getSlot slots ((i : Nat) : Int) with prev := -1, next := -1 }) := by
    have hgi : ∀ s1 : Slot, getSlot (setSlot slots ((a : Nat) : Int) s1) ((i : Nat) : Int) =
        getSlot slots ((i : Nat) : Int) := fun s1 => getSlot_setSlot_ne _ _ _ _ (by omega)
    simp [list_remove, hpv, hnx, hgi, show ((a : Nat) : Int) ≠ -1 by omega]
  rw [heval]
  have gA : getSlot (setSlot (setSlot slots ((a : Nat) : Int)
        { getSlot slots ((a : Nat) : Int) with next := -1 })
        ((i : Nat) : Int) { getSlot slots ((i : Nat) : Int) with prev := -1, next := -1 })
        ((a : Nat) : Int) =
      { getSlot slots ((a : Nat) : Int) with next := -1 } := by
    rw [getSlot_setSlot_ne _ _ _ _ (by omega),
      getSlot_setSlot_self _ _ _ (by simpa using halt)]
  have gOther : ∀ x : Nat, x ≠ a → x ≠ i →
      getSlot (setSlot (setSlot slots ((a : Nat) : Int)
        { getSlot slots ((a : Nat) : Int) with next := -1 })
        ((i : Nat) : Int) { getSlot slots ((i : Nat) : Int) with prev := -1, next := -1 })
        ((x : Nat) : Int) = getSlot slots ((x : Nat) : Int) := by
    intro x hxa hxi
    rw [getSlot_setSlot_ne _ _ _ _ (by omega), getSlot_setSlot_ne _ _ _ _ (by omega)]
  have hprev_l1 : ∀ x ∈ la ++ [a],
      (getSlot (setSlot (setSlot slots ((a : Nat) : Int)
        { getSlot slots ((a : Nat) : Int) with next := -1 })
        ((i : Nat) : Int) { getSlot slots ((i : Nat) : Int) with prev := -1, next := -1 })
        ((x : Nat) : Int)).prev = (getSlot slots ((x : Nat) : Int)).prev := by
    intro x hx
    by_cases hxa : x = a
    · subst hxa
      rw [gA]
    · rw [gOther x hxa (fun h => hinotin (h ▸ hx))]
  have hch := hrep.chain
  rw [List.chain'_append] at hch
  refine ⟨⟨?_, ?_, ?_, ?_, ?_, hnd', ?_⟩, by simp [setSlot_length], ?_⟩
  · refine chain'_linked_frame slots _ (la ++ [a]) hnd' ?_ ?_ hch.1
    · intro x hx hxz
      have hxa : x ≠ a := hxz a (by rw [List.getLast?_append_cons]; rfl)
      rw [gOther x hxa (fun h => hinotin (h ▸ hx))]
    · intro x hx _
      exact hprev_l1 x hx
  · exact hrep.head_eq.trans (by
      rw [headD_append_cons]
      exact headD_ne_nil _ _ _ (by simp))
  · rw [lastD_concat]
  · intro x hx
    rw [hprev_l1 x (List.mem_of_mem_head? hx)]
    refine hrep.head_prev x ?_
    rw [head?_append_left _ _ (by simp)]
    exact hx
  · intro z hz
    rw [List.getLast?_append_cons] at hz
    simp only [List.getLast?_singleton, Option.mem_def, Option.some.injEq] at hz
    subst hz
    rw [gA]
  · intro x hx
    simp only [setSlot_length]
    exact hrep.bounded x (List.mem_append_left _ hx)
  · have c1 : ∀ j : Int, slotCore (getSlot (setSlot slots ((a : Nat) : Int)
        { getSlot slots ((a : Nat) : Int) with next := -1 }) j) =
        slotCore (getSlot slots j) :=
      core_frame_set _ _ _ (slotCore_update_next _ _)
    have c2 : ∀ j : Int, slotCore (getSlot (setSlot (setSlot slots ((a : Nat) : Int)
        { getSlot slots ((a : Nat) : Int) with next := -1 })
        ((i : Nat) : Int) { getSlot slots ((i : Nat) : Int) with prev := -1, next := -1 }) j) =
        slotCore (getSlot (setSlot slots ((a : Nat) : Int)
          { getSlot slots ((a : Nat) : Int) with next := -1 }) j) :=
      core_frame_set _ _ _ ((slotCore_update_both _ _ _).trans (c1 _).symm)
    intro j
    exact (c2 j).trans (c1 j)

/-- `list_remove` of a member splices it out of the represented order
list, leaves every slot's core fields unchanged and keeps the slab
length. -/
theorem list_remove_rep (hdr : Header) (slots : List Slot) (l1 l2 : List Nat)
    (i : Nat) (hrep : listRep hdr slots (l1 ++ i :: l2)) :
    listRep (list_remove hdr slots (i : Int)).1 (list_remove hdr slots (i : Int)).2
      (l1 ++ l2) ∧
    (list_remove hdr slots (i : Int)).2.length = slots.length ∧
    ∀ j : Int, slotCore (getSlot (list_remove hdr slots (i : Int)).2 j) =
      slotCore (getSlot slots j) := by
  rcases List.eq_nil_or_concat l1 with rfl | ⟨la, a, rfl⟩
  · cases l2 with
    | nil => simpa using list_remove_rep_nilnil hdr slots i (by simpa using hrep)
    | cons b lb => simpa using list_remove_rep_nilcons hdr slots i b lb (by simpa using hrep)
  · rw [List.concat_eq_append] at hrep ⊢
    cases l2 with
    | nil => simpa using list_remove_rep_concatnil hdr slots la a i (by simpa using hrep)
    | cons b lb => exact list_remove_rep_conscons hdr slots la a i b lb hrep

theorem headD_concat (ma : List Nat) (c : Nat) (d : Int) :
    headD (ma ++ [c]) d = headD ma ((c : Int)) := by
  cases ma with
  | nil => rfl
  | cons x xs => rfl

theorem head?_append_cons_eq {α : Type} {ma : List α} {c : α} {l2 l2' : List α} :
    (ma ++ c :: l2).head? = (ma ++ c :: l2').head? := by
  cases ma with
  | nil => rfl
  | cons x xs => rfl

/-- `lfu_insert_head` prepends the slot to the represented order list. -/
theorem lfu_insert_head_rep (hdr : Header) (slots : List Slot) (l : List Nat)
    (i : Nat) (hrep : listRep hdr slots l) (hi : i ∉ l) (hilt : i < slots.length) :
    listRep (lfu_insert_head hdr slots (i : Int)).1
      (lfu_insert_head hdr slots (i : Int)).2 (i :: l) ∧
    (lfu_insert_head hdr slots (i : Int)).2.length = slots.length ∧
    ∀ j : Int, slotCore (getSlot (lfu_insert_head hdr slots (i : Int)).2 j) =
      slotCore (getSlot slots j) := by
  cases l with
  | nil =>
      have hh : hdr.list_head = -1 := hrep.head_eq
      have heval : lfu_insert_head hdr slots (i : Int) =
          ({ hdr with list_tail := ((i : Nat) : Int), list_head := ((i : Nat) : Int) },
            setSlot slots ((i : Nat) : Int)
              { getSlot slots ((i : Nat) : Int) with prev := -1, next := -1 }) := by
        simp [lfu_insert_head, hh]
      rw [heval]
      refine ⟨⟨by simp, rfl, ?_, ?_, ?_, by simp, ?_⟩, setSlot_length _ _ _, ?_⟩
      · simp [lastD]
      · intro x hx
        simp only [List.head?_cons, Option.mem_def, Option.some.injEq] at hx
        subst hx
        rw [getSlot_setSlot_self _ _ _ (by simpa using hilt)]
      · intro z hz
        simp only [List.getLast?_singleton, Option.mem_def, Option.some.injEq] at hz
        subst hz
        rw [getSlot_setSlot_self _ _ _ (by simpa using hilt)]
      · intro x hx
        simp only [setSlot_length]
        simp at hx
        omega
      · intro j
        exact core_frame_set slots _ _ (slotCore_update_both _ _ _) j
  | cons b lb =>
      have hh : hdr.list_head = ((b : Nat) : Int) := hrep.head_eq
      have hib : i ≠ b := fun h => hi (by simp [h])
      have hblt : b < slots.length := hrep.bounded b (by simp)
      have heval : lfu_insert_head hdr slots (i : Int) =
          ({ hdr with list_head := ((i : Nat) : Int) },
            setSlot (setSlot slots ((i : Nat) : Int)
                { getSlot slots ((i : Nat) : Int) with prev := -1, next := ((b : Nat) : Int) })
              ((b : Nat) : Int)
              { getSlot slots ((b : Nat) : Int) with prev := ((i : Nat) : Int) }) := by
        have hgb : ∀ s1 : Slot,
            getSlot (setSlot slots ((i : Nat) : Int) s1) ((b : Nat) : Int) =
            getSlot slots ((b : Nat) : Int) := fun s1 => getSlot_setSlot_ne _ _ _ _ (by omega)
        simp [lfu_insert_head, hh, hgb, show ((b : Nat) : Int) ≠ -1 by omega]
      rw [heval]
      have gI : getSlot (setSlot (setSlot slots ((i : Nat) : Int)
            { getSlot slots ((i : Nat) : Int) with prev := -1, next := ((b : Nat) : Int) })
            ((b : Nat) : Int) { getSlot slots ((b : Nat) : Int) with prev := ((i : Nat) : Int) })
            ((i : Nat) : Int) =
          { getSlot slots ((i : Nat) : Int) with prev := -1, next := ((b : Nat) : Int) } := by
        rw [getSlot_setSlot_ne _ _ _ _ (by omega),
          getSlot_setSlot_self _ _ _ (by simpa using hilt)]
      have gB : getSlot (setSlot (setSlot slots ((i : Nat) : Int)
            { getSlot slots ((i : Nat) : Int) with prev := -1, next := ((b : Nat) : Int) })
            ((b : Nat) : Int) { getSlot slots ((b : Nat) : Int) with prev := ((i : Nat) : Int) })
            ((b : Nat) : Int) =
          { getSlot slots ((b : Nat) : Int) with prev := ((i : Nat) : Int) } := by
        rw [getSlot_setSlot_self _ _ _ (by simp [setSlot_length]; omega)]
      have gOther : ∀ x : Nat, x ≠ i → x ≠ b →
          getSlot (setSlot (setSlot slots ((i : Nat) : Int)
            { getSlot slots ((i : Nat) : Int) with prev := -1, next := ((b : Nat) : Int) })
            ((b : Nat) : Int) { getSlot slots ((b : Nat) : Int) with prev := ((i : Nat) : Int) })
            ((x : Nat) : Int) = getSlot slots ((x : Nat) : Int) := by
        intro x hxi hxb
        rw [getSlot_setSlot_ne _ _ _ _ (by omega), getSlot_setSlot_ne _ _ _ _ (by omega)]
      have hnd := hrep.nodup
      rw [List.nodup_cons] at hnd
      have hnext_l : ∀ z ∈ b :: lb,
          (getSlot (setSlot (setSlot slots ((i : Nat) : Int)
            { getSlot slots ((i : Nat) : Int) with prev := -1, next := ((b : Nat) : Int) })
            ((b : Nat) : Int) { getSlot slots ((b : Nat) : Int) with prev := ((i : Nat) : Int) })
            ((z : Nat) : Int)).next = (getSlot slots ((z : Nat) : Int)).next := by
        intro z hz
        by_cases hzb : z = b
        · subst hzb
          rw [gB]
        · rw [gOther z (fun h => hi (h ▸ hz)) hzb]
      refine ⟨⟨?_, rfl, ?_, ?_, ?_, ?_, ?_⟩, by simp [setSlot_length], ?_⟩
      · rw [List.chain'_cons]
        constructor
        · constructor
          · rw [gI]
          · rw [gB]
        · refine chain'_linked_frame slots _ (b :: lb) hrep.nodup ?_ ?_ hrep.chain
          · intro z hz _
            exact hnext_l z hz
          · intro z hz hzb
            rw [gOther z (fun h => hi (h ▸ hz)) (hzb b rfl)]
      · rw [lastD_cons]
        exact hrep.tail_eq.trans (lastD_ne_nil _ _ _ (by simp))
      · intro x hx
        simp only [List.head?_cons, Option.mem_def, Option.some.injEq] at hx
        subst hx
        rw [gI]
      · intro z hz
        rw [List.getLast?_cons_cons] at hz
        rw [hnext_l z (List.mem_of_mem_getLast? hz)]
        exact hrep.tail_next z hz
      · rw [List.nodup_cons]
        exact ⟨hi, hrep.nodup⟩
      · intro x hx
        simp only [setSlot_length]
        rcases List.mem_cons.mp hx with rfl | hx'
        · exact hilt
        · exact hrep.bounded x hx'
      · have c1 : ∀ j : Int, slotCore (getSlot (setSlot slots ((i : Nat) : Int)
            { getSlot slots ((i : Nat) : Int) with prev := -1, next := ((b : Nat) : Int) }) j) =
            slotCore (getSlot slots j) :=
          core_frame_set _ _ _ (slotCore_update_both _ _ _)
        have c2 : ∀ j : Int, slotCore (getSlot (setSlot (setSlot slots ((i : Nat) : Int)
            { getSlot slots ((i : Nat) : Int) with prev := -1, next := ((b : Nat) : Int) })
            ((b : Nat) : Int) { getSlot slots ((b : Nat) : Int) with prev := ((i : Nat) : Int) }) j) =
            slotCore (getSlot (setSlot slots ((i : Nat) : Int)
              { getSlot slots ((i : Nat) : Int) with prev := -1, next := ((b : Nat) : Int) }) j) :=
          core_frame_set _ _ _ ((slotCore_update_prev _ _).trans (c1 _).symm)
        intro j
        exact (c2 j).trans (c1 j)

/-- `lfu_insert_after` splices the slot in right after the cursor. -/
theorem lfu_insert_after_rep (hdr : Header) (slots : List Slot)
    (ma l2 : List Nat) (c i : Nat)
    (hrep : listRep hdr slots (ma ++ c :: l2)) (hi : i ∉ ma ++ c :: l2)
    (hilt : i < slots.length) :
    listRep (lfu_insert_after hdr slots (i : Int) (c : Int)).1
      (lfu_insert_after hdr slots (i : Int) (c : Int)).2 ((ma ++ [c]) ++ i :: l2) ∧
    (lfu_insert_after hdr slots (i : Int) (c : Int)).2.length = slots.length ∧
    ∀ j : Int, slotCore (getSlot (lfu_insert_after hdr slots (i : Int) (c : Int)).2 j) =
      slotCore (getSlot slots j) := by
  obtain ⟨hpv, hnx⟩ := listRep_decomp hdr slots ma l2 c hrep
  have hic : i ≠ c := fun h => hi (h ▸ List.mem_append_right _ (by simp))
  have hclt : c < slots.length := hrep.bounded c (by simp)
  have hndmid := nodup_middle_facts _ _ _ hrep.nodup
  cases l2 with
  | nil =>
      simp only [headD] at hnx
      have heval : lfu_insert_after hdr slots (i : Int) (c : Int) =
          ({ hdr with list_tail := ((i : Nat) : Int) },
            setSlot (setSlot slots ((i : Nat) : Int)
                { getSlot slots ((i : Nat) : Int) with prev := ((c : Nat) : Int), next := -1 })
              ((c : Nat) : Int)
              { getSlot slots ((c : Nat) : Int) with next := ((i : Nat) : Int) }) := by
        have hgc : ∀ s1 : Slot,
            getSlot (setSlot slots ((i : Nat) : Int) s1) ((c : Nat) : Int) =
            getSlot slots ((c : Nat) : Int) := fun s1 => getSlot_setSlot_ne _ _ _ _ (by omega)
        have hsI : getSlot (setSlot slots ((i : Nat) : Int)
            { getSlot slots ((i : Nat) : Int) with prev := ((c : Nat) : Int), next := -1 })
            ((i : Nat) : Int) =
          { getSlot slots ((i : Nat) : Int) with prev := ((c : Nat) : Int), next := -1 } :=
          getSlot_setSlot_self _ _ _ (by simpa using hilt)
        simp [lfu_insert_after, hnx, hgc, hsI]
      rw [heval]
      have gI : getSlot (setSlot (setSlot slots ((i : Nat) : Int)
            { getSlot slots ((i : Nat) : Int) with prev := ((c : Nat) : Int), next := -1 })
            ((c : Nat) : Int) { getSlot slots ((c : Nat) : Int) with next := ((i : Nat) : Int) })
            ((i : Nat) : Int) =
          { getSlot slots ((i : Nat) : Int) with prev := ((c : Nat) : Int), next := -1 } := by
        rw [getSlot_setSlot_ne _ _ _ _ (by omega),
          getSlot_setSlot_self _ _ _ (by simpa using hilt)]
      have gC : getSlot (setSlot (setSlot slots ((i : Nat) : Int)
            { getSlot slots ((i : Nat) : Int) with prev := ((c : Nat) : Int), next := -1 })
            ((c : Nat) : Int) { getSlot slots ((c : Nat) : Int) with next := ((i : Nat) : Int) })
            ((c : Nat) : Int) =
          { getSlot slots ((c : Nat) : Int) with next := ((i : Nat) : Int) } := by
        rw [getSlot_setSlot_self _ _ _ (by simp [setSlot_length]; omega)]
      have gOther : ∀ x : Nat, x ≠ i → x ≠ c →
          getSlot (setSlot (setSlot slots ((i : Nat) : Int)
            { getSlot slots ((i : Nat) : Int) with prev := ((c : Nat) : Int), next := -1 })
            ((c : Nat) : Int) { getSlot slots ((c : Nat) : Int) with next := ((i : Nat) : Int) })
            ((x : Nat) : Int) = getSlot slots ((x : Nat) : Int) := by
        intro x hxi hxc
        rw [getSlot_setSlot_ne _ _ _ _ (by omega), getSlot_setSlot_ne _ _ _ _ (by omega)]
      have hprev_l1 : ∀ x ∈ ma ++ [c],
          (getSlot (setSlot (setSlot slots ((i : Nat) : Int)
            { getSlot slots ((i : Nat) : Int) with prev := ((c : Nat) : Int), next := -1 })
            ((c : Nat) : Int) { getSlot slots ((c : Nat) : Int) with next := ((i : Nat) : Int) })
            ((x : Nat) : Int)).prev = (getSlot slots ((x : Nat) : Int)).prev := by
        intro x hx
        by_cases hxc : x = c
        · subst hxc
          rw [gC]
        · have hx' : x ∈ ma := by
            rcases List.mem_append.mp hx with h | h
            · exact h
            · simp at h
              exact absurd h hxc
          rw [gOther x (fun h => hi (h ▸ List.mem_append_left _ hx')) hxc]
      have hch := hrep.chain
      refine ⟨⟨?_, ?_, ?_, ?_, ?_, ?_, ?_⟩, by simp [setSlot_length], ?_⟩
      · rw [List.chain'_append]
        refine ⟨?_, by simp, ?_⟩
        · refine chain'_linked_frame slots _ (ma ++ [c]) (by simpa using hrep.nodup) ?_ ?_
            (by simpa using hch)
          · intro x hx hxz
            have hxc : x ≠ c := hxz c (by rw [List.getLast?_append_cons]; rfl)
            have hx' : x ∈ ma := by
              rcases List.mem_append.mp hx with h | h
              · exact h
              · simp at h
                exact absurd h hxc
            rw [gOther x (fun h => hi (h ▸ List.mem_append_left _ hx')) hxc]
          · intro x hx _
            exact hprev_l1 x hx
        · intro x hx y hy
          rw [List.getLast?_append_cons] at hx
          simp at hx hy
          subst hx
          subst hy
          constructor
          · rw [gC]
          · rw [gI]
      · exact hrep.head_eq.trans (by
          rw [headD_append_cons, headD_append_cons, headD_concat])
      · rw [lastD_concat]
      · intro x hx
        rw [head?_append_left _ _ (by simp)] at hx
        rw [hprev_l1 x (List.mem_of_mem_head? hx)]
        refine hrep.head_prev x ?_
        rw [show ma ++ [c] = ma ++ c :: [] from rfl, head?_append_cons_eq] at hx
        exact hx
      · intro z hz
        rw [List.getLast?_append_cons] at hz
        simp only [List.getLast?_singleton, Option.mem_def, Option.some.injEq] at hz
        subst hz
        rw [gI]
      · rw [List.nodup_middle, List.nodup_cons]
        refine ⟨by simpa using hi, by simpa using hrep.nodup⟩
      · intro x hx
        simp only [setSlot_length]
        rcases List.mem_append.mp hx with h | h
        · exact hrep.bounded x (by simpa using List.mem_append_left ([c] : List Nat) h)
        · simp at h
          subst h
          exact hilt
      · have c1 : ∀ j : Int, slotCore (getSlot (setSlot slots ((i : Nat) : Int)
            { getSlot slots ((i : Nat) : Int) with prev := ((c : Nat) : Int), next := -1 }) j) =
            slotCore (getSlot slots j) :=
          core_frame_set _ _ _ (slotCore_update_both _ _ _)
        have c2 : ∀ j : Int, slotCore (getSlot (setSlot (setSlot slots ((i : Nat) : Int)
            { getSlot slots ((i : Nat) : Int) with prev := ((c : Nat) : Int), next := -1 })
            ((c : Nat) : Int) { getSlot slots ((c : Nat) : Int) with next := ((i : Nat) : Int) }) j) =
            slotCore (getSlot (setSlot slots ((i : Nat) : Int)
              { getSlot slots ((i : Nat) : Int) with prev := ((c : Nat) : Int), next := -1 }) j) :=
          core_frame_set _ _ _ ((slotCore_update_next _ _).trans (c1 _).symm)
        intro j
        exact (c2 j).trans (c1 j)
  | cons b lb =>
      simp only [headD] at hnx
      have hib : i ≠ b := fun h => hi (h ▸ List.mem_append_right _ (by simp))
      have hcb : c ≠ b := fun h => hndmid.1 (List.mem_append_right _ (by simp [h]))
      have hblt : b < slots.length := hrep.bounded b (by simp)
      have heval : lfu_insert_after hdr slots (i : Int) (c : Int) =
          (hdr,
            setSlot (setSlot (setSlot slots ((i : Nat) : Int)
                { getSlot slots ((i : Nat) : Int) with
                    prev := ((c : Nat) : Int), next := ((b : Nat) : Int) })
              ((b : Nat) : Int)
              { getSlot slots ((b : Nat) : Int) with prev := ((i : Nat) : Int) })
              ((c : Nat) : Int)
              { getSlot slots ((c : Nat) : Int) with next := ((i : Nat) : Int) }) := by
        have hgb : ∀ s1 : Slot,
            getSlot (setSlot slots ((i : Nat) : Int) s1) ((b : Nat) : Int) =
            getSlot slots ((b : Nat) : Int) := fun s1 => getSlot_setSlot_ne _ _ _ _ (by omega)
        have hgc : ∀ s1 s2 : Slot,
            getSlot (setSlot (setSlot slots ((i : Nat) : Int) s1) ((b : Nat) : Int) s2)
              ((c : Nat) : Int) = getSlot slots ((c : Nat) : Int) := fun s1 s2 => by
          rw [getSlot_setSlot_ne _ _ _ _ (by omega), getSlot_setSlot_ne _ _ _ _ (by omega)]
        have hsI : getSlot (setSlot slots ((i : Nat) : Int)
            { getSlot slots ((i : Nat) : Int) with
                prev := ((c : Nat) : Int), next := ((b : Nat) : Int) })
            ((i : Nat) : Int) =
          { getSlot slots ((i : Nat) : Int) with
              prev := ((c : Nat) : Int), next := ((b : Nat) : Int) } :=
          getSlot_setSlot_self _ _ _ (by simpa using hilt)
        simp [lfu_insert_after, hnx, hgb, hgc, hsI,
          show ((b : Nat) : Int) ≠ -1 by omega]
      rw [heval]
      have gI : getSlot (setSlot (setSlot (setSlot slots ((i : Nat) : Int)
            { getSlot slots ((i : Nat) : Int) with
                prev := ((c : Nat) : Int), next := ((b : Nat) : Int) })
            ((b : Nat) : Int) { getSlot slots ((b : Nat) : Int) with prev := ((i : Nat) : Int) })
            ((c : Nat) : Int) { getSlot slots ((c : Nat) : Int) with next := ((i : Nat) : Int) })
            ((i : Nat) : Int) =
          { getSlot slots ((i : Nat) : Int) with
              prev := ((c : Nat) : Int), next := ((b : Nat) : Int) } := by
        rw [getSlot_setSlot_ne _ _ _ _ (by omega), getSlot_setSlot_ne _ _ _ _ (by omega),
          getSlot_setSlot_self _ _ _ (by simpa using hilt)]
      have gB : getSlot (setSlot (setSlot (setSlot slots ((i : Nat) : Int)
            { getSlot slots ((i : Nat) : Int) with
                prev := ((c : Nat) : Int), next := ((b : Nat) : Int) })
            ((b : Nat) : Int) { getSlot slots ((b : Nat) : Int) with prev := ((i : Nat) : Int) })
            ((c : Nat) : Int) { getSlot slots ((c : Nat) : Int) with next := ((i : Nat) : Int) })
            ((b : Nat) : Int) =
          { getSlot slots ((b : Nat) : Int) with prev := ((i : Nat) : Int) } := by
        rw [getSlot_setSlot_ne _ _ _ _ (by omega),
          getSlot_setSlot_self _ _ _ (by simp [setSlot_length]; omega)]
      have gC : getSlot (setSlot (setSlot (setSlot slots ((i : Nat) : Int)
            { getSlot slots ((i : Nat) : Int) with
                prev := ((c : Nat) : Int), next := ((b : Nat) : Int) })
            ((b : Nat) : Int) { getSlot slots ((b : Nat) : Int) with prev := ((i : Nat) : Int) })
            ((c : Nat) : Int) { getSlot slots ((c : Nat) : Int) with next := ((i : Nat) : Int) })
            ((c : Nat) : Int) =
          { getSlot slots ((c : Nat) : Int) with next := ((i : Nat) : Int) } := by
        rw [getSlot_setSlot_self _ _ _ (by simp [setSlot_length]; omega)]
      have gOther : ∀ x : Nat, x ≠ i → x ≠ b → x ≠ c →
          getSlot (setSlot (setSlot (setSlot slots ((i : Nat) : Int)
            { getSlot slots ((i : Nat) : Int) with
                prev := ((c : Nat) : Int), next := ((b : Nat) : Int) })
            ((b : Nat) : Int) { getSlot slots ((b : Nat) : Int) with prev := ((i : Nat) : Int) })
            ((c : Nat) : Int) { getSlot slots ((c : Nat) : Int) with next := ((i : Nat) : Int) })
            ((x : Nat) : Int) = getSlot slots ((x : Nat) : Int) := by
        intro x hxi hxb hxc
        rw [getSlot_setSlot_ne _ _ _ _ (by omega), getSlot_setSlot_ne _ _ _ _ (by omega),
          getSlot_setSlot_ne _ _ _ _ (by omega)]
      obtain ⟨hnd1, hnd2, hdisj0⟩ := List.nodup_append.mp
        (by simpa using hrep.nodup : ((ma ++ [c]) ++ b :: lb).Nodup)
      have hprev_l1 : ∀ x ∈ ma ++ [c],
          (getSlot (setSlot (setSlot (setSlot slots ((i : Nat) : Int)
            { getSlot slots ((i : Nat) : Int) with
                prev := ((c : Nat) : Int), next := ((b : Nat) : Int) })
            ((b : Nat) : Int) { getSlot slots ((b : Nat) : Int) with prev := ((i : Nat) : Int) })
            ((c : Nat) : Int) { getSlot slots ((c : Nat) : Int) with next := ((i : Nat) : Int) })
            ((x : Nat) : Int)).prev = (getSlot slots ((x : Nat) : Int)).prev := by
        intro x hx
        by_cases hxc : x = c
        · subst hxc
          rw [gC]
        · have hx' : x ∈ ma := by
            rcases List.mem_append.mp hx with h | h
            · exact h
            · simp at h
              exact absurd h hxc
          rw [gOther x (fun h => hi (h ▸ List.mem_append_left _ hx'))
            (fun h => hdisj0 (List.mem_append_left _ hx') (by simp [h])) hxc]
      have hnext_l2 : ∀ z ∈ b :: lb,
          (getSlot (setSlot (setSlot (setSlot slots ((i : Nat) : Int)
            { getSlot slots ((i : Nat) : Int) with
                prev := ((c : Nat) : Int), next := ((b : Nat) : Int) })
            ((b : Nat) : Int) { getSlot slots ((b : Nat) : Int) with prev := ((i : Nat) : Int) })
            ((c : Nat) : Int) { getSlot slots ((c : Nat) : Int) with next := ((i : Nat) : Int) })
            ((z : Nat) : Int)).next = (getSlot slots ((z : Nat) : Int)).next := by
        intro z hz
        by_cases hzb : z = b
        · subst hzb
          rw [gB]
        · rw [gOther z (fun h => hi (h ▸ List.mem_append_right _ (List.mem_cons_of_mem _ hz)))
            hzb (fun h => hdisj0 (List.mem_append_right _ (by simp)) (h ▸ hz))]
      have hch := hrep.chain
      rw [List.chain'_append] at hch
      obtain ⟨hch1, hch2, hcross0⟩ := hch
      rw [List.chain'_cons] at hch2
      refine ⟨⟨?_, ?_, ?_, ?_, ?_, ?_, ?_⟩, by simp [setSlot_length], ?_⟩
      · rw [List.chain'_append]
        refine ⟨?_, ?_, ?_⟩
        · refine chain'_linked_frame slots _ (ma ++ [c]) hnd1 ?_ ?_ ?_
          · intro x hx hxz
            have hxc : x ≠ c := hxz c (by rw [List.getLast?_append_cons]; rfl)
            have hx' : x ∈ ma := by
              rcases List.mem_append.mp hx with h | h
              · exact h
              · simp at h
                exact absurd h hxc
            rw [gOther x (fun h => hi (h ▸ List.mem_append_left _ hx'))
              (fun h => hdisj0 (List.mem_append_left _ hx') (by simp [h])) hxc]
          · intro x hx _
            exact hprev_l1 x hx
          · rw [List.chain'_append]
            refine ⟨hch1, by simp, ?_⟩
            intro x hx y hy
            simp at hy
            subst hy
            exact hcross0 x hx c (by simp)
        · rw [List.chain'_cons]
          constructor
          · constructor
            · rw [gI]
            · rw [gB]
          · refine chain'_linked_frame slots _ (b :: lb) hnd2 ?_ ?_ hch2.2
            · intro z hz _
              exact hnext_l2 z hz
            · intro z hz hzb
              rw [gOther z (fun h => hi (h ▸ List.mem_append_right _ (List.mem_cons_of_mem _ hz)))
                (hzb b rfl) (fun h => hdisj0 (List.mem_append_right _ (by simp)) (h ▸ hz))]
        · intro x hx y hy
          rw [List.getLast?_append_cons] at hx
          simp at hx hy
          subst hx
          subst hy
          constructor
          · rw [gC]
          · rw [gI]
      · exact hrep.head_eq.trans (by
          rw [headD_append_cons, headD_append_cons, headD_concat])
      · rw [lastD_append_cons]
        exact hrep.tail_eq.trans (by
          rw [lastD_append_cons, lastD_cons, lastD_cons])
      · intro x hx
        rw [head?_append_left _ _ (by simp)] at hx
        rw [hprev_l1 x (List.mem_of_mem_head? hx)]
        refine hrep.head_prev x ?_
        rw [show ma ++ [c] = ma ++ c :: [] from rfl, head?_append_cons_eq] at hx
        exact hx
      · intro z hz
        rw [List.getLast?_append_cons, List.getLast?_cons_cons] at hz
        rw [hnext_l2 z (List.mem_of_mem_getLast? hz)]
        refine hrep.tail_next z ?_
        rw [List.getLast?_append_cons, List.getLast?_cons_cons]
        exact hz
      · rw [List.nodup_middle, List.nodup_cons]
        refine ⟨by simpa using hi, by simpa using hrep.nodup⟩
      · intro x hx
        simp only [setSlot_length]
        rcases List.mem_append.mp hx with h | h
        · rcases List.mem_append.mp h with h' | h'
          · exact hrep.bounded x (List.mem_append_left _ h')
          · simp at h'
            subst h'
            exact hclt
        · rcases List.mem_cons.mp h with rfl | h'
          · exact hilt
          · exact hrep.bounded x (List.mem_append_right _ (List.mem_cons_of_mem _ h'))
      · have c1 : ∀ j : Int, slotCore (getSlot (setSlot slots ((i : Nat) : Int)
            { getSlot slots ((i : Nat) : Int) with
                prev := ((c : Nat) : Int), next := ((b : Nat) : Int) }) j) =
            slotCore (getSlot slots j) :=
          core_frame_set _ _ _ (slotCore_update_both _ _ _)
        have c2 : ∀ j : Int, slotCore (getSlot (setSlot (setSlot slots ((i : Nat) : Int)
            { getSlot slots ((i : Nat) : Int) with
                prev := ((c : Nat) : Int), next := ((b : Nat) : Int) })
            ((b : Nat) : Int) { getSlot slots ((b : Nat) : Int) with prev := ((i : Nat) : Int) }) j) =
            slotCore (getSlot (setSlot slots ((i : Nat) : Int)
              { getSlot slots ((i : Nat) : Int) with
                  prev := ((c : Nat) : Int), next := ((b : Nat) : Int) }) j) :=
          core_frame_set _ _ _ ((slotCore_update_prev _ _).trans (c1 _).symm)
        have c3 : ∀ j : Int, slotCore (getSlot (setSlot (setSlot (setSlot slots ((i : Nat) : Int)
            { getSlot slots ((i : Nat) : Int) with
                prev := ((c : Nat) : Int), next := ((b : Nat) : Int) })
            ((b : Nat) : Int) { getSlot slots ((b : Nat) : Int) with prev := ((i : Nat) : Int) })
            ((c : Nat) : Int) { getSlot slots ((c : Nat) : Int) with next := ((i : Nat) : Int) }) j) =
            slotCore (getSlot (setSlot (setSlot slots ((i : Nat) : Int)
              { getSlot slots ((i : Nat) : Int) with
                  prev := ((c : Nat) : Int), next := ((b : Nat) : Int) })
              ((b : Nat) : Int)
              { getSlot slots ((b : Nat) : Int) with prev := ((i : Nat) : Int) }) j) :=
          core_frame_set _ _ _ ((slotCore_update_next _ _).trans ((c2 _).trans (c1 _)).symm)
        intro j
        exact (c3 j).trans ((c2 j).trans (c1 j))

/-- A duplicate-free list of indices below `n` has at most `n` elements. -/
theorem nodup_bounded_length (l : List Nat) (n : Nat) (hnd : l.Nodup)
    (hb : ∀ a ∈ l, a < n) : l.length ≤ n := by
  have h1 : l.toFinset.card = l.length := List.toFinset_card_of_nodup hnd
  have h2 : l.toFinset ⊆ Finset.range n := by
    intro a ha
    rw [List.mem_toFinset] at ha
    rw [Finset.mem_range]
    exact hb a ha
  have := Finset.card_le_card h2
  rw [h1, Finset.card_range] at this
  exact this

theorem lfuScan_succ (h : Header) (slots : List Slot) (index : Int)
    (nf nu fuel : Nat) (cursor : Int) :
    lfuScan h slots index nf nu (fuel + 1) cursor =
      if cursor = -1 then lfu_insert_head h slots index
      else if (getSlot slots cursor).frequency < nf ∨
          ((getSlot slots cursor).frequency = nf ∧ (getSlot slots cursor).unique_id ≤ nu) then
        lfu_insert_after h slots index cursor
      else lfuScan h slots index nf nu fuel (getSlot slots cursor).prev := rfl

/-- The tail-to-head scan of `list_insert_lfu` splits the list at the
last element whose key is at most the new key, and splices the new slot
in there. -/
theorem lfuScan_rep (hdr : Header) (slots : List Slot) (i nf nu : Nat)
    (la lb : List Nat) (fuel : Nat)
    (hrep : listRep hdr slots (la ++ lb))
    (hi : i ∉ la ++ lb) (hilt : i < slots.length)
    (hlb : ∀ x ∈ lb, ¬ keyLe (lfuKey slots x) (nf, nu))
    (hfuel : la.length + 1 ≤ fuel) :
    ∃ m1 m2 : List Nat, la = m1 ++ m2 ∧
      (∀ x ∈ m2, ¬ keyLe (lfuKey slots x) (nf, nu)) ∧
      (∀ z ∈ m1.getLast?, keyLe (lfuKey slots z) (nf, nu)) ∧
      listRep (lfuScan hdr slots (i : Int) nf nu fuel (lastD la (-1))).1
        (lfuScan hdr slots (i : Int) nf nu fuel (lastD la (-1))).2
        (m1 ++ i :: (m2 ++ lb)) ∧
      (lfuScan hdr slots (i : Int) nf nu fuel (lastD la (-1))).2.length = slots.length ∧
      ∀ j : Int, slotCore (getSlot
          (lfuScan hdr slots (i : Int) nf nu fuel (lastD la (-1))).2 j) =
        slotCore (getSlot slots j) := by
  induction la using List.reverseRecOn generalizing lb fuel with
  | nil =>
      obtain ⟨fuel', rfl⟩ : ∃ f, fuel = f + 1 := ⟨fuel - 1, by omega⟩
      rw [show lastD ([] : List Nat) (-1) = -1 from rfl, lfuScan_succ, if_pos rfl]
      obtain ⟨h1, h2, h3⟩ := lfu_insert_head_rep hdr slots lb i hrep hi hilt
      exact ⟨[], [], rfl, by simp, by simp, h1, h2, h3⟩
  | append_singleton ma a ih =>
      obtain ⟨fuel', rfl⟩ : ∃ f, fuel = f + 1 := ⟨fuel - 1, by omega⟩
      have hrep' : listRep hdr slots (ma ++ a :: lb) := by
        rw [show ma ++ a :: lb = (ma ++ [a]) ++ lb by simp]
        exact hrep
      rw [lastD_concat, lfuScan_succ, if_neg (show ¬ ((a : Nat) : Int) = -1 by omega)]
      by_cases hk : (getSlot slots ((a : Nat) : Int)).frequency < nf ∨
          ((getSlot slots ((a : Nat) : Int)).frequency = nf ∧
            (getSlot slots ((a : Nat) : Int)).unique_id ≤ nu)
      · rw [if_pos hk]
        obtain ⟨hrepA, hlenA, hcoreA⟩ := lfu_insert_after_rep hdr slots ma lb a i hrep'
          (by simpa using hi) hilt
        refine ⟨ma ++ [a], [], by simp, by simp, ?_, hrepA, hlenA, hcoreA⟩
        intro z hz
        rw [List.getLast?_append_cons] at hz
        simp only [List.getLast?_singleton, Option.mem_def, Option.some.injEq] at hz
        subst hz
        exact hk
      · rw [if_neg hk]
        have hdec := listRep_decomp hdr slots ma lb a hrep'
        rw [hdec.1]
        have hlb' : ∀ x ∈ a :: lb, ¬ keyLe (lfuKey slots x) (nf, nu) := by
          intro x hx
          rcases List.mem_cons.mp hx with rfl | hx'
          · exact hk
          · exact hlb x hx'
        obtain ⟨m1, m2, heq, hm2, hm1, hrepR, hlenR, hcoreR⟩ :=
          ih (a :: lb) fuel' hrep' (by simpa using hi) hlb' (by simp at hfuel ⊢; omega)
        refine ⟨m1, m2 ++ [a], by rw [heq, List.append_assoc], ?_, hm1, ?_, hlenR, hcoreR⟩
        · intro x hx
          rcases List.mem_append.mp hx with h | h
          · exact hm2 x h
          · simp only [List.mem_singleton] at h
            subst h
            exact hk
        · rw [show (m2 ++ [a]) ++ lb = m2 ++ a :: lb by simp]
          exact hrepR

/-- `list_insert_lfu` splits the sorted order list at the last element
whose `(frequency, unique_id)` key is at most the new slot's key and
splices the new slot in there; every slot's core fields survive. -/
theorem list_insert_lfu_rep (hdr : Header) (slots : List Slot) (l : List Nat)
    (i : Nat) (hrep : listRep hdr slots l) (hi : i ∉ l) (hilt : i < slots.length) :
    ∃ m1 m2 : List Nat, l = m1 ++ m2 ∧
      (∀ x ∈ m2, ¬ keyLe (lfuKey slots x) (lfuKey slots i)) ∧
      (∀ z ∈ m1.getLast?, keyLe (lfuKey slots z) (lfuKey slots i)) ∧
      listRep (list_insert_lfu hdr slots (i : Int)).1
        (list_insert_lfu hdr slots (i : Int)).2 (m1 ++ i :: m2) ∧
      (list_insert_lfu hdr slots (i : Int)).2.length = slots.length ∧
      ∀ j : Int, slotCore (getSlot (list_insert_lfu hdr slots (i : Int)).2 j) =
        slotCore (getSlot slots j) := by
  have hlen : l.length + 1 ≤ slots.length + 1 :=
    Nat.add_le_add_right (nodup_bounded_length l slots.length hrep.nodup hrep.bounded) 1
  have hmain := lfuScan_rep hdr slots i (getSlot slots (i : Int)).frequency
    (getSlot slots (i : Int)).unique_id l [] (slots.length + 1)
    (by simpa using hrep) (by simpa using hi) hilt (by simp) hlen
  simp only [list_insert_lfu, lfuKey]
  rw [hrep.tail_eq]
  simpa using hmain

/-- Inserting an element between the members with keys at most its own
and those with strictly greater keys keeps the list sorted; the keys may
be read off any slab agreeing on the core fields. -/
theorem sortedRep_insert (slots slots' : List Slot) (m1 m2 : List Nat) (i : Nat)
    (hsort : sortedRep slots (m1 ++ m2))
    (hcore : ∀ j : Int, slotCore (getSlot slots' j) = slotCore (getSlot slots j))
    (hm1 : ∀ z ∈ m1.getLast?, keyLe (lfuKey slots z) (lfuKey slots i))
    (hm2 : ∀ x ∈ m2, ¬ keyLe (lfuKey slots x) (lfuKey slots i)) :
    sortedRep slots' (m1 ++ i :: m2) := by
  refine sortedRep_frame slots slots' _ (fun j _ => hcore ((j : Nat) : Int)) ?_
  unfold sortedRep at hsort ⊢
  rw [List.chain'_append] at hsort ⊢
  obtain ⟨h1, h2, _⟩ := hsort
  refine ⟨h1, ?_, ?_⟩
  · rw [List.chain'_cons']
    refine ⟨?_, h2⟩
    intro y hy
    exact keyLe_total _ _ (hm2 y (List.mem_of_mem_head? hy))
  · intro x hx y hy
    simp only [List.head?_cons, Option.mem_def, Option.some.injEq] at hy
    subst hy
    exact hm1 x hx

/-- **C4.** For the shared cache with strategy LFU (3), every order-list
operation preserves the sorted-ascending-by-`(frequency, unique_id)`
invariant of the represented order list — `on_insert` splices the new
slot into sorted position, `list_remove` (the expiry/eviction path)
splices a member out, `on_access` bumps the frequency and re-inserts in
sorted position, and `clear` leaves the empty (trivially sorted) list —
and the evict candidate is the list head, the entry whose
`(frequency, unique_id)` key is smallest. -/
theorem lfu_sorted_invariant (hdr : Header) (slots : List Slot) (l : List Nat)
    (i : Nat) (hrep : listRep hdr slots l) (hsort : sortedRep slots l) :
    (evict_candidate hdr 3 = headD l (-1) ∧
      ∀ a ∈ l.head?, ∀ b ∈ l, keyLe (lfuKey slots a) (lfuKey slots b)) ∧
    (i ∉ l → i < slots.length →
      ∃ m1 m2 : List Nat, l = m1 ++ m2 ∧
        listRep (on_insert hdr slots (i : Int) 3).1 (on_insert hdr slots (i : Int) 3).2
          (m1 ++ i :: m2) ∧
        sortedRep (on_insert hdr slots (i : Int) 3).2 (m1 ++ i :: m2)) ∧
    (∀ l1 l2 : List Nat, l = l1 ++ i :: l2 →
      listRep (list_remove hdr slots (i : Int)).1 (list_remove hdr slots (i : Int)).2
        (l1 ++ l2) ∧
      sortedRep (list_remove hdr slots (i : Int)).2 (l1 ++ l2)) ∧
    (∀ l1 l2 : List Nat, l = l1 ++ i :: l2 →
      ∃ m1 m2 : List Nat, l1 ++ l2 = m1 ++ m2 ∧
        listRep (on_access hdr slots (i : Int) 3).1 (on_access hdr slots (i : Int) 3).2
          (m1 ++ i :: m2) ∧
        sortedRep (on_access hdr slots (i : Int) 3).2 (m1 ++ i :: m2)) ∧
    (∀ st : State, listRep (clear st).header (clear st).slots [] ∧
      sortedRep (clear st).slots []) := by
  refine ⟨⟨hrep.head_eq, ?_⟩, ?_, ?_, ?_, ?_⟩
  · intro a ha b hb
    cases l with
    | nil => simp at ha
    | cons a0 rest =>
        simp only [List.head?_cons, Option.mem_def, Option.some.injEq] at ha
        subst ha
        have hs' : List.Chain' (fun x y => keyLe (lfuKey slots x) (lfuKey slots y))
            (a0 :: rest) := hsort
        exact @chain'_head_min Nat (fun x y => keyLe (lfuKey slots x) (lfuKey slots y))
          (fun x y z h1 h2 => keyLe_trans _ _ _ h1 h2)
          (fun x => keyLe_refl _) a0 rest hs' b hb
  · intro hi hilt
    obtain ⟨m1, m2, heq, hm2, hm1, hrep3, hlen3, hcore3⟩ :=
      list_insert_lfu_rep hdr slots l i hrep hi hilt
    refine ⟨m1, m2, heq, hrep3, ?_⟩
    rw [heq] at hsort
    exact sortedRep_insert slots _ m1 m2 i hsort hcore3 hm1 hm2
  · intro l1 l2 heql
    subst heql
    obtain ⟨hrep2, hlen2, hcore2⟩ := list_remove_rep hdr slots l1 l2 i hrep
    refine ⟨hrep2, ?_⟩
    refine sortedRep_frame slots _ _ (fun j _ => hcore2 ((j : Nat) : Int)) ?_
    have hs' : List.Chain' (fun x y => keyLe (lfuKey slots x) (lfuKey slots y))
        (l1 ++ i :: l2) := hsort
    exact @chain'_drop_middle Nat (fun x y => keyLe (lfuKey slots x) (lfuKey slots y))
      (fun x y z h1 h2 => keyLe_trans _ _ _ h1 h2) l1 l2 i hs'
  · intro l1 l2 heql
    subst heql
    have hilt : i < slots.length := hrep.bounded i (by simp)
    have hnotin : i ∉ l1 ++ l2 := (nodup_middle_facts _ _ _ hrep.nodup).1
    have hag : ∀ a ∈ l1 ++ i :: l2,
        (getSlot (setSlot slots ((i : Nat) : Int)
          { getSlot slots ((i : Nat) : Int) with
              frequency := (getSlot slots ((i : Nat) : Int)).frequency + 1 })
          ((a : Nat) : Int)).prev = (getSlot slots ((a : Nat) : Int)).prev ∧
        (getSlot (setSlot slots ((i : Nat) : Int)
          { getSlot slots ((i : Nat) : Int) with
              frequency := (getSlot slots ((i : Nat) : Int)).frequency + 1 })
          ((a : Nat) : Int)).next = (getSlot slots ((a : Nat) : Int)).next := by
      intro a _
      by_cases hai : a = i
      · subst hai
        rw [getSlot_setSlot_self _ _ _ (by simpa using hilt)]
        exact ⟨rfl, rfl⟩
      · rw [getSlot_setSlot_ne _ _ _ _ (by omega)]
        exact ⟨rfl, rfl⟩
    have hrep1 : listRep hdr (setSlot slots ((i : Nat) : Int)
        { getSlot slots ((i : Nat) : Int) with
            frequency := (getSlot slots ((i : Nat) : Int)).frequency + 1 })
        (l1 ++ i :: l2) :=
      listRep_frame hdr hdr _ _ _ rfl rfl (setSlot_length _ _ _) hag hrep
    obtain ⟨hrep2, hlen2, hcore2⟩ := list_remove_rep hdr _ l1 l2 i hrep1
    have hilt2 : i < (list_remove hdr (setSlot slots ((i : Nat) : Int)
        { getSlot slots ((i : Nat) : Int) with
            frequency := (getSlot slots ((i : Nat) : Int)).frequency + 1 })
        ((i : Nat) : Int)).2.length := by
      rw [hlen2, setSlot_length]
      exact hilt
    obtain ⟨m1, m2, heq2, hm2, hm1, hrep3, hlen3, hcore3⟩ :=
      list_insert_lfu_rep _ _ (l1 ++ l2) i hrep2 hnotin hilt2
    have hs' : List.Chain' (fun x y => keyLe (lfuKey slots x) (lfuKey slots y))
        (l1 ++ i :: l2) := hsort
    have hsort1 : sortedRep slots (l1 ++ l2) :=
      @chain'_drop_middle Nat (fun x y => keyLe (lfuKey slots x) (lfuKey slots y))
        (fun x y z h1 h2 => keyLe_trans _ _ _ h1 h2) l1 l2 i hs'
    have hsort2 : sortedRep (setSlot slots ((i : Nat) : Int)
        { getSlot slots ((i : Nat) : Int) with
            frequency := (getSlot slots ((i : Nat) : Int)).frequency + 1 })
        (l1 ++ l2) := by
      refine sortedRep_frame slots _ _ ?_ hsort1
      intro j hj
      have hji : j ≠ i := fun h => hnotin (h ▸ hj)
      rw [getSlot_setSlot_ne _ _ _ _ (by omega)]
    have hsort3 : sortedRep (list_remove hdr (setSlot slots ((i : Nat) : Int)
        { getSlot slots ((i : Nat) : Int) with
            frequency := (getSlot slots ((i : Nat) : Int)).frequency + 1 })
        ((i : Nat) : Int)).2 (m1 ++ m2) := by
      rw [← heq2]
      exact sortedRep_frame _ _ _ (fun j _ => hcore2 ((j : Nat) : Int)) hsort2
    exact ⟨m1, m2, heq2, hrep3,
      sortedRep_insert _ _ m1 m2 i hsort3 hcore3 hm1 hm2⟩
  · intro st
    refine ⟨⟨by simp, rfl, rfl, by simp, by simp, by simp, by simp⟩, by simp [sortedRep]⟩

/-- Witness for C4: the singleton order list `[0]` of the two-slot slab
satisfies the representation and sortedness hypotheses, and the theorem
applies to it with the fresh slot 1. -/
theorem lfu_sorted_invariant_witness :
    listRep c4hdr c4slots [0] ∧ sortedRep c4slots [0] ∧
    ((evict_candidate c4hdr 3 = headD [0] (-1) ∧
      ∀ a ∈ ([0] : List Nat).head?, ∀ b ∈ ([0] : List Nat),
        keyLe (lfuKey c4slots a) (lfuKey c4slots b)) ∧
     ((1 : Nat) ∉ ([0] : List Nat) → 1 < c4slots.length →
      ∃ m1 m2 : List Nat, [0] = m1 ++ m2 ∧
        listRep (on_insert c4hdr c4slots (((1 : Nat)) : Int) 3).1
          (on_insert c4hdr c4slots (((1 : Nat)) : Int) 3).2 (m1 ++ 1 :: m2) ∧
        sortedRep (on_insert c4hdr c4slots (((1 : Nat)) : Int) 3).2 (m1 ++ 1 :: m2)) ∧
     (∀ l1 l2 : List Nat, [0] = l1 ++ 1 :: l2 →
      listRep (list_remove c4hdr c4slots (((1 : Nat)) : Int)).1
        (list_remove c4hdr c4slots (((1 : Nat)) : Int)).2 (l1 ++ l2) ∧
      sortedRep (list_remove c4hdr c4slots (((1 : Nat)) : Int)).2 (l1 ++ l2)) ∧
     (∀ l1 l2 : List Nat, [0] = l1 ++ 1 :: l2 →
      ∃ m1 m2 : List Nat, l1 ++ l2 = m1 ++ m2 ∧
        listRep (on_access c4hdr c4slots (((1 : Nat)) : Int) 3).1
          (on_access c4hdr c4slots (((1 : Nat)) : Int) 3).2 (m1 ++ 1 :: m2) ∧
        sortedRep (on_access c4hdr c4slots (((1 : Nat)) : Int) 3).2 (m1 ++ 1 :: m2)) ∧
     (∀ st : State, listRep (clear st).header (clear st).slots [] ∧
      sortedRep (clear st).slots [])) := by
  have hrep : listRep c4hdr c4slots [0] := by
    refine ⟨by simp, rfl, rfl, ?_, ?_, by simp, ?_⟩
    · intro a ha
      simp at ha
      subst ha
      decide
    · intro a ha
      simp at ha
      subst ha
      decide
    · intro a ha
      simp at ha
      subst ha
      decide
  have hsort : sortedRep c4slots [0] := by simp [sortedRep]
  exact ⟨hrep, hsort, lfu_sorted_invariant c4hdr c4slots [0] 1 hrep hsort⟩

/-! ### The linear-probing development for the open-addressed index -/
theorem setBucket_length (B : List Bucket) (p : Nat) (b : Bucket) :
    (setBucket B p b).length = B.length := by
  simp [setBucket]

theorem getBucket_setBucket_self (B : List Bucket) (p : Nat) (b : Bucket)
    (h : p < B.length) : getBucket (setBucket B p b) p = b := by
  simp [getBucket, setBucket, List.getD, List.getElem?_set_self, h]

theorem getBucket_setBucket_ne (B : List Bucket) (p q : Nat) (b : Bucket)
    (h : p ≠ q) : getBucket (setBucket B p b) q = getBucket B q := by
  simp [getBucket, setBucket, List.getD]
  rw [List.getElem?_set_ne h]

theorem htStart_eq (k h : Nat) : htStart (2 ^ k) h = h % 2 ^ 32 % 2 ^ k := by
  simp [htStart, Nat.and_pow_two_sub_one_eq_mod]

theorem htStart_lt (k h : Nat) : htStart (2 ^ k) h < 2 ^ k := by
  rw [htStart_eq]
  exact Nat.mod_lt _ (Nat.pos_pow_of_pos k (by omega))

theorem htNext_eq (k idx : Nat) (h : idx < 2 ^ k) :
    htNext (2 ^ k) idx = nextP (2 ^ k) idx := by
  rw [htNext, Nat.and_pow_two_sub_one_eq_mod, nextP]
  split
  · simp [*]
  · exact Nat.mod_eq_of_lt (by omega)

theorem nextP_lt (cap b : Nat) (h : b < cap) : nextP cap b < cap := by
  unfold nextP
  split <;> omega

theorem distC_lt (cap a b : Nat) (ha : a < cap) (hb : b < cap) :
    distC cap a b < cap := by
  unfold distC
  split <;> omega

theorem distC_self (cap a : Nat) : distC cap a a = 0 := by
  unfold distC
  split <;> omega

theorem distC_eq_zero (cap a b : Nat) (ha : a < cap) (hb : b < cap)
    (h : distC cap a b = 0) : a = b := by
  unfold distC at h
  split at h <;> omega

theorem distC_pos_of_ne (cap a b : Nat) (ha : a < cap) (hb : b < cap)
    (h : a ≠ b) : 0 < distC cap a b := by
  unfold distC
  split <;> omega

theorem distC_next_of_ne (cap b z : Nat) (hb : b < cap) (hz : z < cap)
    (h : z ≠ b) : distC cap (nextP cap b) z + 1 = distC cap b z := by
  unfold distC nextP
  split_ifs <;> omega

theorem distC_next_from (cap a b : Nat) (ha : a < cap) (hb : b < cap)
    (h : distC cap a b + 1 < cap) :
    distC cap a (nextP cap b) = distC cap a b + 1 := by
  unfold distC nextP at *
  split_ifs at * <;> omega

theorem distC_inj (cap a b c : Nat) (ha : a < cap) (hb : b < cap) (hc : c < cap)
    (h : distC cap a b = distC cap a c) : b = c := by
  unfold distC at h
  split_ifs at h <;> omega

theorem htNext_lt (cap k idx : Nat) (hcap : cap = 2 ^ k) :
    htNext cap idx < cap := by
  subst hcap
  rw [htNext, Nat.and_pow_two_sub_one_eq_mod]
  exact Nat.mod_lt _ (Nat.pos_pow_of_pos k (by omega))

/-- Probing for a key held by none of the entries backing the table
always misses, whatever the fuel and start position. -/
theorem htLookupGo_miss (cap : Nat) (B : List Bucket) (slots : List Slot)
    (entries : List Entry) (kh : Nat) (kb : List Nat)
    (hcontent : ∀ p, p < cap → occP B p → ∃ e ∈ entries, holdsE B p e)
    (hok : ∀ e ∈ entries, entryOk slots e)
    (hnokey : ∀ e ∈ entries, e.key ≠ kb) (k : Nat) (hcap : cap = 2 ^ k) :
    ∀ fuel idx, idx < cap → htLookupGo B slots kh kb cap fuel idx = Option.none := by
  intro fuel
  induction fuel with
  | zero =>
      intro idx _
      rfl
  | succ n ih =>
      intro idx hidx
      rw [htLookupGo]
      by_cases hocc : (getBucket B idx).slot_index = -1
      · simp [hocc]
      · obtain ⟨e, he, hh⟩ := hcontent idx hidx hocc
        have hmatch : ¬ ((getBucket B idx).hash = kh ∧
            (getSlot slots (getBucket B idx).slot_index).occupied ≠ 0 ∧
            (getSlot slots (getBucket B idx).slot_index).key_len = kb.length ∧
            storedKey (getSlot slots (getBucket B idx).slot_index) = kb) := by
          rintro ⟨-, -, -, hsk⟩
          rw [hh.2] at hsk
          exact hnokey e he (((hok e he).2.2.2.symm.trans hsk))
        rw [if_neg hocc, if_neg hmatch]
        exact ih (htNext cap idx) (htNext_lt cap k idx hcap)

/-- Probing for a present entry's key from inside its home-to-position
path returns its slot index. -/
theorem htLookupGo_hit (cap : Nat) (B : List Bucket) (slots : List Slot)
    (entries : List Entry) (e : Entry) (he : e ∈ entries)
    (hcontent : ∀ p, p < cap → occP B p → ∃ e' ∈ entries, holdsE B p e')
    (hok : ∀ e' ∈ entries, entryOk slots e')
    (hkeys : ∀ e1 ∈ entries, ∀ e2 ∈ entries, e1.key = e2.key → e1 = e2)
    (p : Nat) (hp : p < cap) (hpe : holdsE B p e)
    (hpath : ∀ t, t < cap →
      distC cap (htStart cap e.hash) t < distC cap (htStart cap e.hash) p → occP B t)
    (k : Nat) (hcap : cap = 2 ^ k) :
    ∀ fuel idx, idx < cap →
      distC cap (htStart cap e.hash) idx ≤ distC cap (htStart cap e.hash) p →
      distC cap idx p < fuel →
      htLookupGo B slots e.hash e.key cap fuel idx = some e.slot := by
  have hs : htStart cap e.hash < cap := by
    subst hcap
    exact htStart_lt _ _
  intro fuel
  induction fuel with
  | zero =>
      intro idx _ _ hf
      omega
  | succ n ih =>
      intro idx hidx hle hf
      have hocc : ¬ (getBucket B idx).slot_index = -1 := by
        by_cases hip : idx = p
        · subst hip
          rw [hpe.2]
          exact (hok e he).1
        · have hlt : distC cap (htStart cap e.hash) idx <
              distC cap (htStart cap e.hash) p := by
            rcases Nat.lt_or_ge (distC cap (htStart cap e.hash) idx)
              (distC cap (htStart cap e.hash) p) with h | h
            · exact h
            · exact absurd (distC_inj cap (htStart cap e.hash) idx p hs hidx hp (by omega)) hip
          exact hpath idx hidx hlt
      rw [htLookupGo, if_neg hocc]
      by_cases hmatch : (getBucket B idx).hash = e.hash ∧
          (getSlot slots (getBucket B idx).slot_index).occupied ≠ 0 ∧
          (getSlot slots (getBucket B idx).slot_index).key_len = e.key.length ∧
          storedKey (getSlot slots (getBucket B idx).slot_index) = e.key
      · rw [if_pos hmatch]
        obtain ⟨e'', he'', hh⟩ := hcontent idx hidx hocc
        have hkey : e''.key = e.key := by
          have := hmatch.2.2.2
          rw [hh.2] at this
          exact ((hok e'' he'').2.2.2.symm.trans this)
        have : e'' = e := hkeys e'' he'' e he hkey
        subst this
        rw [hh.2]
      · have hip : idx ≠ p := by
          intro hip
          subst hip
          refine hmatch ⟨hpe.1, ?_, ?_, ?_⟩
          · rw [hpe.2]
            exact (hok e he).2.1
          · rw [hpe.2]
            exact (hok e he).2.2.1
          · rw [hpe.2]
            exact (hok e he).2.2.2
        rw [if_neg hmatch]
        have hslt : distC cap (htStart cap e.hash) idx <
            distC cap (htStart cap e.hash) p := by
          rcases Nat.lt_or_ge (distC cap (htStart cap e.hash) idx)
            (distC cap (htStart cap e.hash) p) with h | h
          · exact h
          · exact absurd (distC_inj cap (htStart cap e.hash) idx p hs hidx hp
              (by omega)) hip
        have hnext : htNext cap idx = nextP cap idx := by
          subst hcap
          exact htNext_eq _ _ hidx
        rw [hnext]
        refine ih (nextP cap idx) (nextP_lt cap idx hidx) ?_ ?_
        · rw [distC_next_from cap _ idx hs hidx
            (by have := distC_lt cap (htStart cap e.hash) p hs hp; omega)]
          omega
        · have := distC_next_of_ne cap idx p hidx hp (fun h => hip h.symm)
          omega

/-- `ht_lookup` finds every entry the invariant says is present. -/
theorem ht_lookup_hit (cap : Nat) (B : List Bucket) (slots : List Slot)
    (entries : List Entry) (e : Entry) (he : e ∈ entries)
    (hinv : HtInv cap entries B)
    (hok : ∀ e' ∈ entries, entryOk slots e')
    (hkeys : ∀ e1 ∈ entries, ∀ e2 ∈ entries, e1.key = e2.key → e1 = e2)
    (k : Nat) (hcap : cap = 2 ^ k) :
    ht_lookup B slots e.hash e.key cap = some e.slot := by
  obtain ⟨p, hp, hpe⟩ := hinv.present e he
  have hs : htStart cap e.hash < cap := by
    subst hcap
    exact htStart_lt _ _
  refine htLookupGo_hit cap B slots entries e he hinv.content hok hkeys p hp hpe
    ?_ k hcap cap (htStart cap e.hash) hs (by rw [distC_self]; omega)
    (distC_lt cap _ p hs hp)
  intro t ht hlt
  have := hinv.path p hp (by unfold occP; rw [hpe.2]; exact (hok e he).1) t ht
  rw [hpe.1] at this
  exact this hlt

/-- The probe loop of `ht_insert` writes the new bucket into the first
empty position, and every bucket it probed past is occupied. -/
theorem htInsertGo_spec (cap k : Nat) (hcap : cap = 2 ^ k) (B : List Bucket)
    (kh : Nat) (si : Int) :
    ∀ fuel idx z, idx < cap → z < cap → ¬ occP B z → distC cap idx z < fuel →
    ∃ w, w < cap ∧ ¬ occP B w ∧
      (∀ t, t < cap → distC cap idx t < distC cap idx w → occP B t) ∧
      htInsertGo B kh si cap fuel idx =
        setBucket B w { hash := kh, slot_index := si } := by
  subst hcap
  intro fuel
  induction fuel with
  | zero =>
      intro idx z _ _ _ hf
      omega
  | succ n ih =>
      intro idx z hidx hz hzocc hf
      by_cases hocc : (getBucket B idx).slot_index = -1
      · refine ⟨idx, hidx, fun h => h hocc, ?_, ?_⟩
        · intro t _ hlt
          rw [distC_self] at hlt
          omega
        · rw [htInsertGo, if_pos hocc]
      · have hzi : z ≠ idx := by
          intro h
          subst h
          exact hzocc hocc
        have hstep := distC_next_of_ne _ idx z hidx hz hzi
        have hpos := distC_pos_of_ne _ idx z hidx hz (fun h => hzi h.symm)
        obtain ⟨w, hw, hwocc, hpath, heq⟩ :=
          ih (nextP _ idx) z (nextP_lt _ idx hidx) hz hzocc (by omega)
        refine ⟨w, hw, hwocc, ?_, ?_⟩
        · intro t ht hlt
          have hwi : w ≠ idx := by
            intro h
            subst h
            exact hwocc hocc
          have hww := distC_next_of_ne _ idx w hidx hw hwi
          by_cases hti : t = idx
          · subst hti
            exact hocc
          · have htt := distC_next_of_ne _ idx t hidx ht hti
            exact hpath t ht (by omega)
        · rw [htInsertGo, if_neg hocc, htNext_eq _ _ hidx]
          exact heq

/-- The freshly cleared table satisfies the probing invariant for no
entries. -/
theorem htInv_empty (cap : Nat) :
    HtInv cap [] (List.replicate cap ({} : Bucket)) := by
  have hget : ∀ p : Nat, getBucket (List.replicate cap ({} : Bucket)) p = {} := by
    intro p
    simp only [getBucket, List.getD, List.get?_eq_getElem?, List.getElem?_replicate]
    split <;> rfl
  refine ⟨List.length_replicate _ _, by simp, ?_, ?_, ?_, ?_⟩
  · intro p _ hocc
    rw [occP, hget] at hocc
    simp at hocc
  · intro p _ hocc
    rw [occP, hget] at hocc
    simp at hocc
  · intro p q _ _ _ hocc _
    rw [occP, hget] at hocc
    simp at hocc
  · have : Finset.filter
        (fun p => (getBucket (List.replicate cap ({} : Bucket)) p).slot_index ≠ -1)
        (Finset.range cap) = ∅ := by
      refine Finset.filter_eq_empty_iff.mpr ?_
      intro p _
      rw [hget]
      simp
    rw [this]
    simp

/-- `ht_insert` of a fresh entry into a half-loaded invariant table
preserves the invariant. -/
theorem ht_insert_inv (cap k : Nat) (hcap : cap = 2 ^ k) (B : List Bucket)
    (entries : List Entry) (hinv : HtInv cap entries B) (e : Entry)
    (hslot : e.slot ≠ -1)
    (hslots : ∀ e' ∈ entries, e'.slot ≠ -1)
    (hnewslot : ∀ e' ∈ entries, e'.slot ≠ e.slot)
    (hload : entries.length < cap) :
    HtInv cap (entries ++ [e]) (ht_insert B e.hash e.slot cap) := by
  have hcard := hinv.card
  have hzex : ∃ z, z < cap ∧ ¬ occP B z := by
    by_contra hall
    push_neg at hall
    have hfe : Finset.filter (fun p => (getBucket B p).slot_index ≠ -1)
        (Finset.range cap) = Finset.range cap := by
      refine Finset.filter_eq_self.mpr ?_
      intro p hp
      exact hall p (Finset.mem_range.mp hp)
    rw [hfe, Finset.card_range] at hcard
    omega
  obtain ⟨z, hzmem, hzocc⟩ := hzex
  have hs : htStart cap e.hash < cap := by
    subst hcap
    exact htStart_lt _ _
  obtain ⟨w, hw, hwocc, hpath, heq⟩ := htInsertGo_spec cap k hcap B e.hash e.slot
    cap (htStart cap e.hash) z hs hzmem hzocc (distC_lt _ _ _ hs hzmem)
  rw [ht_insert, heq]
  have hgw : getBucket (setBucket B w { hash := e.hash, slot_index := e.slot }) w =
      { hash := e.hash, slot_index := e.slot } :=
    getBucket_setBucket_self _ _ _ (by rw [hinv.blen]; exact hw)
  have hgother : ∀ p, p ≠ w →
      getBucket (setBucket B w { hash := e.hash, slot_index := e.slot }) p =
      getBucket B p := fun p hp => getBucket_setBucket_ne _ _ _ _ (fun h => hp h.symm)
  refine ⟨by rw [setBucket_length, hinv.blen], ?_, ?_, ?_, ?_, ?_⟩
  · intro e' he'
    rcases List.mem_append.mp he' with h | h
    · obtain ⟨p, hp, hpe⟩ := hinv.present e' h
      have hpw : p ≠ w := by
        intro hpw
        subst hpw
        exact hwocc (by rw [occP, hpe.2]; exact hslots e' h)
      exact ⟨p, hp, by rw [holdsE, hgother p hpw]; exact hpe⟩
    · simp only [List.mem_singleton] at h
      subst h
      exact ⟨w, hw, by rw [holdsE, hgw]; exact ⟨rfl, rfl⟩⟩
  · intro p hp hocc
    by_cases hpw : p = w
    · subst hpw
      exact ⟨e, by simp, by rw [holdsE, hgw]; exact ⟨rfl, rfl⟩⟩
    · rw [occP, hgother p hpw] at hocc
      obtain ⟨e', he', hh⟩ := hinv.content p hp hocc
      exact ⟨e', List.mem_append_left _ he', by rw [holdsE, hgother p hpw]; exact hh⟩
  · intro p hp hocc t ht hlt
    by_cases hpw : p = w
    · subst hpw
      rw [hgw] at hlt
      have htw : t ≠ p := by
        intro h
        subst h
        omega
      rw [occP, hgother t htw]
      exact hpath t ht hlt
    · rw [hgother p hpw] at hlt
      rw [occP, hgother p hpw] at hocc
      by_cases htw : t = w
      · subst htw
        rw [occP, hgw]
        exact fun h => hslot h
      · rw [occP, hgother t htw]
        exact hinv.path p hp hocc t ht hlt
  · intro p q hp hq hpq hocc1 hocc2
    by_cases hpw : p = w
    · subst hpw
      rw [occP, hgother q (fun h => hpq h.symm)] at hocc2
      obtain ⟨e', he', hh⟩ := hinv.content q hq hocc2
      rw [hgw, hgother q (fun h => hpq h.symm)]
      rintro ⟨-, hslo⟩
      exact hnewslot e' he' (by rw [← hh.2, ← hslo])
    · by_cases hqw : q = w
      · subst hqw
        rw [occP, hgother p hpw] at hocc1
        obtain ⟨e', he', hh⟩ := hinv.content p hp hocc1
        rw [hgw, hgother p hpw]
        rintro ⟨-, hslo⟩
        exact hnewslot e' he' (by rw [← hh.2, hslo])
      · rw [occP, hgother p hpw] at hocc1
        rw [occP, hgother q hqw] at hocc2
        rw [hgother p hpw, hgother q hqw]
        exact hinv.uniq p q hp hq hpq hocc1 hocc2
  · have hsub : Finset.filter (fun p =>
        (getBucket (setBucket B w { hash := e.hash, slot_index := e.slot })
          p).slot_index ≠ -1) (Finset.range cap) ⊆
        Insert.insert w (Finset.filter (fun p => (getBucket B p).slot_index ≠ -1)
          (Finset.range cap)) := by
      intro p hp
      rw [Finset.mem_filter] at hp
      by_cases hpw : p = w
      · subst hpw
        exact Finset.mem_insert_self _ _
      · rw [hgother p hpw] at hp
        exact Finset.mem_insert_of_mem (Finset.mem_filter.mpr hp)
    calc (Finset.filter (fun p =>
          (getBucket (setBucket B w { hash := e.hash, slot_index := e.slot })
            p).slot_index ≠ -1) (Finset.range cap)).card
        ≤ (Insert.insert w (Finset.filter (fun p => (getBucket B p).slot_index ≠ -1)
            (Finset.range cap))).card := Finset.card_le_card hsub
      _ ≤ (Finset.filter (fun p => (getBucket B p).slot_index ≠ -1)
            (Finset.range cap)).card + 1 := Finset.card_insert_le _ _
      _ ≤ entries.length + 1 := by omega
      _ = (entries ++ [e]).length := by simp

/-- Folding `ht_insert` over a suffix of pairwise-distinct-key entries
extends the invariant from the processed prefix to the whole list. -/
theorem buildHt_inv_aux (cap k : Nat) (hcap : cap = 2 ^ k) (slots : List Slot) :
    ∀ (rest done : List Entry) (B : List Bucket),
    HtInv cap done B →
    (∀ e ∈ done ++ rest, entryOk slots e) →
    (done ++ rest).Pairwise (fun a b => a.key ≠ b.key) →
    (done ++ rest).length ≤ cap →
    HtInv cap (done ++ rest)
      (rest.foldl (fun B e => ht_insert B e.hash e.slot cap) B) := by
  intro rest
  induction rest with
  | nil =>
      intro done B hinv _ _ _
      simpa using hinv
  | cons e rest' ih =>
      intro done B hinv hok hpw hlen
      have heok : entryOk slots e := hok e (by simp)
      have hnewslot : ∀ e' ∈ done, e'.slot ≠ e.slot := by
        intro e' he' hslo
        have hok' := hok e' (List.mem_append_left _ he')
        have hkne : e'.key ≠ e.key := by
          rw [List.pairwise_append] at hpw
          exact hpw.2.2 e' he' e (by simp)
        refine hkne ?_
        rw [← hok'.2.2.2, ← heok.2.2.2, hslo]
      have hstep : HtInv cap (done ++ [e]) (ht_insert B e.hash e.slot cap) :=
        ht_insert_inv cap k hcap B done hinv e heok.1
          (fun e' he' => (hok e' (List.mem_append_left _ he')).1)
          hnewslot (by simp at hlen; omega)
      have hassoc : done ++ e :: rest' = (done ++ [e]) ++ rest' := by simp
      rw [hassoc] at hok hpw hlen ⊢
      exact ih (done ++ [e]) (ht_insert B e.hash e.slot cap) hstep hok hpw hlen

/-- The table built from a cleared index by inserting every entry
satisfies the probing invariant. -/
theorem buildHt_inv (cap k : Nat) (hcap : cap = 2 ^ k) (slots : List Slot)
    (entries : List Entry)
    (hok : ∀ e ∈ entries, entryOk slots e)
    (hpw : entries.Pairwise (fun a b => a.key ≠ b.key))
    (hlen : entries.length ≤ cap) :
    HtInv cap entries (buildHt cap entries) := by
  have := buildHt_inv_aux cap k hcap slots entries [] (List.replicate cap {})
    (htInv_empty cap) (by simpa using hok) (by simpa using hpw) (by simpa using hlen)
  simpa [buildHt] using this

/-- The find phase of `ht_remove` locates a bucket holding the entry. -/
theorem htFindGo_hit (cap : Nat) (B : List Bucket) (slots : List Slot)
    (entries : List Entry) (e : Entry) (he : e ∈ entries)
    (hcontent : ∀ p, p < cap → occP B p → ∃ e' ∈ entries, holdsE B p e')
    (hok : ∀ e' ∈ entries, entryOk slots e')
    (hkeys : ∀ e1 ∈ entries, ∀ e2 ∈ entries, e1.key = e2.key → e1 = e2)
    (p : Nat) (hp : p < cap) (hpe : holdsE B p e)
    (hpath : ∀ t, t < cap →
      distC cap (htStart cap e.hash) t < distC cap (htStart cap e.hash) p → occP B t)
    (k : Nat) (hcap : cap = 2 ^ k) :
    ∀ fuel idx, idx < cap →
      distC cap (htStart cap e.hash) idx ≤ distC cap (htStart cap e.hash) p →
      distC cap idx p < fuel →
      ∃ r, htFindGo B slots e.hash e.key cap fuel idx = some r ∧ r < cap ∧
        holdsE B r e := by
  have hs : htStart cap e.hash < cap := by
    subst hcap
    exact htStart_lt _ _
  intro fuel
  induction fuel with
  | zero =>
      intro idx _ _ hf
      omega
  | succ n ih =>
      intro idx hidx hle hf
      have hocc : ¬ (getBucket B idx).slot_index = -1 := by
        by_cases hip : idx = p
        · subst hip
          rw [hpe.2]
          exact (hok e he).1
        · have hlt : distC cap (htStart cap e.hash) idx <
              distC cap (htStart cap e.hash) p := by
            rcases Nat.lt_or_ge (distC cap (htStart cap e.hash) idx)
              (distC cap (htStart cap e.hash) p) with h | h
            · exact h
            · exact absurd (distC_inj cap (htStart cap e.hash) idx p hs hidx hp
                (by omega)) hip
          exact hpath idx hidx hlt
      rw [htFindGo, if_neg hocc]
      by_cases hmatch : (getBucket B idx).hash = e.hash ∧
          (getSlot slots (getBucket B idx).slot_index).key_len = e.key.length ∧
          storedKey (getSlot slots (getBucket B idx).slot_index) = e.key
      · rw [if_pos hmatch]
        obtain ⟨e'', he'', hh⟩ := hcontent idx hidx hocc
        have hkey : e''.key = e.key := by
          have := hmatch.2.2
          rw [hh.2] at this
          exact ((hok e'' he'').2.2.2.symm.trans this)
        have : e'' = e := hkeys e'' he'' e he hkey
        subst this
        exact ⟨idx, rfl, hidx, hh⟩
      · have hip : idx ≠ p := by
          intro hip
          subst hip
          refine hmatch ⟨hpe.1, ?_, ?_⟩
          · rw [hpe.2]
            exact (hok e he).2.2.1
          · rw [hpe.2]
            exact (hok e he).2.2.2
        rw [if_neg hmatch]
        have hslt : distC cap (htStart cap e.hash) idx <
            distC cap (htStart cap e.hash) p := by
          rcases Nat.lt_or_ge (distC cap (htStart cap e.hash) idx)
            (distC cap (htStart cap e.hash) p) with h | h
          · exact h
          · exact absurd (distC_inj cap (htStart cap e.hash) idx p hs hidx hp
              (by omega)) hip
        have hnext : htNext cap idx = nextP cap idx := by
          subst hcap
          exact htNext_eq _ _ hidx
        rw [hnext]
        refine ih (nextP cap idx) (nextP_lt cap idx hidx) ?_ ?_
        · rw [distC_next_from cap _ idx hs hidx
            (by have := distC_lt cap (htStart cap e.hash) p hs hp; omega)]
          omega
        · have := distC_next_of_ne cap idx p hidx hp (fun h => hip h.symm)
          omega

theorem distC_no_cross_of_between (cap i j ib : Nat) (hi : i < cap) (hj : j < cap)
    (hib : ib < cap) (hij : i ≠ j) (h1 : 0 < distC cap i ib)
    (h2 : distC cap i ib ≤ distC cap i j) : ¬ distC cap ib i < distC cap ib j := by
  unfold distC at *
  split_ifs at * <;> omega

theorem distC_cross_of_beyond (cap i j ib : Nat) (hi : i < cap) (hj : j < cap)
    (hib : ib < cap) (hij : i ≠ j) (h : distC cap i j < distC cap i ib) :
    distC cap ib i < distC cap ib j := by
  unfold distC at *
  split_ifs at * <;> omega

theorem distC_scan_reaches (cap s i j p : Nat) (hs : s < cap) (hi : i < cap)
    (hj : j < cap) (hp : p < cap) (hij : i ≠ j) (hpj : p ≠ j)
    (hcross : distC cap s i < distC cap s p) (hahead : distC cap i j ≤ distC cap i p) :
    distC cap s j < distC cap s p := by
  unfold distC at *
  split_ifs at * <;> omega

theorem backshiftGo_succ (cap fuel : Nat) (B : List Bucket) (empt j : Nat) :
    backshiftGo cap (fuel + 1) B empt j =
      if (getBucket B j).slot_index = -1 then
        setBucket B empt { hash := 0, slot_index := -1 }
      else if (if empt ≤ j then
            htStart cap (getBucket B j).hash ≤ empt ∨ j < htStart cap (getBucket B j).hash
          else
            htStart cap (getBucket B j).hash ≤ empt ∧ j < htStart cap (getBucket B j).hash) then
        backshiftGo cap fuel (setBucket B empt
          { hash := (getBucket B j).hash, slot_index := (getBucket B j).slot_index })
          j (htNext cap j)
      else backshiftGo cap fuel B empt (htNext cap j) := rfl

theorem shouldMove_iff (cap i j ideal : Nat) (hi : i < cap) (hj : j < cap)
    (hid : ideal < cap) (hij : i ≠ j) :
    (if i ≤ j then ideal ≤ i ∨ j < ideal else ideal ≤ i ∧ j < ideal) ↔
    (distC cap i ideal = 0 ∨ distC cap i j < distC cap i ideal) := by
  unfold distC
  split_ifs <;> omega

/-- When the backward-shift scan reaches an empty bucket, clearing the
current hole restores the full probing invariant. -/
theorem remInv_exit (cap k : Nat) (hcap : cap = 2 ^ k) (entries : List Entry)
    (B : List Bucket)
    (i j : Nat) (hri : RemInv cap entries B i j) (hjocc : ¬ occP B j) :
    HtInv cap entries (setBucket B i { hash := 0, slot_index := -1 }) := by
  have hgi : getBucket (setBucket B i { hash := 0, slot_index := -1 }) i =
      { hash := 0, slot_index := -1 } :=
    getBucket_setBucket_self _ _ _ (by rw [hri.blen]; exact hri.ilt)
  have hgo : ∀ p, p ≠ i →
      getBucket (setBucket B i { hash := 0, slot_index := -1 }) p = getBucket B p :=
    fun p hp => getBucket_setBucket_ne _ _ _ _ (fun h => hp h.symm)
  refine ⟨by rw [setBucket_length]; exact hri.blen, ?_, ?_, ?_, ?_, ?_⟩
  · intro e he
    obtain ⟨p, hp, hpi, hpe⟩ := hri.present e he
    exact ⟨p, hp, by rw [holdsE, hgo p hpi]; exact hpe⟩
  · intro p hp hocc
    by_cases hpi : p = i
    · subst hpi
      rw [occP, hgi] at hocc
      simp at hocc
    · rw [occP, hgo p hpi] at hocc
      obtain ⟨e, he, hh⟩ := hri.content p hp hpi hocc
      exact ⟨e, he, by rw [holdsE, hgo p hpi]; exact hh⟩
  · intro p hp hocc t ht hlt
    have hpi : p ≠ i := by
      intro h
      subst h
      rw [occP, hgi] at hocc
      simp at hocc
    rw [occP, hgo p hpi] at hocc
    rw [hgo p hpi] at hlt
    by_cases hti : t = i
    · subst hti
      exfalso
      have hcr := hri.crossAhead p hp hpi hocc hlt
      have hpn : p ≠ j := by
        intro h
        subst h
        exact hjocc hocc
      have hsp : htStart cap (getBucket B p).hash < cap := by
        subst hcap
        exact htStart_lt _ _
      have := distC_scan_reaches cap (htStart cap (getBucket B p).hash) t j p
        hsp hri.ilt hri.jlt hp hri.inej hpn hlt hcr
      exact hjocc (hri.path p hp hpi hocc j hri.jlt (fun h => hri.inej h.symm) this)
    · rw [occP, hgo t hti]
      exact hri.path p hp hpi hocc t ht hti hlt
  · intro p q hp hq hpq hocc1 hocc2
    have hpi : p ≠ i := by
      intro h
      subst h
      rw [occP, hgi] at hocc1
      simp at hocc1
    have hqi : q ≠ i := by
      intro h
      subst h
      rw [occP, hgi] at hocc2
      simp at hocc2
    rw [occP, hgo p hpi] at hocc1
    rw [occP, hgo q hqi] at hocc2
    rw [hgo p hpi, hgo q hqi]
    exact hri.uniq p q hp hq hpq hpi hqi hocc1 hocc2
  · have hfe : Finset.filter (fun p =>
        (getBucket (setBucket B i { hash := 0, slot_index := -1 }) p).slot_index ≠ -1)
        (Finset.range cap) =
        (Finset.filter (fun p => (getBucket B p).slot_index ≠ -1)
          (Finset.range cap)).erase i := by
      ext p
      rw [Finset.mem_erase, Finset.mem_filter, Finset.mem_filter]
      constructor
      · intro ⟨hrange, hocc⟩
        by_cases hpi : p = i
        · subst hpi
          rw [hgi] at hocc
          simp at hocc
        · rw [hgo p hpi] at hocc
          exact ⟨hpi, hrange, hocc⟩
      · intro ⟨hpi, hrange, hocc⟩
        rw [← hgo p hpi] at hocc
        exact ⟨hrange, hocc⟩
    rw [hfe]
    have hmem : i ∈ Finset.filter (fun p => (getBucket B p).slot_index ≠ -1)
        (Finset.range cap) :=
      Finset.mem_filter.mpr ⟨Finset.mem_range.mpr hri.ilt, hri.istale⟩
    rw [Finset.card_erase_of_mem hmem]
    have := hri.card
    omega

theorem nextP_ne (cap b : Nat) (hcap : 2 ≤ cap) (hb : b < cap) :
    nextP cap b ≠ b := by
  unfold nextP
  split <;> omega

/-- Skipping a bucket whose home position lies inside `(hole, j]` keeps
the backward-shift invariant. -/
theorem remInv_skip (cap : Nat) (entries : List Entry)
    (B : List Bucket) (i j : Nat) (hri : RemInv cap entries B i j)
    (hjocc : occP B j)
    (hnm : 0 < distC cap i (htStart cap (getBucket B j).hash) ∧
      distC cap i (htStart cap (getBucket B j).hash) ≤ distC cap i j)
    (hid : htStart cap (getBucket B j).hash < cap)
    (hstep : distC cap i j + 1 < cap) :
    RemInv cap entries B i (nextP cap j) := by
  have hnj := distC_next_from cap i j hri.ilt hri.jlt hstep
  refine ⟨hri.blen, hri.ilt, nextP_lt cap j hri.jlt, ?_, hri.istale, hri.present,
    hri.content, hri.path, ?_, hri.uniq, hri.card⟩
  · intro h
    rw [← h, distC_self] at hnj
    omega
  · intro p hp hpi hocc hcross
    have hold := hri.crossAhead p hp hpi hocc hcross
    have hpj : p ≠ j := by
      intro h
      subst h
      exact distC_no_cross_of_between cap i p (htStart cap (getBucket B p).hash)
        hri.ilt hp hid hri.inej hnm.1 hnm.2 hcross
    have : distC cap i j ≠ distC cap i p :=
      fun h => hpj (distC_inj cap i j p hri.ilt hri.jlt hp h).symm
    omega

/-- Moving the scanned bucket into the hole keeps the backward-shift
invariant, with the hole advancing to the scan position. -/
theorem remInv_move (cap k : Nat) (hcap : cap = 2 ^ k) (entries : List Entry)
    (B : List Bucket) (i j : Nat) (hri : RemInv cap entries B i j)
    (hjocc : occP B j)
    (hm : distC cap i (htStart cap (getBucket B j).hash) = 0 ∨
      distC cap i j < distC cap i (htStart cap (getBucket B j).hash)) :
    RemInv cap entries
      (setBucket B i
        { hash := (getBucket B j).hash, slot_index := (getBucket B j).slot_index })
      j (nextP cap j) := by
  have hcap2 : 2 ≤ cap := by
    have := hri.ilt
    have := hri.jlt
    have := hri.inej
    omega
  have hgi : getBucket (setBucket B i
      { hash := (getBucket B j).hash, slot_index := (getBucket B j).slot_index }) i =
      { hash := (getBucket B j).hash, slot_index := (getBucket B j).slot_index } :=
    getBucket_setBucket_self _ _ _ (by rw [hri.blen]; exact hri.ilt)
  have hgo : ∀ p, p ≠ i →
      getBucket (setBucket B i
        { hash := (getBucket B j).hash, slot_index := (getBucket B j).slot_index }) p =
      getBucket B p :=
    fun p hp => getBucket_setBucket_ne _ _ _ _ (fun h => hp h.symm)
  have hib : htStart cap (getBucket B j).hash < cap := by
    subst hcap
    exact htStart_lt _ _
  refine ⟨by rw [setBucket_length]; exact hri.blen, hri.jlt, nextP_lt cap j hri.jlt,
    (nextP_ne cap j hcap2 hri.jlt).symm, ?_, ?_, ?_, ?_, ?_, ?_, ?_⟩
  · rw [occP, hgo j (fun h => hri.inej h.symm)]
    exact hjocc
  · intro e he
    obtain ⟨p, hp, hpi, hpe⟩ := hri.present e he
    by_cases hpj : p = j
    · subst hpj
      refine ⟨i, hri.ilt, hri.inej, ?_⟩
      rw [holdsE, hgi]
      exact hpe
    · exact ⟨p, hp, hpj, by rw [holdsE, hgo p hpi]; exact hpe⟩
  · intro p hp hpj hocc
    by_cases hpi : p = i
    · subst hpi
      obtain ⟨e, he, hh⟩ := hri.content j hri.jlt (fun h => hri.inej h.symm) hjocc
      exact ⟨e, he, by rw [holdsE, hgi]; exact hh⟩
    · rw [occP, hgo p hpi] at hocc
      obtain ⟨e, he, hh⟩ := hri.content p hp hpi hocc
      exact ⟨e, he, by rw [holdsE, hgo p hpi]; exact hh⟩
  · intro p hp hpj hocc t ht htj hlt
    by_cases hpi : p = i
    · subst hpi
      rw [hgi] at hlt
      rcases hm with hm0 | hmgt
      · exfalso
        have hsi : htStart cap (getBucket B j).hash = p :=
          (distC_eq_zero cap p _ hri.ilt hib hm0).symm
        rw [hsi, distC_self] at hlt
        omega
      · by_cases hti : t = p
        · subst hti
          rw [occP, hgi]
          exact hjocc
        · rw [occP, hgo t hti]
          have hcr := distC_cross_of_beyond cap p j
            (htStart cap (getBucket B j).hash) hri.ilt hri.jlt hib hri.inej hmgt
          have hlt' : distC cap (htStart cap (getBucket B j).hash) t <
              distC cap (htStart cap (getBucket B j).hash) p := hlt
          exact hri.path j hri.jlt (fun h => hri.inej h.symm) hjocc t ht hti
            (by omega)
    · rw [hgo p hpi] at hlt
      rw [occP, hgo p hpi] at hocc
      by_cases hti : t = i
      · subst hti
        rw [occP, hgi]
        exact hjocc
      · rw [occP, hgo t hti]
        exact hri.path p hp hpi hocc t ht hti hlt
  · intro p hp hpj hocc hcross
    have h1 : distC cap j (nextP cap j) = 1 := by
      have := distC_next_from cap j j hri.jlt hri.jlt
        (by rw [distC_self]; omega)
      rw [distC_self] at this
      omega
    rw [h1]
    exact distC_pos_of_ne cap j p hri.jlt hp (fun h => hpj h.symm)
  · intro p q hp hq hpq hpj hqj hocc1 hocc2
    by_cases hpi : p = i
    · subst hpi
      have hqi : q ≠ p := fun h => hpq h.symm
      rw [occP, hgo q hqi] at hocc2
      rw [hgi, hgo q hqi]
      exact hri.uniq j q hri.jlt hq (fun h => hqj h.symm) (fun h => hri.inej h.symm)
        hqi hjocc hocc2
    · by_cases hqi : q = i
      · subst hqi
        rw [occP, hgo p hpi] at hocc1
        rw [hgi, hgo p hpi]
        intro hcon
        exact hri.uniq j p hri.jlt hp (fun h => hpj h.symm) (fun h => hri.inej h.symm)
          hpi hjocc hocc1 ⟨hcon.1.symm, hcon.2.symm⟩
      · rw [occP, hgo p hpi] at hocc1
        rw [occP, hgo q hqi] at hocc2
        rw [hgo p hpi, hgo q hqi]
        exact hri.uniq p q hp hq hpq hpi hqi hocc1 hocc2
  · have hfe : Finset.filter (fun p =>
        (getBucket (setBucket B i
          { hash := (getBucket B j).hash, slot_index := (getBucket B j).slot_index })
          p).slot_index ≠ -1) (Finset.range cap) =
        Finset.filter (fun p => (getBucket B p).slot_index ≠ -1)
          (Finset.range cap) := by
      refine Finset.filter_congr ?_
      intro p _
      by_cases hpi : p = i
      · subst hpi
        rw [hgi]
        simp only [eq_iff_iff]
        constructor
        · intro _
          exact hri.istale
        · intro _
          exact hjocc
      · rw [hgo p hpi]
    rw [hfe]
    exact hri.card

/-- The backward-shift loop of `ht_remove` restores the probing
invariant, given enough fuel to reach the first empty bucket. -/
theorem backshiftGo_spec (cap k : Nat) (hcap : cap = 2 ^ k) (entries : List Entry) :
    ∀ fuel B i j z, RemInv cap entries B i j → z < cap → ¬ occP B z → z ≠ i →
      distC cap i j ≤ distC cap i z → distC cap j z < fuel →
      HtInv cap entries (backshiftGo cap fuel B i j) := by
  intro fuel
  induction fuel with
  | zero =>
      intro B i j z hri hz hzocc hzi hle hf
      omega
  | succ n ih =>
      intro B i j z hri hz hzocc hzi hle hf
      rw [backshiftGo_succ]
      by_cases hjocc : (getBucket B j).slot_index = -1
      · rw [if_pos hjocc]
        exact remInv_exit cap k hcap entries B i j hri (fun h => h hjocc)
      · rw [if_neg hjocc]
        have hjo : occP B j := hjocc
        have hzj : z ≠ j := fun h => hzocc (by rw [occP, h]; exact hjo)
        have hib : htStart cap (getBucket B j).hash < cap := by
          subst hcap
          exact htStart_lt _ _
        have hsm := shouldMove_iff cap i j (htStart cap (getBucket B j).hash)
          hri.ilt hri.jlt hib hri.inej
        have hdlt := distC_lt cap i z hri.ilt hz
        have hne2 : distC cap i j ≠ distC cap i z :=
          fun h => hzj (distC_inj cap i j z hri.ilt hri.jlt hz h).symm
        have hstep : distC cap i j + 1 < cap := by omega
        have hnjz := distC_next_of_ne cap j z hri.jlt hz hzj
        have hjzpos := distC_pos_of_ne cap j z hri.jlt hz (fun h => hzj h.symm)
        have hnxt : htNext cap j = nextP cap j := by
          subst hcap
          exact htNext_eq _ _ hri.jlt
        by_cases hmv : (if i ≤ j then
            htStart cap (getBucket B j).hash ≤ i ∨ j < htStart cap (getBucket B j).hash
          else
            htStart cap (getBucket B j).hash ≤ i ∧ j < htStart cap (getBucket B j).hash)
        · rw [if_pos hmv, hnxt]
          have hm := hsm.mp hmv
          have hri' := remInv_move cap k hcap entries B i j hri hjo hm
          have hzocc' : ¬ occP (setBucket B i
              { hash := (getBucket B j).hash,
                slot_index := (getBucket B j).slot_index }) z := by
            rw [occP, getBucket_setBucket_ne _ _ _ _ (fun h => hzi h.symm)]
            exact hzocc
          have h1 : distC cap j (nextP cap j) = 1 := by
            have := distC_next_from cap j j hri.jlt hri.jlt
              (by rw [distC_self]; omega)
            rw [distC_self] at this
            omega
          refine ih _ j (nextP cap j) z hri' hz hzocc' hzj ?_ (by omega)
          rw [h1]
          exact hjzpos
        · rw [if_neg hmv, hnxt]
          have hnm : 0 < distC cap i (htStart cap (getBucket B j).hash) ∧
              distC cap i (htStart cap (getBucket B j).hash) ≤ distC cap i j := by
            rcases Nat.eq_zero_or_pos
              (distC cap i (htStart cap (getBucket B j).hash)) with h0 | hpos
            · exact absurd (hsm.mpr (Or.inl h0)) hmv
            · refine ⟨hpos, ?_⟩
              by_contra hgt
              push_neg at hgt
              exact hmv (hsm.mpr (Or.inr hgt))
          have hri' := remInv_skip cap entries B i j hri hjo hnm hib hstep
          have hnij := distC_next_from cap i j hri.ilt hri.jlt hstep
          refine ih B i (nextP cap j) z hri' hz hzocc hzi (by omega) (by omega)

/-- `ht_remove` of a present entry removes it and restores the probing
invariant for the remaining entries. -/
theorem ht_remove_spec (cap k : Nat) (hcap : cap = 2 ^ k) (B : List Bucket)
    (slots : List Slot) (entries : List Entry) (e : Entry) (he : e ∈ entries)
    (hinv : HtInv cap entries B)
    (hok : ∀ e' ∈ entries, entryOk slots e')
    (hpw : entries.Pairwise (fun a b => a.key ≠ b.key))
    (hload : 2 * entries.length ≤ cap) :
    HtInv cap (entries.erase e) (ht_remove B slots e.hash e.key cap).1 ∧
    (ht_remove B slots e.hash e.key cap).2 = true := by
  have hkeys : ∀ e1 ∈ entries, ∀ e2 ∈ entries, e1.key = e2.key → e1 = e2 := by
    intro e1 he1 e2 he2 hk
    by_contra hne
    have hsymm : Symmetric (fun (a b : Entry) => a.key ≠ b.key) := by
      intro a b h hk'
      exact h hk'.symm
    exact List.Pairwise.forall hsymm hpw he1 he2 hne hk
  have hnd : entries.Nodup :=
    hpw.imp (fun h => fun heq => h (heq ▸ rfl))
  have hlen1 : 1 ≤ entries.length := List.length_pos.mpr (fun h => by simp [h] at he)
  have hcap2 : 2 ≤ cap := by omega
  have hs : htStart cap e.hash < cap := by
    subst hcap
    exact htStart_lt _ _
  obtain ⟨p, hp, hpe⟩ := hinv.present e he
  have hpath : ∀ t, t < cap →
      distC cap (htStart cap e.hash) t < distC cap (htStart cap e.hash) p →
      occP B t := by
    intro t ht hlt
    have := hinv.path p hp (by rw [occP, hpe.2]; exact (hok e he).1) t ht
    rw [hpe.1] at this
    exact this hlt
  obtain ⟨r, heq, hr, hre⟩ := htFindGo_hit cap B slots entries e he hinv.content hok
    hkeys p hp hpe hpath k hcap cap (htStart cap e.hash) hs
    (by rw [distC_self]; omega) (distC_lt cap _ p hs hp)
  have hremove : ht_remove B slots e.hash e.key cap =
      (backshiftGo cap cap B r (htNext cap r), true) := by
    rw [ht_remove, heq]
  rw [hremove]
  refine ⟨?_, rfl⟩
  have hrocc : occP B r := by
    rw [occP, hre.2]
    exact (hok e he).1
  have hnxt : htNext cap r = nextP cap r := by
    subst hcap
    exact htNext_eq _ _ hr
  have hnr := nextP_ne cap r hcap2 hr
  have hri : RemInv cap (entries.erase e) B r (nextP cap r) := by
    refine ⟨hinv.blen, hr, nextP_lt cap r hr, hnr.symm, hrocc, ?_, ?_, ?_, ?_, ?_, ?_⟩
    · intro e' he'
      have he'mem : e' ∈ entries := List.mem_of_mem_erase he'
      have he'ne : e' ≠ e := ((List.Nodup.mem_erase_iff hnd).mp he').1
      obtain ⟨q, hq, hqe⟩ := hinv.present e' he'mem
      refine ⟨q, hq, ?_, hqe⟩
      intro hqr
      subst hqr
      refine he'ne (hkeys e' he'mem e he ?_)
      have hslo : e'.slot = e.slot := by
        rw [← hqe.2, hre.2]
      rw [← (hok e' he'mem).2.2.2, ← (hok e he).2.2.2, hslo]
    · intro q hq hqr hocc
      obtain ⟨e'', he'', hh⟩ := hinv.content q hq hocc
      refine ⟨e'', (List.Nodup.mem_erase_iff hnd).mpr ⟨?_, he''⟩, hh⟩
      intro he''e
      subst he''e
      exact hinv.uniq q r hq hr hqr hocc hrocc
        ⟨hh.1.trans hre.1.symm, hh.2.trans hre.2.symm⟩
    · intro q hq hqr hocc t ht hti hlt
      exact hinv.path q hq hocc t ht hlt
    · intro q hq hqr hocc hcross
      have h1 : distC cap r (nextP cap r) = 1 := by
        have := distC_next_from cap r r hr hr (by rw [distC_self]; omega)
        rw [distC_self] at this
        omega
      rw [h1]
      exact distC_pos_of_ne cap r q hr hq (fun h => hqr h.symm)
    · intro q q' hq hq' hqq' hqr hq'r hocc1 hocc2
      exact hinv.uniq q q' hq hq' hqq' hocc1 hocc2
    · have := hinv.card
      have := List.length_erase_of_mem he
      omega
  have hzex : ∃ z, z < cap ∧ ¬ occP B z := by
    by_contra hall
    push_neg at hall
    have hfe : Finset.filter (fun q => (getBucket B q).slot_index ≠ -1)
        (Finset.range cap) = Finset.range cap := by
      refine Finset.filter_eq_self.mpr ?_
      intro q hq
      exact hall q (Finset.mem_range.mp hq)
    have := hinv.card
    rw [hfe, Finset.card_range] at this
    omega
  obtain ⟨z, hz, hzocc⟩ := hzex
  have hzr : z ≠ r := fun h => hzocc (by rw [occP, h]; exact hrocc)
  rw [hnxt]
  refine backshiftGo_spec cap k hcap (entries.erase e) cap B r (nextP cap r) z hri
    hz hzocc hzr ?_ (distC_lt cap _ z (nextP_lt cap r hr) hz)
  have h1 : distC cap r (nextP cap r) = 1 := by
    have := distC_next_from cap r r hr hr (by rw [distC_self]; omega)
    rw [distC_self] at this
    omega
  rw [h1]
  exact distC_pos_of_ne cap r z hr hz (fun h => hzr h.symm)

/-- `ht_lookup` misses every key no entry carries. -/
theorem ht_lookup_miss (cap : Nat) (B : List Bucket) (slots : List Slot)
    (entries : List Entry) (kh : Nat) (kb : List Nat)
    (hinv : HtInv cap entries B)
    (hok : ∀ e ∈ entries, entryOk slots e)
    (hnokey : ∀ e ∈ entries, e.key ≠ kb) (k : Nat) (hcap : cap = 2 ^ k) :
    ht_lookup B slots kh kb cap = Option.none := by
  refine htLookupGo_miss cap B slots entries kh kb hinv.content hok hnokey k hcap
    cap (htStart cap kh) ?_
  subst hcap
  exact htStart_lt _ _

/-- Pairwise-distinct keys make the key an injective identifier. -/
theorem pairwise_keys_inj (entries : List Entry)
    (hpw : entries.Pairwise (fun a b => a.key ≠ b.key)) :
    ∀ e1 ∈ entries, ∀ e2 ∈ entries, e1.key = e2.key → e1 = e2 := by
  intro e1 he1 e2 he2 hk
  by_contra hne
  have hsymm : Symmetric (fun (a b : Entry) => a.key ≠ b.key) := by
    intro a b h hk'
    exact h hk'.symm
  exact List.Pairwise.forall hsymm hpw he1 he2 hne hk

/-- **C2.** In a table built by `ht_insert` of entries with pairwise
distinct keys at load factor at most one half, `ht_remove` of a present
key succeeds, and afterwards `ht_lookup` still returns the correct slot
index for every other entry while `ht_lookup` of the removed key
misses: the backward-shift deletion preserves the linear-probing
reachability invariant. -/
theorem backward_shift_deletion (k : Nat) (entries : List Entry)
    (slots : List Slot) (e : Entry) (he : e ∈ entries)
    (hok : ∀ e' ∈ entries, entryOk slots e')
    (hpw : entries.Pairwise (fun a b => a.key ≠ b.key))
    (hload : 2 * entries.length ≤ 2 ^ k) :
    (ht_remove (buildHt (2 ^ k) entries) slots e.hash e.key (2 ^ k)).2 = true ∧
    (∀ e' ∈ entries, e' ≠ e →
      ht_lookup (ht_remove (buildHt (2 ^ k) entries) slots e.hash e.key (2 ^ k)).1
        slots e'.hash e'.key (2 ^ k) = some e'.slot) ∧
    ht_lookup (ht_remove (buildHt (2 ^ k) entries) slots e.hash e.key (2 ^ k)).1
      slots e.hash e.key (2 ^ k) = Option.none := by
  have hinv := buildHt_inv (2 ^ k) k rfl slots entries hok hpw (by omega)
  have hnd : entries.Nodup := hpw.imp (fun h => fun heq => h (heq ▸ rfl))
  have hkeys := pairwise_keys_inj entries hpw
  obtain ⟨hinv', htrue⟩ := ht_remove_spec (2 ^ k) k rfl (buildHt (2 ^ k) entries)
    slots entries e he hinv hok hpw hload
  have hok' : ∀ x ∈ entries.erase e, entryOk slots x :=
    fun x hx => hok x (List.mem_of_mem_erase hx)
  have hkeys' : ∀ e1 ∈ entries.erase e, ∀ e2 ∈ entries.erase e,
      e1.key = e2.key → e1 = e2 :=
    fun e1 h1 e2 h2 => hkeys e1 (List.mem_of_mem_erase h1) e2 (List.mem_of_mem_erase h2)
  refine ⟨htrue, ?_, ?_⟩
  · intro e' he' hne
    have he'er : e' ∈ entries.erase e := (List.Nodup.mem_erase_iff hnd).mpr ⟨hne, he'⟩
    exact ht_lookup_hit (2 ^ k) _ slots (entries.erase e) e' he'er hinv' hok'
      hkeys' k rfl
  · refine ht_lookup_miss (2 ^ k) _ slots (entries.erase e) e.hash e.key hinv'
      hok' ?_ k rfl
    intro e'' he''
    have h1 : e'' ∈ entries := List.mem_of_mem_erase he''
    have h2 : e'' ≠ e := ((List.Nodup.mem_erase_iff hnd).mp he'').1
    exact fun hk => h2 (hkeys e'' h1 e he hk)

/-- Witness for C2: the two-entry colliding table at load factor one
half satisfies every hypothesis, and the theorem applies to removing
the first entry. -/
theorem backward_shift_deletion_witness :
    ((⟨0, [1], 0⟩ : Entry) ∈ c2entries) ∧
    (∀ e' ∈ c2entries, entryOk c2slots e') ∧
    c2entries.Pairwise (fun a b => a.key ≠ b.key) ∧
    2 * c2entries.length ≤ 2 ^ 2 ∧
    ((ht_remove (buildHt (2 ^ 2) c2entries) c2slots (⟨0, [1], 0⟩ : Entry).hash
        (⟨0, [1], 0⟩ : Entry).key (2 ^ 2)).2 = true ∧
     (∀ e' ∈ c2entries, e' ≠ (⟨0, [1], 0⟩ : Entry) →
       ht_lookup (ht_remove (buildHt (2 ^ 2) c2entries) c2slots
           (⟨0, [1], 0⟩ : Entry).hash (⟨0, [1], 0⟩ : Entry).key (2 ^ 2)).1
         c2slots e'.hash e'.key (2 ^ 2) = some e'.slot) ∧
     ht_lookup (ht_remove (buildHt (2 ^ 2) c2entries) c2slots
         (⟨0, [1], 0⟩ : Entry).hash (⟨0, [1], 0⟩ : Entry).key (2 ^ 2)).1
       c2slots (⟨0, [1], 0⟩ : Entry).hash (⟨0, [1], 0⟩ : Entry).key (2 ^ 2) =
       Option.none) := by
  have h1 : (⟨0, [1], 0⟩ : Entry) ∈ c2entries := by
    simp [c2entries]
  have h2 : ∀ e' ∈ c2entries, entryOk c2slots e' := by
    intro e' he'
    simp only [c2entries, List.mem_cons, List.not_mem_nil, or_false] at he'
    rcases he' with rfl | rfl
    · unfold entryOk
      refine ⟨by decide, by decide, by decide, by decide⟩
    · unfold entryOk
      refine ⟨by decide, by decide, by decide, by decide⟩
  have h3 : c2entries.Pairwise (fun a b => a.key ≠ b.key) := by
    unfold c2entries
    refine List.Pairwise.cons ?_ (List.Pairwise.cons (by simp) List.Pairwise.nil)
    intro b hb
    simp only [List.mem_cons, List.not_mem_nil, or_false] at hb
    subst hb
    decide
  have h4 : 2 * c2entries.length ≤ 2 ^ 2 := by
    unfold c2entries
    decide
  exact ⟨h1, h2, h3, h4,
    backward_shift_deletion 2 c2entries c2slots ⟨0, [1], 0⟩ h1 h2 h3 h4⟩

end Shm

end WarpCache
